import Mathlib

/-!
# rpm-ostree utility layer: branch codec, checksum/NEVRA splitting, ancestry
resolution, content-only import, layering metadata, version numbering and
variable substitution

Shallow embedding of `src/libpriv/rpmostree-util.c`.

* C strings are lists of bytes (`List Nat`); reading past the end of the list,
  or reading a `0` byte, is reading the terminating NUL.
* A `GString` is the list of bytes appended to it so far.
* Library calls (GLib, libostree) are modelled next to their callers and are
  marked as such.
-/

namespace RpmOstree

/-! ## Bytes and C strings -/

/-- ASCII text as a list of byte values. -/
def cstr (s : String) : List Nat := s.toList.map Char.toNat

/-- The literal `"rpmostree/pkg/"`. -/
def cache_branch_pfx : List Nat :=
  [114, 112, 109, 111, 115, 116, 114, 101, 101, 47, 112, 107, 103, 47]

/-! ## GLib: `g_ascii_strtoull` -/

/-- GLib `ISSPACE`: space, `\t`, `\n`, `\v`, `\f`, `\r`. -/
def g_ascii_isspace (c : Nat) : Bool := c == 32 || (9 ≤ c && c ≤ 13)

/-- Digit value of a byte in `g_parse_long_long`: decimal digits map to `0..9`,
letters of either case to `10..35`, anything else is not a digit. -/
def g_digit_value (c : Nat) : Option Nat :=
  if 48 ≤ c ∧ c ≤ 57 then some (c - 48)
  else if 97 ≤ c ∧ c ≤ 122 then some (c - 97 + 10)
  else if 65 ≤ c ∧ c ≤ 90 then some (c - 65 + 10)
  else none

/-- Largest `guint64`. -/
def G_MAXUINT64 : Nat := 2 ^ 64 - 1

/-- The digit loop of `g_parse_long_long`: returns the accumulated value, the
overflow flag and whether at least one digit was consumed. -/
def g_parse_digits (base : Nat) : List Nat → Nat → Bool → Bool → Nat × Bool × Bool
  | [], ui64, overflow, moved => (ui64, overflow, moved)
  | c :: s, ui64, overflow, moved =>
    if c = 0 then (ui64, overflow, moved)
    else
      match g_digit_value c with
      | none => (ui64, overflow, moved)
      | some d =>
        if base ≤ d then (ui64, overflow, moved)
        else if G_MAXUINT64 / base < ui64 ∨ (ui64 = G_MAXUINT64 / base ∧ G_MAXUINT64 % base < d) then
          g_parse_digits base s ui64 true true
        else
          g_parse_digits base s (ui64 * base + d) overflow true

/-- Skips leading white space (`while (ISSPACE (*s)) ++s`). -/
def g_skip_space : List Nat → List Nat
  | [] => []
  | c :: s => if g_ascii_isspace c then g_skip_space s else c :: s

/-- GLib `g_parse_long_long` for a fixed base (10 or 16 here): the magnitude and
the sign flag. -/
def g_parse_long_long (nptr : List Nat) (base : Nat) : Nat × Bool :=
  let s := g_skip_space nptr
  if s.headD 0 = 0 then (0, false)
  else
    let negative := s.headD 0 == 45
    let s1 := if s.headD 0 = 45 ∨ s.headD 0 = 43 then s.tail else s
    let s2 :=
      if s1.headD 0 = 48 ∧ base = 16 ∧ ((s1.tail).headD 0 = 120 ∨ (s1.tail).headD 0 = 88) then
        s1.tail.tail
      else s1
    match g_parse_digits base s2 0 false false with
    | (ui64, overflow, moved) =>
      if !moved then (0, negative)
      else if overflow then (G_MAXUINT64, negative)
      else (ui64, negative)

/-- GLib `g_ascii_strtoull (nptr, NULL, base)`: the parsed `guint64`, negated
modulo `2^64` after a minus sign. -/
def g_ascii_strtoull (nptr : List Nat) (base : Nat) : Nat :=
  match g_parse_long_long nptr base with
  | (result, negative) => if negative then (2 ^ 64 - result) % 2 ^ 64 else result

/-! ## Branch codec: `rpmostree_cache_branch_to_nevra` -/

/-- The `for (p = cachebranch; *p; p++)` loop of `rpmostree_cache_branch_to_nevra`.
The first argument is the text from `p` on, the second the `GString` `r`. -/
def cache_branch_scan : List Nat → List Nat → List Nat
  | [], r => r
  | c :: p, r =>
    if c = 0 then r
    else if c ≠ 95 then
      if c = 47 then cache_branch_scan p (r ++ [45])
      else cache_branch_scan p (r ++ [c])
    else
      match p with
      | [] => r
      | c1 :: p1 =>
        if c1 = 95 then cache_branch_scan p1 (r ++ [c1])
        else if c1 = 0 then r
        else
          match p1 with
          | [] => r
          | c2 :: p2 =>
            if c2 = 0 then r
            else cache_branch_scan p2 (r ++ [g_ascii_strtoull [c1, c2] 16 % 256])

/-- Translates a cache branch back to a NEVRA (`rpmostree_cache_branch_to_nevra`).
`none` is the failed `g_assert` on the `"rpmostree/pkg/"` start of the branch;
otherwise the result is the content of the returned `GString` buffer, byte for
byte (an escape `_00` stores a NUL byte in it). -/
def rpmostree_cache_branch_to_nevra (cachebranch : List Nat) : Option (List Nat) :=
  if cache_branch_pfx.isPrefixOf cachebranch then
    some (cache_branch_scan (cachebranch.drop cache_branch_pfx.length) [])
  else none

/-- Hexadecimal digit characters `0-9`, `a-f`, `A-F`. -/
def is_hex_digit (c : Nat) : Bool :=
  (48 ≤ c && c ≤ 57) || (97 ≤ c && c ≤ 102) || (65 ≤ c && c ≤ 70)

/-- Value of a hexadecimal digit character. -/
def hex (c : Nat) : Nat :=
  if 48 ≤ c ∧ c ≤ 57 then c - 48
  else if 97 ≤ c ∧ c ≤ 102 then c - 87
  else c - 55

/-- Remainders built only from plain bytes other than `_`, `-` and NUL, and from
the two-byte escape `__`. -/
def plain_escapes_only : List Nat → Bool
  | [] => true
  | c :: p =>
    if c = 95 then
      match p with
      | [] => false
      | c1 :: p1 => c1 == 95 && plain_escapes_only p1
    else c != 45 && c != 0 && plain_escapes_only p

/-- The twenty-two hexadecimal digit characters. -/
def hex_digits : List Nat :=
  [48, 49, 50, 51, 52, 53, 54, 55, 56, 57, 97, 98, 99, 100, 101, 102, 65, 66, 67, 68, 69, 70]

/-! ## Checksum and NEVRA splitting: `rpmostree_decompose_sha256_nevra` -/

/-- C `strlen`: the number of bytes before the first NUL. -/
def strlen (s : List Nat) : Nat := (s.takeWhile (fun b => b != 0)).length

/-- GLib `g_strndup (s, n)`: at most `n` bytes of the string. -/
def g_strndup (s : List Nat) (n : Nat) : List Nat := (s.takeWhile (fun b => b != 0)).take n

/-- libostree `ostree_validate_checksum_string`: exactly 64 characters, each one
of `0-9` or `a-f`. -/
def ostree_validate_checksum_string (sha256 : List Nat) : Bool :=
  sha256.length == 64 && sha256.all (fun c => (48 ≤ c && c ≤ 57) || (97 ≤ c && c ≤ 102))

/-- Splits `<sha256>:<nevra>` (`rpmostree_decompose_sha256_nevra`). The checksum
validator is a parameter. The result is the returned `gboolean`, the value of
`*nevra` after the call and what was stored to `*out_sha256` (the caller is
assumed to pass a non-NULL `out_sha256`). -/
def rpmostree_decompose_sha256_nevra (validate : List Nat → Bool) (nevra : List Nat) :
    Bool × List Nat × Option (List Nat) :=
  let sha256_nevra := nevra
  if strlen sha256_nevra < 66 ∨ sha256_nevra.getD 64 0 ≠ 58 then (false, nevra, none)
  else
    let sha256 := g_strndup sha256_nevra 64
    if !validate sha256 then (false, nevra, none)
    else (true, nevra.drop 65, some sha256)

/-! ## The object store (libostree), as far as the callers use it -/

/-- Error codes of the `G_IO_ERROR` domain that occur here. -/
inductive GIOErrorEnum where
  | FAILED
  | NOT_FOUND
  | CANCELLED
  | OTHER (code : Nat)
  deriving DecidableEq, Repr

/-- A `GError`: code and message. -/
structure GError where
  code : GIOErrorEnum
  message : String
  deriving DecidableEq, Repr

deriving instance DecidableEq for Except

/-- Kinds of stored objects. -/
inductive OstreeObjectType where
  | FILE
  | DIR_TREE
  | DIR_META
  | COMMIT
  deriving DecidableEq, Repr

/-- A `GVariant` held as a `v` child of a container: a string array, or a value
of another type given by its type string and serialised bytes. -/
inductive GVariantChild where
  | strv (l : List String)
  | other (type_string : String) (data : List Nat)
  deriving DecidableEq, Repr

/-- A `GVariant` of the commit metadata, by type: `b`, `u`, `as`, `a{sv}`, `av`,
`a(vv)`, or a value of another type given by its type string and serialised
bytes. -/
inductive GVariant where
  | boolean (b : Bool)
  | uint32 (n : Nat)
  | strv (l : List String)
  | vardict (entries : List (String × GVariantChild))
  | array_v (items : List GVariantChild)
  | array_vv (items : List (GVariantChild × GVariantChild))
  | other (type_string : String) (data : List Nat)
  deriving DecidableEq, Repr

/-- A commit object: parent checksum (`ostree_commit_get_parent`), the
checksums of the root directory tree and its metadata, and the metadata
dictionary `a{sv}` (child 0 of the commit variant). -/
structure Commit where
  parent : Option String
  root_dirtree : String
  root_dirmeta : String
  metadata : List (String × GVariant) := []
  deriving DecidableEq, Repr

/-- A directory tree object: file entries `(name, file checksum)` and
subdirectory entries `(name, dirtree checksum, dirmeta checksum)`. -/
structure DirTree where
  files : List (String × String)
  dirs : List (String × String × String)
  deriving DecidableEq, Repr

/-- Modelled from the spec: the object store contract of section 4.1. A store
resolves refs (`read_commit`), loads commit and directory-tree objects, holds a
set of objects, and can hand out an object for copying into another store
(`export_object`); each operation either succeeds or fails with a `GError`
(`NotFound`, `StoreIO`, ...). -/
structure OstreeRepo where
  read_commit : String → Except GError String
  load_commit : String → Except GError Commit
  load_dirtree : String → Except GError DirTree
  export_object : OstreeObjectType → String → Except GError Unit
  objects : List (OstreeObjectType × String)

/-- Modelled from the spec: `import_object(dest, src, kind, digest)` copies one
object from `src` into `dest`; it is a no-op if `dest` already has the object
and fails, leaving `dest` as it was, if `src` cannot provide it. -/
def ostree_repo_import_object_from (dest src : OstreeRepo) (objtype : OstreeObjectType)
    (checksum : String) : Except GError OstreeRepo :=
  if (objtype, checksum) ∈ dest.objects then .ok dest
  else
    match src.export_object objtype checksum with
    | .error e => .error e
    | .ok _ => .ok { dest with objects := dest.objects ++ [(objtype, checksum)] }

/-! ## Ancestry resolution: `_rpmostree_util_get_commit_hashes` -/

/-- Parent of a commit (`ost_get_prev_commit`): `none` both when the commit has
no parent and when the commit object fails to load (the load is called with a
NULL `GError **`). -/
def ost_get_prev_commit (repo : OstreeRepo) (checksum : String) : Option String :=
  match repo.load_commit checksum with
  | .error _ => none
  | .ok commit => commit.parent

/-- The `while ((parent = ost_get_prev_commit (repo, checksum)))` loop. Arguments:
fuel, `end`, `end_checksum`, `checksum`, `ret`. Returns `ret` and the value of
`parent` when the loop is left; `none` when the fuel runs out. -/
def commit_hashes_walk (repo : OstreeRepo) (end_ end_checksum : Option String) :
    Nat → String → List String → Option (List String × Option String)
  | 0, _, _ => none
  | fuel + 1, checksum, ret =>
    match ost_get_prev_commit repo checksum with
    | none => some (ret, none)
    | some parent =>
      match end_ with
      | some e =>
        if end_checksum = some parent then some (ret ++ [e], some parent)
        else commit_hashes_walk repo end_ end_checksum fuel parent (ret ++ [parent])
      | none => commit_hashes_walk repo end_ end_checksum fuel parent (ret ++ [parent])

/-- The error set when the walk ends without meeting `end`. -/
def invalid_ref_range (end_ beg : String) : GError :=
  { code := .FAILED,
    message := "Invalid ref range: " ++ end_ ++ " is not a parent of " ++ beg }

/-- Resolution of `end` (`end && !ostree_repo_read_commit (repo, end, ...)`):
`end_checksum` stays NULL when `end` is NULL. -/
def read_end_commit (repo : OstreeRepo) : Option String → Except GError (Option String)
  | none => .ok none
  | some e =>
    match repo.read_commit e with
    | .error err => .error err
    | .ok end_checksum => .ok (some end_checksum)

/-- The list of commit identifiers from `beg` back to `end`
(`_rpmostree_util_get_commit_hashes`). `none` is an exhausted fuel; an error
result is the NULL return with `*error` set. -/
def _rpmostree_util_get_commit_hashes (fuel : Nat) (repo : OstreeRepo) (beg : String)
    (end_ : Option String) : Option (Except GError (List String)) :=
  match repo.read_commit beg with
  | .error e => some (.error e)
  | .ok beg_checksum =>
    let ret := [beg]
    match read_end_commit repo end_ with
    | .error e => some (.error e)
    | .ok end_checksum =>
      if end_.isSome ∧ end_checksum = some beg_checksum then some (.ok ret)
      else
        match commit_hashes_walk repo end_ end_checksum fuel beg_checksum ret with
        | none => none
        | some (ret1, parent) =>
          match end_ with
          | some e =>
            if parent.isNone then some (.error (invalid_ref_range e beg))
            else some (.ok ret1)
          | none => some (.ok ret1)

/-- The chain of parent links: each checksum in the list is a loadable commit
whose parent is the next one. -/
def ParentChain (repo : OstreeRepo) : List String → Prop
  | [] => True
  | [_] => True
  | d :: d1 :: ds => ost_get_prev_commit repo d = some d1 ∧ ParentChain repo (d1 :: ds)

/-- Decision procedure for `ParentChain`. -/
def decParentChain (repo : OstreeRepo) : (l : List String) → Decidable (ParentChain repo l)
  | [] => isTrue trivial
  | [_] => isTrue trivial
  | d :: d1 :: ds =>
    have : Decidable (ParentChain repo (d1 :: ds)) := decParentChain repo (d1 :: ds)
    (inferInstance :
      Decidable (ost_get_prev_commit repo d = some d1 ∧ ParentChain repo (d1 :: ds)))

instance (repo : OstreeRepo) (l : List String) : Decidable (ParentChain repo l) :=
  decParentChain repo l

/-- The store of the chain `A <- B <- C`: the refs `A`, `B`, `C` name the commits
`dA`, `dB`, `dC`, the ref `X` names an unrelated root commit `dX`; a checksum
resolves to itself. -/
def chain_repo : OstreeRepo where
  read_commit := fun r =>
    if r = "A" ∨ r = "dA" then .ok "dA"
    else if r = "B" ∨ r = "dB" then .ok "dB"
    else if r = "C" ∨ r = "dC" then .ok "dC"
    else if r = "X" ∨ r = "dX" then .ok "dX"
    else .error { code := .NOT_FOUND, message := "Refspec not found" }
  load_commit := fun d =>
    if d = "dA" then .ok { parent := none, root_dirtree := "tA", root_dirmeta := "mA" }
    else if d = "dB" then .ok { parent := some "dA", root_dirtree := "tB", root_dirmeta := "mB" }
    else if d = "dC" then .ok { parent := some "dB", root_dirtree := "tC", root_dirmeta := "mC" }
    else if d = "dX" then .ok { parent := none, root_dirtree := "tX", root_dirmeta := "mX" }
    else .error { code := .NOT_FOUND, message := "No such commit" }
  load_dirtree := fun _ => .error { code := .NOT_FOUND, message := "No such dirtree" }
  export_object := fun _ _ => .error { code := .NOT_FOUND, message := "No such object" }
  objects := []

/-- A store holding only the newest commit of `A <- B <- C`: `dC` loads and names
`dB` as its parent, the commit object `dB` is absent. -/
def shallow_repo : OstreeRepo where
  read_commit := fun r =>
    if r = "A" then .ok "dA"
    else if r = "C" then .ok "dC"
    else .error { code := .NOT_FOUND, message := "Refspec not found" }
  load_commit := fun d =>
    if d = "dC" then .ok { parent := some "dB", root_dirtree := "tC", root_dirmeta := "mC" }
    else .error { code := .NOT_FOUND, message := "No such commit" }
  load_dirtree := fun _ => .error { code := .NOT_FOUND, message := "No such dirtree" }
  export_object := fun _ _ => .error { code := .NOT_FOUND, message := "No such object" }
  objects := []

/-! ## Content-only import: `rpmostree_pull_content_only` -/

/-- Results of `ostree_repo_commit_traverse_iter_next`, with the values that
`..._iter_get_file` and `..._iter_get_dir` return. -/
inductive OstreeRepoCommitIterResult where
  | ERROR (e : GError)
  | END
  | FILE (name checksum : String)
  | DIR (name content_checksum meta_checksum : String)
  deriving DecidableEq, Repr

/-- A traversal iterator: the results its next calls will return; an exhausted
list returns `END`. -/
abbrev OstreeRepoCommitTraverseIter := List OstreeRepoCommitIterResult

/-- Steps the iterator (`ostree_repo_commit_traverse_iter_next`). -/
def ostree_repo_commit_traverse_iter_next (iter : OstreeRepoCommitTraverseIter) :
    OstreeRepoCommitIterResult × OstreeRepoCommitTraverseIter :=
  match iter with
  | [] => (.END, [])
  | r :: rest => (r, rest)

/-- The entries of a directory tree in iteration order: files are returned
first, then subdirectories. -/
def dirtree_entries (dt : DirTree) : OstreeRepoCommitTraverseIter :=
  dt.files.map (fun f => OstreeRepoCommitIterResult.FILE f.1 f.2)
    ++ dt.dirs.map (fun d => OstreeRepoCommitIterResult.DIR d.1 d.2.1 d.2.2)

/-- Iterator over one directory tree (`..._iter_init_dirtree`). -/
def ostree_repo_commit_traverse_iter_init_dirtree (_repo : OstreeRepo) (dirtree : DirTree) :
    Except GError OstreeRepoCommitTraverseIter :=
  .ok (dirtree_entries dirtree)

/-- Iterator over the root of a commit (`..._iter_init_commit`): it returns the
root directory as its only entry. -/
def ostree_repo_commit_traverse_iter_init_commit (_repo : OstreeRepo) (commit : Commit) :
    Except GError OstreeRepoCommitTraverseIter :=
  .ok [OstreeRepoCommitIterResult.DIR "" commit.root_dirtree commit.root_dirmeta]

/-- The traversal `pull_content_only_recurse`. The result is the returned
`gboolean` with its error and the destination store as the call leaves it;
`none` is an exhausted fuel. -/
def pull_content_only_recurse :
    Nat → OstreeRepo → OstreeRepo → OstreeRepoCommitTraverseIter →
      Option (Except GError Unit × OstreeRepo)
  | 0, _, _, _ => none
  | fuel + 1, dest, src, iter =>
    match ostree_repo_commit_traverse_iter_next iter with
    | (.ERROR e, _) => some (.error e, dest)
    | (.END, _) => some (.ok (), dest)
    | (.FILE _ checksum, iter1) =>
      match ostree_repo_import_object_from dest src .FILE checksum with
      | .error e => some (.error e, dest)
      | .ok dest1 => pull_content_only_recurse fuel dest1 src iter1
    | (.DIR _ content_checksum _, iter1) =>
      match src.load_dirtree content_checksum with
      | .error e => some (.error e, dest)
      | .ok dirtree =>
        match ostree_repo_commit_traverse_iter_init_dirtree src dirtree with
        | .error e => some (.error e, dest)
        | .ok subiter =>
          match pull_content_only_recurse fuel dest src subiter with
          | none => none
          | some (.error e, dest1) => some (.error e, dest1)
          | some (.ok _, dest1) => pull_content_only_recurse fuel dest1 src iter1

/-- Migrates only the content objects of `src_commit` from `src` into `dest`
(`rpmostree_pull_content_only`). -/
def rpmostree_pull_content_only (fuel : Nat) (dest src : OstreeRepo) (src_commit : String) :
    Option (Except GError Unit × OstreeRepo) :=
  match src.load_commit src_commit with
  | .error e => some (.error e, dest)
  | .ok commitdata =>
    match ostree_repo_commit_traverse_iter_init_commit src commitdata with
    | .error e => some (.error e, dest)
    | .ok iter => pull_content_only_recurse fuel dest src iter

/-- File checksums reachable from the directory tree with checksum `d`, at any
depth, through loadable directory trees of `src`. -/
inductive FileReachable (src : OstreeRepo) : String → String → Prop where
  | here (d : String) (dt : DirTree) (name c : String) :
      src.load_dirtree d = .ok dt → (name, c) ∈ dt.files → FileReachable src d c
  | sub (d : String) (dt : DirTree) (name cc mc c : String) :
      src.load_dirtree d = .ok dt → (name, cc, mc) ∈ dt.dirs → FileReachable src cc c →
      FileReachable src d c

/-- The tree below the directory tree with checksum `d` has at most `n` levels,
each of its directory trees loads from `src`, and it has no file entry. -/
def FilelessTree (src : OstreeRepo) : Nat → String → Prop
  | 0, _ => False
  | n + 1, d => ∃ dt, src.load_dirtree d = .ok dt ∧ dt.files = []
      ∧ ∀ e ∈ dt.dirs, FilelessTree src n e.2.1

/-- The tree below the directory tree with checksum `d` has at most `n` levels:
it is finite and acyclic. -/
def FiniteTree (src : OstreeRepo) : Nat → String → Prop
  | 0, _ => False
  | n + 1, d => ∀ dt, src.load_dirtree d = .ok dt → ∀ e ∈ dt.dirs, FiniteTree src n e.2.1

/-- A source store with two commits. `c1` has the root tree `t0` holding the file
`fa` and the subdirectory `t1`, which holds the file `fb`. `c0` has the root
tree `e0` holding no file and the empty subdirectory `e1`. -/
def tree_repo : OstreeRepo where
  read_commit := fun r => .ok r
  load_commit := fun d =>
    if d = "c1" then .ok { parent := none, root_dirtree := "t0", root_dirmeta := "m0" }
    else if d = "c0" then .ok { parent := none, root_dirtree := "e0", root_dirmeta := "m0" }
    else .error { code := .NOT_FOUND, message := "No such commit" }
  load_dirtree := fun d =>
    if d = "t0" then .ok { files := [("a", "fa")], dirs := [("sub", "t1", "m1")] }
    else if d = "t1" then .ok { files := [("b", "fb")], dirs := [] }
    else if d = "e0" then .ok { files := [], dirs := [("sub", "e1", "m1")] }
    else if d = "e1" then .ok { files := [], dirs := [] }
    else .error { code := .NOT_FOUND, message := "No such dirtree" }
  export_object := fun _ c =>
    if c = "fa" ∨ c = "fb" then .ok ()
    else .error { code := .NOT_FOUND, message := "No such object" }
  objects := [(.COMMIT, "c1"), (.COMMIT, "c0")]

/-- A destination store that holds one commit and no content. -/
def dest_repo : OstreeRepo where
  read_commit := fun _ => .error { code := .NOT_FOUND, message := "Refspec not found" }
  load_commit := fun _ => .error { code := .NOT_FOUND, message := "No such commit" }
  load_dirtree := fun _ => .error { code := .NOT_FOUND, message := "No such dirtree" }
  export_object := fun _ _ => .error { code := .NOT_FOUND, message := "No such object" }
  objects := [(.COMMIT, "base")]

/-- File checksums below an iterator: its own file entries and the files
reachable from its directory entries. -/
def IterFile (src : OstreeRepo) (iter : OstreeRepoCommitTraverseIter) (c : String) : Prop :=
  (∃ name, OstreeRepoCommitIterResult.FILE name c ∈ iter)
    ∨ (∃ name cc mc, OstreeRepoCommitIterResult.DIR name cc mc ∈ iter ∧ FileReachable src cc c)

/-- One action of the traversal: the import of a file object, the load of a
subdirectory tree, or an `ERROR` result of the iterator. -/
inductive TraverseStep where
  | import_file (checksum : String)
  | load_dirtree (checksum : String)
  | iter_error (e : GError)
  deriving DecidableEq, Repr

/-- The actions of the depth-first traversal of an iterator in the order in which
`pull_content_only_recurse` reaches them when nothing fails: the entries of a
directory in iterator order, each subdirectory load followed by the actions of
that subdirectory. A subdirectory that does not load contributes its load
action only. `none` is an exhausted fuel. -/
def traversal_steps (src : OstreeRepo) :
    Nat → OstreeRepoCommitTraverseIter → Option (List TraverseStep)
  | 0, _ => none
  | fuel + 1, iter =>
    match iter with
    | [] => some []
    | .END :: _ => some []
    | .ERROR e :: _ => some [.iter_error e]
    | .FILE _ checksum :: rest =>
      match traversal_steps src fuel rest with
      | none => none
      | some after => some (.import_file checksum :: after)
    | .DIR _ content_checksum _ :: rest =>
      match src.load_dirtree content_checksum with
      | .error _ =>
        match traversal_steps src fuel rest with
        | none => none
        | some after => some (.load_dirtree content_checksum :: after)
      | .ok dirtree =>
        match traversal_steps src fuel (dirtree_entries dirtree), traversal_steps src fuel rest with
        | some below, some after => some (.load_dirtree content_checksum :: (below ++ after))
        | _, _ => none

/-- The error with which one action fails on the destination `dest`, if it fails. -/
def step_failure (dest src : OstreeRepo) : TraverseStep → Option GError
  | .import_file checksum =>
    match ostree_repo_import_object_from dest src .FILE checksum with
    | .error e => some e
    | .ok _ => none
  | .load_dirtree checksum =>
    match src.load_dirtree checksum with
    | .error e => some e
    | .ok _ => none
  | .iter_error e => some e

/-- Performs a list of actions in order and stops at the first one that fails. -/
def run_steps (src : OstreeRepo) : OstreeRepo → List TraverseStep → Except GError Unit × OstreeRepo
  | dest, [] => (.ok (), dest)
  | dest, .import_file checksum :: rest =>
    match ostree_repo_import_object_from dest src .FILE checksum with
    | .error e => (.error e, dest)
    | .ok dest1 => run_steps src dest1 rest
  | dest, .load_dirtree checksum :: rest =>
    match src.load_dirtree checksum with
    | .error e => (.error e, dest)
    | .ok _ => run_steps src dest rest
  | dest, .iter_error e :: _ => (.error e, dest)

/-- A source store whose commit `c2` has the root tree `t0` with the files `fa`,
`fx` and the subdirectory `t1` with the file `fb`; the content object `fx`
cannot be read. -/
def faulty_tree_repo : OstreeRepo where
  read_commit := fun r => .ok r
  load_commit := fun d =>
    if d = "c2" then .ok { parent := none, root_dirtree := "t0", root_dirmeta := "m0" }
    else .error { code := .NOT_FOUND, message := "No such commit" }
  load_dirtree := fun d =>
    if d = "t0" then
      .ok { files := [("a", "fa"), ("x", "fx")], dirs := [("sub", "t1", "m1")] }
    else if d = "t1" then .ok { files := [("b", "fb")], dirs := [] }
    else .error { code := .NOT_FOUND, message := "No such dirtree" }
  export_object := fun _ c =>
    if c = "fa" ∨ c = "fb" then .ok ()
    else .error { code := .OTHER 5, message := "Input/output error" }
  objects := [(.COMMIT, "c2")]

/-- The store `dest_repo` after the two files of commit `c1` were imported. -/
def dest_repo_full : OstreeRepo :=
  { dest_repo with objects := [(.COMMIT, "base"), (.FILE, "fa"), (.FILE, "fb")] }

/-- The store `dest_repo` after the file `fa` was imported. -/
def dest_repo_fa : OstreeRepo :=
  { dest_repo with objects := [(.COMMIT, "base"), (.FILE, "fa")] }

/-! ## Layering metadata: `rpmostree_deployment_get_layered_info` -/

/-- A deployment, as far as used here: the checksum of its commit. -/
structure OstreeDeployment where
  csum : String
  deriving DecidableEq, Repr

/-- The commit checksum of a deployment (`ostree_deployment_get_csum`). -/
def ostree_deployment_get_csum (deployment : OstreeDeployment) : String := deployment.csum

/-- A `GVariantDict`: the entries it was filled with, in insertion order. -/
abbrev GVariantDict := List (String × GVariant)

/-- GLib `g_variant_dict_new`: every entry of the `a{sv}` is inserted in turn. -/
def g_variant_dict_new (asv : List (String × GVariant)) : GVariantDict := asv

/-- The value a dictionary holds for a key: the one inserted last. -/
def g_variant_dict_get (dict : GVariantDict) (key : String) : Option GVariant :=
  dict.reverse.lookup key

/-- GLib `g_variant_dict_contains`. -/
def g_variant_dict_contains (dict : GVariantDict) (key : String) : Bool :=
  (g_variant_dict_get dict key).isSome

/-- The type string of a value. -/
def g_variant_get_type_string : GVariant → String
  | .boolean _ => "b"
  | .uint32 _ => "u"
  | .strv _ => "as"
  | .vardict _ => "a\x7bsv\x7d"
  | .array_v _ => "av"
  | .array_vv _ => "a(vv)"
  | .other type_string _ => type_string

/-- GLib `g_variant_dict_lookup_value`: the value of the key if it has the
expected type, NULL otherwise. -/
def g_variant_dict_lookup_value (dict : GVariantDict) (key : String) (expected_type : String) :
    Option GVariant :=
  match g_variant_dict_get dict key with
  | none => none
  | some v => if g_variant_get_type_string v = expected_type then some v else none

/-- GLib `g_variant_dict_lookup (dict, key, "b", &out)`. -/
def g_variant_dict_lookup_boolean (dict : GVariantDict) (key : String) : Option Bool :=
  match g_variant_dict_lookup_value dict key "b" with
  | some (.boolean b) => some b
  | _ => none

/-- GLib `g_variant_dict_lookup (dict, key, "u", &out)`. -/
def g_variant_dict_lookup_uint32 (dict : GVariantDict) (key : String) : Option Nat :=
  match g_variant_dict_lookup_value dict key "u" with
  | some (.uint32 n) => some n
  | _ => none

/-- GLib `g_variant_dict_lookup (dict, key, "^as", &out)`. -/
def g_variant_dict_lookup_strv (dict : GVariantDict) (key : String) : Option (List String) :=
  match g_variant_dict_lookup_value dict key "as" with
  | some (.strv l) => some l
  | _ => none

/-- A `v` child as a value of its own. -/
def GVariantChild.toVariant : GVariantChild → GVariant
  | .strv l => .strv l
  | .other type_string data => .other type_string data

/-- The entries of an `a{sv}` value, for `g_variant_dict_new`. -/
def g_variant_asv_entries : GVariant → List (String × GVariant)
  | .vardict entries => entries.map (fun kv => (kv.1, kv.2.toVariant))
  | _ => []

/-- The outputs of `rpmostree_deployment_get_layered_info`. For each one the
outer `none` is an output pointer that was NULL, so nothing was stored; the
inner `none` of a pointer-valued output is a stored NULL. -/
structure LayeredInfo where
  is_layered : Option Bool
  base_layer : Option (Option String)
  layered_pkgs : Option (Option (List String))
  removed_base_pkgs : Option (Option GVariant)
  replaced_base_pkgs : Option (Option GVariant)
  deriving DecidableEq, Repr

/-- The block `only fetch base if we have to`: the local `base_layer`. `none` is
the failed `g_assert (base_layer)`. -/
def layered_info_fetch_base (commit : Commit) (is_layered out_base_layer : Bool) :
    Option (Option String) :=
  if is_layered ∧ out_base_layer then
    match commit.parent with
    | none => none
    | some base_layer => some (some base_layer)
  else some none

/-- The lookup of the layered packages: from `rpmostree.packages` for versions
from 1 on, from the `packages` entry of the treespec `rpmostree.spec` before.
`none` is a failed `g_assert`. -/
def layered_info_fetch_layered_pkgs (dict : GVariantDict) (clientlayer_version : Nat) :
    Option (List String) :=
  if 1 ≤ clientlayer_version then g_variant_dict_lookup_strv dict "rpmostree.packages"
  else if g_variant_dict_contains dict "rpmostree.spec" then
    match g_variant_dict_lookup_value dict "rpmostree.spec" "a\x7bsv\x7d" with
    | none => none
    | some treespec_v =>
      let treespec := g_variant_dict_new (g_variant_asv_entries treespec_v)
      g_variant_dict_lookup_strv treespec "packages"
  else none

/-- The block `only fetch pkgs if we have to`: the locals `layered_pkgs`,
`removed_base_pkgs` and `replaced_base_pkgs`. `none` is a failed `g_assert`. -/
def layered_info_fetch_pkgs (dict : GVariantDict) (is_layered : Bool) (clientlayer_version : Nat)
    (out_layered_pkgs out_removed_base_pkgs : Bool) :
    Option (Option (List String) × Option GVariant × Option GVariant) :=
  if is_layered ∧ (out_layered_pkgs ∨ out_removed_base_pkgs) then
    match layered_info_fetch_layered_pkgs dict clientlayer_version with
    | none => none
    | some layered_pkgs =>
      if 2 ≤ clientlayer_version then
        match g_variant_dict_lookup_value dict "rpmostree.removed-base-packages" "av" with
        | none => none
        | some removed_base_pkgs =>
          match g_variant_dict_lookup_value dict "rpmostree.replaced-base-packages" "a(vv)" with
          | none => none
          | some replaced_base_pkgs =>
            some (some layered_pkgs, some removed_base_pkgs, some replaced_base_pkgs)
      else some (some layered_pkgs, none, none)
  else some (none, none, none)

/-- Decodes the layering facts of the commit of a deployment
(`rpmostree_deployment_get_layered_info`). The five flags say which output
pointers are non-NULL. `none` is a failed `g_assert` (the process aborts); an
error result is the `FALSE` return of a failed commit load. -/
def rpmostree_deployment_get_layered_info (repo : OstreeRepo) (deployment : OstreeDeployment)
    (out_is_layered out_base_layer out_layered_pkgs out_removed_base_pkgs
      out_replaced_base_pkgs : Bool) : Option (Except GError LayeredInfo) :=
  let csum := ostree_deployment_get_csum deployment
  match repo.load_commit csum with
  | .error e => some (.error e)
  | .ok commit =>
    let dict := g_variant_dict_new commit.metadata
    let is_layered :=
      match g_variant_dict_lookup_boolean dict "rpmostree.clientlayer" with
      | some b => b
      | none => g_variant_dict_contains dict "rpmostree.spec"
    let clientlayer_version :=
      match g_variant_dict_lookup_uint32 dict "rpmostree.clientlayer_version" with
      | some n => n
      | none => 0
    match layered_info_fetch_base commit is_layered out_base_layer with
    | none => none
    | some base_layer =>
      match layered_info_fetch_pkgs dict is_layered clientlayer_version out_layered_pkgs
          out_removed_base_pkgs with
      | none => none
      | some (layered_pkgs, removed_base_pkgs, replaced_base_pkgs) =>
        some (.ok
          { is_layered := if out_is_layered then some is_layered else none,
            base_layer := if out_base_layer then some base_layer else none,
            layered_pkgs :=
              if out_layered_pkgs then
                some (some (match layered_pkgs with
                  | none => []
                  | some l => l))
              else none,
            removed_base_pkgs :=
              if out_removed_base_pkgs then
                some (some (match removed_base_pkgs with
                  | none => GVariant.array_v []
                  | some v => v))
              else none,
            replaced_base_pkgs :=
              if out_replaced_base_pkgs then
                some (some (match replaced_base_pkgs with
                  | none => GVariant.array_vv []
                  | some v => v))
              else none })

/-- The layering flag as the metadata states it: the value of the boolean
`rpmostree.clientlayer` if that key holds a boolean, otherwise whether the key
`rpmostree.spec` is present. -/
def metadata_is_layered (metadata : List (String × GVariant)) : Bool :=
  match g_variant_dict_get metadata "rpmostree.clientlayer" with
  | some (.boolean b) => b
  | _ => (g_variant_dict_get metadata "rpmostree.spec").isSome

/-- The client layer version as the metadata states it: the unsigned integer
under `rpmostree.clientlayer_version`, or 0 if there is none. -/
def metadata_clientlayer_version (metadata : List (String × GVariant)) : Nat :=
  match g_variant_dict_get metadata "rpmostree.clientlayer_version" with
  | some (.uint32 n) => n
  | _ => 0

/-- A commit without layering flag that carries a treespec with the packages
`foo`, `bar`. -/
def legacy_commit : Commit :=
  { parent := some "base0", root_dirtree := "t", root_dirmeta := "m",
    metadata := [("rpmostree.spec",
      .vardict [("packages", .strv ["foo", "bar"]), ("ref", .other "s" [120])])] }

/-- A commit without layering flag and without treespec. -/
def plain_commit : Commit :=
  { parent := some "base0", root_dirtree := "t", root_dirmeta := "m",
    metadata := [("version", .other "s" [50, 54])] }

/-- A layered commit of version 2 with packages, removed and replaced base
packages. -/
def v2_commit : Commit :=
  { parent := some "base0", root_dirtree := "t", root_dirmeta := "m",
    metadata := [("rpmostree.clientlayer", .boolean true),
      ("rpmostree.clientlayer_version", .uint32 2),
      ("rpmostree.packages", .strv ["vim"]),
      ("rpmostree.removed-base-packages", .array_v [.other "(sss)" [1]]),
      ("rpmostree.replaced-base-packages",
        .array_vv [(.other "(sss)" [2], .other "(sss)" [3])])] }

/-- A commit whose layering flag is false beside a treespec. -/
def unflagged_commit : Commit :=
  { parent := some "base0", root_dirtree := "t", root_dirmeta := "m",
    metadata := [("rpmostree.clientlayer", .boolean false),
      ("rpmostree.spec", .vardict [("packages", .strv ["foo"])])] }

/-- A store with the four commits `legacy`, `plain`, `v2` and `unflagged`. -/
def layered_repo : OstreeRepo where
  read_commit := fun r => .ok r
  load_commit := fun d =>
    if d = "legacy" then .ok legacy_commit
    else if d = "plain" then .ok plain_commit
    else if d = "v2" then .ok v2_commit
    else if d = "unflagged" then .ok unflagged_commit
    else .error { code := .NOT_FOUND, message := "No such commit" }
  load_dirtree := fun _ => .error { code := .NOT_FOUND, message := "No such dirtree" }
  export_object := fun _ _ => .error { code := .NOT_FOUND, message := "No such object" }
  objects := []

/-- The outputs for the commit `legacy` with every output requested. -/
def legacy_info : LayeredInfo :=
  { is_layered := some true, base_layer := some (some "base0"),
    layered_pkgs := some (some ["foo", "bar"]),
    removed_base_pkgs := some (some (.array_v [])),
    replaced_base_pkgs := some (some (.array_vv [])) }

/-- The outputs for the commit `v2` with every output requested. -/
def v2_info : LayeredInfo :=
  { is_layered := some true, base_layer := some (some "base0"),
    layered_pkgs := some (some ["vim"]),
    removed_base_pkgs := some (some (.array_v [.other "(sss)" [1]])),
    replaced_base_pkgs := some (some (.array_vv [(.other "(sss)" [2], .other "(sss)" [3])])) }

/-! ## Version numbering: `_rpmostree_util_next_version` -/

/-- The content of a C string: the bytes before the first NUL. -/
def c_str (s : List Nat) : List Nat := s.takeWhile (fun b => b != 0)

/-- The conversion `%llu` of `printf`: the decimal digits of the number. -/
def g_format_llu (n : Nat) : List Nat := (Nat.toDigits 10 n).map Char.toNat

/-- The next version after `last_version` for an automatic version that starts
with `auto_version_pfx` (`_rpmostree_util_next_version`); `none` is a NULL
`last_version`. `num + 1` is computed in `unsigned long long`. -/
def _rpmostree_util_next_version (auto_version_pfx : List Nat)
    (last_version : Option (List Nat)) : List Nat :=
  let pfx := c_str auto_version_pfx
  match last_version with
  | none => pfx
  | some lv =>
    let last := c_str lv
    if !pfx.isPrefixOf last then pfx
    else if last = pfx then pfx ++ [46, 49]
    else
      let end_ := last.drop pfx.length
      if end_.headD 0 ≠ 46 then pfx
      else
        let num := g_ascii_strtoull end_.tail 10
        pfx ++ [46] ++ g_format_llu ((num + 1) % 2 ^ 64)

/-- The number a string of decimal digits denotes. -/
def decimal_value (d : List Nat) : Nat := d.foldl (fun acc c => acc * 10 + (c - 48)) 0

/-- The state of the digit loop of `g_parse_long_long` stands for the number
`v`: either nothing overflowed and the accumulator is `v`, or the overflow flag
is set and `v` is beyond the largest `guint64`. -/
def ParsedValue (ui64 : Nat) (overflow : Bool) (v : Nat) : Prop :=
  (overflow = false ∧ ui64 = v ∧ v ≤ G_MAXUINT64) ∨ (overflow = true ∧ G_MAXUINT64 < v)

/-! ## Variable substitution: `_rpmostree_varsubst_string` -/

/-- C `strstr` for a non-empty needle: the bytes before the first occurrence and
the string from that occurrence on. -/
def strstr : List Nat → List Nat → Option (List Nat × List Nat)
  | [], _ => none
  | c :: rest, needle =>
    if needle.isPrefixOf (c_str (c :: rest)) then some ([], c :: rest)
    else if c = 0 then none
    else
      match strstr rest needle with
      | none => none
      | some (before, found) => some (c :: before, found)

/-- C `strchr` for a non-NUL character: the bytes before its first occurrence and
the string from that occurrence on. -/
def strchr : List Nat → Nat → Option (List Nat × List Nat)
  | [], _ => none
  | b :: rest, c =>
    if b = c then some ([], b :: rest)
    else if b = 0 then none
    else
      match strchr rest c with
      | none => none
      | some (before, found) => some (b :: before, found)

/-- The two errors of `_rpmostree_varsubst_string`: an unclosed variable
reference that starts at the given byte offset, and a reference to an unknown
variable. -/
inductive VarsubstError where
  | unclosed (offset : Nat)
  | unknown (varname : List Nat)
  deriving DecidableEq, Repr

/-- The `while ((p = strstr (s, "${")) != NULL)` loop of
`_rpmostree_varsubst_string` and the code after it. Arguments: the input, the
hash table, fuel, `s`, the offset `s - instr`, and the `GString` `result`.
`none` is an exhausted fuel. -/
def varsubst_loop (instr : List Nat) (substitutions : List Nat → Option (List Nat)) :
    Nat → List Nat → Nat → List Nat → Option (Except VarsubstError (List Nat))
  | 0, _, _, _ => none
  | fuel + 1, s, offset, result =>
    match strstr s [36, 123] with
    | none =>
      if offset ≠ 0 then some (.ok (result ++ c_str s))
      else some (.ok (c_str instr))
    | some (leading, p) =>
      let varstart := p.drop 2
      match strchr varstart 125 with
      | none => some (.error (.unclosed ((offset + leading.length) % 2 ^ 32)))
      | some (varname, varend) =>
        match substitutions varname with
        | none => some (.error (.unknown varname))
        | some value =>
          varsubst_loop instr substitutions fuel (varend.drop 1)
            (offset + leading.length + 2 + varname.length + 1)
            (result ++ leading ++ c_str value)

/-- Substitutes the variable references `${name}` of `instr` by their values in
the hash table (`_rpmostree_varsubst_string`). An error result is the NULL
return. The fuel is the length of the input plus one, which the loop never
uses up. -/
def _rpmostree_varsubst_string (instr : List Nat) (substitutions : List Nat → Option (List Nat)) :
    Option (Except VarsubstError (List Nat)) :=
  varsubst_loop instr substitutions (strlen instr + 1) instr 0 []

/-- Whether the text contains `${`. -/
def has_var_open : List Nat → Bool
  | a :: b :: rest => (a == 36 && b == 123) || has_var_open (b :: rest)
  | _ => false

/-- The input `t0 ${v1} t1 ... ${vn} tn`, given as the pairs `(t0, v1)`, ...,
`(t(n-1), vn)` and the last text `tn`. -/
def varsubst_input : List (List Nat × List Nat) → List Nat → List Nat
  | [], tn => tn
  | (t, v) :: segs, tn => t ++ [36, 123] ++ v ++ [125] ++ varsubst_input segs tn

/-- The text `t0 val(v1) t1 ... val(vn) tn`, if every `vi` is a key of the table. -/
def varsubst_expected (substitutions : List Nat → Option (List Nat)) :
    List (List Nat × List Nat) → List Nat → Option (List Nat)
  | [], tn => some tn
  | (t, v) :: segs, tn =>
    match substitutions v, varsubst_expected substitutions segs tn with
    | some value, some out => some (t ++ value ++ out)
    | _, _ => none

/-- The conditions on the parts of an input: no text contains `${` or NUL, no
variable name contains `}` or NUL. -/
def VarsubstParts (segs : List (List Nat × List Nat)) (tn : List Nat) : Prop :=
  (∀ seg ∈ segs, has_var_open seg.1 = false ∧ 0 ∉ seg.1 ∧ 125 ∉ seg.2 ∧ 0 ∉ seg.2)
    ∧ has_var_open tn = false ∧ 0 ∉ tn

instance (segs : List (List Nat × List Nat)) (tn : List Nat) : Decidable (VarsubstParts segs tn) := by
  unfold VarsubstParts; infer_instance

/-- A sample table: `foo` is `1`, `bar` is `${foo}`. -/
def sample_substitutions (key : List Nat) : Option (List Nat) :=
  if key = [102, 111, 111] then some [49]
  else if key = [98, 97, 114] then some [36, 123, 102, 111, 111, 125]
  else none

/-! ## Theorems -/

/-- The bytes of `cache_branch_pfx` spell `rpmostree/pkg/`. -/
theorem cache_branch_pfx_eq : cache_branch_pfx = cstr "rpmostree/pkg/" := by decide

theorem scan_nul (p r : List Nat) : cache_branch_scan (0 :: p) r = r := by
  rw [cache_branch_scan.eq_def]; simp

theorem scan_plain (c : Nat) (p r : List Nat) (h0 : c ≠ 0) (h1 : c ≠ 95) :
    cache_branch_scan (c :: p) r = cache_branch_scan p (r ++ [if c = 47 then 45 else c]) := by
  rw [cache_branch_scan.eq_def]; simp only [h0, h1]; split_ifs <;> simp_all

theorem scan_underscore_pair (p r : List Nat) :
    cache_branch_scan (95 :: 95 :: p) r = cache_branch_scan p (r ++ [95]) := by
  rw [cache_branch_scan.eq_def]; simp

theorem scan_hex_escape (c1 c2 : Nat) (p r : List Nat) (h1 : c1 ≠ 95) (h2 : c1 ≠ 0) (h3 : c2 ≠ 0) :
    cache_branch_scan (95 :: c1 :: c2 :: p) r
      = cache_branch_scan p (r ++ [g_ascii_strtoull [c1, c2] 16 % 256]) := by
  rw [cache_branch_scan.eq_def]; simp [h1, h2, h3]

theorem scan_trailing_underscore (r : List Nat) : cache_branch_scan [95] r = r := by
  rw [cache_branch_scan.eq_def]; simp

theorem scan_truncated_one (c1 : Nat) (r : List Nat) (h1 : c1 ≠ 95) :
    cache_branch_scan [95, c1] r = r := by
  rw [cache_branch_scan.eq_def]; simp [h1]

theorem scan_truncated_nul (c1 : Nat) (p r : List Nat) (h1 : c1 ≠ 95) :
    cache_branch_scan (95 :: c1 :: 0 :: p) r = r := by
  rw [cache_branch_scan.eq_def]; simp [h1]

theorem scan_underscore_nul (p r : List Nat) : cache_branch_scan (95 :: 0 :: p) r = r := by
  rw [cache_branch_scan.eq_def]; simp

theorem cache_branch_scan_acc_aux (n : Nat) :
    ∀ p : List Nat, p.length ≤ n → ∀ r, cache_branch_scan p r = r ++ cache_branch_scan p [] := by
  induction n with
  | zero =>
    intro p hp r
    have : p = [] := List.length_eq_zero.mp (Nat.le_zero.mp hp)
    subst this
    simp [cache_branch_scan]
  | succ n ih =>
    intro p hp r
    match p, hp with
    | [], _ => simp [cache_branch_scan]
    | c :: p, hp =>
      have hp1 : p.length ≤ n := by simpa using hp
      by_cases h0 : c = 0
      · subst h0; simp [scan_nul]
      by_cases h1 : c = 95
      · subst h1
        match p, hp1 with
        | [], _ => simp [scan_trailing_underscore]
        | c1 :: p1, hp1 =>
          have hp2 : p1.length ≤ n := by simp at hp1; omega
          by_cases h2 : c1 = 95
          · subst h2
            rw [scan_underscore_pair, scan_underscore_pair, ih p1 hp2 (r ++ [95]),
              ih p1 hp2 ([] ++ [95])]
            simp
          by_cases h3 : c1 = 0
          · subst h3; simp [scan_underscore_nul]
          match p1, hp2 with
          | [], _ => simp [scan_truncated_one _ _ h2]
          | c2 :: p2, hp2 =>
            have hp3 : p2.length ≤ n := by simp at hp2; omega
            by_cases h4 : c2 = 0
            · subst h4; simp [scan_truncated_nul _ _ _ h2]
            rw [scan_hex_escape _ _ _ _ h2 h3 h4, scan_hex_escape _ _ _ _ h2 h3 h4,
              ih p2 hp3 (r ++ _), ih p2 hp3 ([] ++ _)]
            simp
      · rw [scan_plain _ _ _ h0 h1, scan_plain _ _ _ h0 h1, ih p hp1 (r ++ _),
          ih p hp1 ([] ++ _)]
        simp

theorem cache_branch_scan_acc (p r : List Nat) :
    cache_branch_scan p r = r ++ cache_branch_scan p [] :=
  cache_branch_scan_acc_aux p.length p (Nat.le_refl _) r

theorem to_nevra_pfx (r : List Nat) :
    rpmostree_cache_branch_to_nevra (cache_branch_pfx ++ r) = some (cache_branch_scan r []) := by
  simp [rpmostree_cache_branch_to_nevra]

theorem hex_pair_table : ∀ X ∈ hex_digits, ∀ Y ∈ hex_digits,
    (X ≠ 95 ∧ X ≠ 0 ∧ Y ≠ 0) ∧ g_ascii_strtoull [X, Y] 16 % 256 = 16 * hex X + hex Y := by
  decide

theorem hex_digit_mem (X : Nat) (hX : is_hex_digit X = true) : X ∈ hex_digits := by
  simp [is_hex_digit] at hX
  simp [hex_digits]; omega

theorem scan_plain_all (s : List Nat) : ∀ r, 0 ∉ s → 95 ∉ s →
    cache_branch_scan s r = r ++ s.map (fun c => if c = 47 then 45 else c) := by
  induction s with
  | nil => intro r _ _; simp [cache_branch_scan]
  | cons c s ih =>
    intro r h0 h1
    simp only [List.mem_cons, not_or] at h0 h1
    rw [scan_plain c s r (Ne.symm h0.1) (Ne.symm h1.1), ih _ h0.2 h1.2]
    simp

theorem scan_truncated_tail (u : List Nat) (c : Nat) (hc : c ≠ 95) : ∀ r, 95 ∉ u →
    cache_branch_scan (u ++ [95]) r = cache_branch_scan u r
      ∧ cache_branch_scan (u ++ [95, c]) r = cache_branch_scan u r := by
  induction u with
  | nil =>
    intro r _
    exact ⟨by rw [List.nil_append, scan_trailing_underscore, cache_branch_scan],
      by rw [List.nil_append, scan_truncated_one _ _ hc, cache_branch_scan]⟩
  | cons a u ih =>
    intro r h1
    simp only [List.mem_cons, not_or] at h1
    by_cases h0 : a = 0
    · subst h0; simp [scan_nul]
    · simp only [List.cons_append]
      rw [scan_plain a _ r h0 (Ne.symm h1.1), scan_plain a _ r h0 (Ne.symm h1.1),
        scan_plain a _ r h0 (Ne.symm h1.1)]
      exact ih _ h1.2

theorem decode_plain_cons (c : Nat) (p : List Nat) (h0 : c ≠ 0) (h1 : c ≠ 95) :
    cache_branch_scan (c :: p) [] = (if c = 47 then 45 else c) :: cache_branch_scan p [] := by
  rw [scan_plain c p [] h0 h1, cache_branch_scan_acc]; simp

theorem decode_pair_cons (p : List Nat) :
    cache_branch_scan (95 :: 95 :: p) [] = 95 :: cache_branch_scan p [] := by
  rw [scan_underscore_pair, cache_branch_scan_acc]; simp

theorem plain_escapes_only_plain (c : Nat) (p : List Nat) (h1 : c ≠ 95)
    (h : plain_escapes_only (c :: p) = true) :
    c ≠ 45 ∧ c ≠ 0 ∧ plain_escapes_only p = true := by
  rw [plain_escapes_only.eq_def] at h
  simp only [h1, if_false] at h
  simpa [and_assoc] using h

theorem plain_escapes_only_underscore (p : List Nat)
    (h : plain_escapes_only (95 :: p) = true) :
    ∃ p1, p = 95 :: p1 ∧ plain_escapes_only p1 = true := by
  match p, h with
  | [], h => simp [plain_escapes_only] at h
  | c1 :: p1, h =>
    simp [plain_escapes_only] at h
    exact ⟨p1, by rw [h.1], h.2⟩

theorem decode_injective_aux (n : Nat) : ∀ r1 : List Nat, r1.length ≤ n → ∀ r2,
    plain_escapes_only r1 = true → plain_escapes_only r2 = true →
    cache_branch_scan r1 [] = cache_branch_scan r2 [] → r1 = r2 := by
  induction n with
  | zero =>
    intro r1 hl r2 _ h2 h
    have : r1 = [] := List.length_eq_zero.mp (Nat.le_zero.mp hl)
    subst this
    match r2, h2 with
    | [], _ => rfl
    | c :: p, h2 =>
      exfalso
      by_cases h1 : c = 95
      · subst h1
        obtain ⟨p1, rfl, _⟩ := plain_escapes_only_underscore p h2
        rw [decode_pair_cons] at h
        simp [cache_branch_scan] at h
      · obtain ⟨_, h0, _⟩ := plain_escapes_only_plain c p h1 h2
        rw [decode_plain_cons c p h0 h1] at h
        simp [cache_branch_scan] at h
  | succ n ih =>
    intro r1 hl r2 hp1 hp2 h
    match r1, hl, hp1 with
    | [], hl, hp1 => exact ih [] (by simp) r2 hp1 hp2 h
    | c :: p, hl, hp1 =>
      have hl1 : p.length ≤ n := by simpa using hl
      by_cases h1 : c = 95
      · subst h1
        obtain ⟨p1, rfl, hq1⟩ := plain_escapes_only_underscore p hp1
        have hl2 : p1.length ≤ n := by simp at hl1; omega
        rw [decode_pair_cons] at h
        match r2, hp2 with
        | [], _ => simp [cache_branch_scan] at h
        | c2 :: q, hp2 =>
          by_cases h2 : c2 = 95
          · subst h2
            obtain ⟨q1, rfl, hq2⟩ := plain_escapes_only_underscore q hp2
            rw [decode_pair_cons] at h
            have := ih p1 hl2 q1 hq1 hq2 (List.cons_injective h)
            rw [this]
          · obtain ⟨_, h0, _⟩ := plain_escapes_only_plain c2 q h2 hp2
            rw [decode_plain_cons c2 q h0 h2] at h
            exfalso
            have := (List.cons.inj h).1
            split_ifs at this <;> omega
      · obtain ⟨h45, h0, hq1⟩ := plain_escapes_only_plain c p h1 hp1
        rw [decode_plain_cons c p h0 h1] at h
        match r2, hp2 with
        | [], _ => simp [cache_branch_scan] at h
        | c2 :: q, hp2 =>
          by_cases h2 : c2 = 95
          · subst h2
            obtain ⟨q1, rfl, hq2⟩ := plain_escapes_only_underscore q hp2
            rw [decode_pair_cons] at h
            exfalso
            have := (List.cons.inj h).1
            split_ifs at this <;> omega
          · obtain ⟨h45b, h0b, hq2⟩ := plain_escapes_only_plain c2 q h2 hp2
            rw [decode_plain_cons c2 q h0b h2] at h
            have hc := (List.cons.inj h).1
            have ht := (List.cons.inj h).2
            have : c = c2 := by split_ifs at hc <;> omega
            rw [this, ih p hl1 q hq1 hq2 ht]

/-- C1 (amended): after the `rpmostree/pkg/` start, `__` decodes to `_` followed by
the decoding of the rest, and `_XY` with hexadecimal digits `X`, `Y` decodes to
the byte `16*hex(X)+hex(Y)` followed by the decoding of the rest. The branch
`rpmostree/pkg/vim_2denhanced-8.0-1.fc30.x86_64` decodes to
`vim-enhanced-8.0-1.fc30.x86d` (its `_64` is the escape of `d`); with `x86__64`
it decodes to `vim-enhanced-8.0-1.fc30.x86_64`; `rpmostree/pkg/a__b` decodes to
`a_b`. -/
theorem cache_branch_to_nevra_escapes (r : List Nat) (X Y : Nat)
    (hX : is_hex_digit X = true) (hY : is_hex_digit Y = true) :
    (∃ d, rpmostree_cache_branch_to_nevra (cache_branch_pfx ++ r) = some d
      ∧ rpmostree_cache_branch_to_nevra (cache_branch_pfx ++ 95 :: 95 :: r) = some (95 :: d)
      ∧ rpmostree_cache_branch_to_nevra (cache_branch_pfx ++ 95 :: X :: Y :: r)
          = some ((16 * hex X + hex Y) :: d))
    ∧ rpmostree_cache_branch_to_nevra (cstr "rpmostree/pkg/vim_2denhanced-8.0-1.fc30.x86_64")
        = some (cstr "vim-enhanced-8.0-1.fc30.x86d")
    ∧ rpmostree_cache_branch_to_nevra (cstr "rpmostree/pkg/vim_2denhanced-8.0-1.fc30.x86__64")
        = some (cstr "vim-enhanced-8.0-1.fc30.x86_64")
    ∧ rpmostree_cache_branch_to_nevra (cstr "rpmostree/pkg/a__b") = some (cstr "a_b") := by
  refine ⟨⟨cache_branch_scan r [], to_nevra_pfx r, ?_, ?_⟩, by decide, by decide, by decide⟩
  · rw [to_nevra_pfx, decode_pair_cons]
  · obtain ⟨⟨a, b, c⟩, hv⟩ := hex_pair_table X (hex_digit_mem X hX) Y (hex_digit_mem Y hY)
    rw [to_nevra_pfx, scan_hex_escape X Y r [] a b c, cache_branch_scan_acc, hv]
    simp

/-- The escape rules at the rest `b` and the hexadecimal digits `2`, `d`. -/
theorem cache_branch_to_nevra_escapes_witness :
    (∃ d, rpmostree_cache_branch_to_nevra (cache_branch_pfx ++ cstr "b") = some d
      ∧ rpmostree_cache_branch_to_nevra (cache_branch_pfx ++ 95 :: 95 :: cstr "b") = some (95 :: d)
      ∧ rpmostree_cache_branch_to_nevra (cache_branch_pfx ++ 95 :: 50 :: 100 :: cstr "b")
          = some ((16 * hex 50 + hex 100) :: d))
    ∧ rpmostree_cache_branch_to_nevra (cstr "rpmostree/pkg/vim_2denhanced-8.0-1.fc30.x86_64")
        = some (cstr "vim-enhanced-8.0-1.fc30.x86d")
    ∧ rpmostree_cache_branch_to_nevra (cstr "rpmostree/pkg/vim_2denhanced-8.0-1.fc30.x86__64")
        = some (cstr "vim-enhanced-8.0-1.fc30.x86_64")
    ∧ rpmostree_cache_branch_to_nevra (cstr "rpmostree/pkg/a__b") = some (cstr "a_b") :=
  cache_branch_to_nevra_escapes (cstr "b") 50 100 (by decide) (by decide)

/-- C1 as stated fails: `rpmostree/pkg/vim_2denhanced-8.0-1.fc30.x86_64` does not
decode to `vim-enhanced-8.0-1.fc30.x86_64`. -/
theorem cache_branch_to_nevra_x86_64_witness_fails :
    rpmostree_cache_branch_to_nevra (cstr "rpmostree/pkg/vim_2denhanced-8.0-1.fc30.x86_64")
      ≠ some (cstr "vim-enhanced-8.0-1.fc30.x86_64") := by
  decide

/-- C2: for a string `s` without `_` (and without NUL, as every C string),
decoding `rpmostree/pkg/` followed by `s` returns `s` with every `/` replaced by
`-` and every other character unchanged at its position; the length is that of
`s`. -/
theorem cache_branch_to_nevra_plain (s : List Nat) (h0 : 0 ∉ s) (hu : 95 ∉ s) :
    rpmostree_cache_branch_to_nevra (cache_branch_pfx ++ s)
        = some (s.map (fun c => if c = 47 then 45 else c))
      ∧ (s.map (fun c => if c = 47 then 45 else c)).length = s.length := by
  rw [to_nevra_pfx, scan_plain_all s [] h0 hu]
  simp

/-- C3: for `u` without `_` and a character `c` other than `_`, decoding
`rpmostree/pkg/` followed by `u_` or by `u_c` succeeds and returns exactly the
decoding of `rpmostree/pkg/` followed by `u`; `rpmostree/pkg/a_b` decodes to
`a`. -/
theorem cache_branch_to_nevra_truncated (u : List Nat) (c : Nat) (hu : 95 ∉ u) (hc : c ≠ 95) :
    (∃ d, rpmostree_cache_branch_to_nevra (cache_branch_pfx ++ u) = some d
      ∧ rpmostree_cache_branch_to_nevra (cache_branch_pfx ++ (u ++ [95])) = some d
      ∧ rpmostree_cache_branch_to_nevra (cache_branch_pfx ++ (u ++ [95, c])) = some d)
    ∧ rpmostree_cache_branch_to_nevra (cstr "rpmostree/pkg/a_b") = some (cstr "a") := by
  refine ⟨⟨cache_branch_scan u [], to_nevra_pfx u, ?_, ?_⟩, by decide⟩
  · rw [to_nevra_pfx, (scan_truncated_tail u c hc [] hu).1]
  · rw [to_nevra_pfx, (scan_truncated_tail u c hc [] hu).2]

/-- C4 as stated fails: `rpmostree/pkg/a/b` and `rpmostree/pkg/a-b` are different
branches with the same decoding. -/
theorem cache_branch_to_nevra_not_injective :
    ¬ (∀ b1 b2 : List Nat, cache_branch_pfx.isPrefixOf b1 = true →
        cache_branch_pfx.isPrefixOf b2 = true →
        rpmostree_cache_branch_to_nevra b1 = rpmostree_cache_branch_to_nevra b2 → b1 = b2) := by
  intro h
  have := h (cstr "rpmostree/pkg/a/b") (cstr "rpmostree/pkg/a-b") (by decide) (by decide) (by decide)
  revert this
  decide

/-- C4 (amended): on branches whose remainder after `rpmostree/pkg/` consists only
of plain characters other than `_` and `-` and of `__` escapes, the decoding is
one-to-one. -/
theorem cache_branch_to_nevra_injective_on_plain (r1 r2 : List Nat)
    (h1 : plain_escapes_only r1 = true) (h2 : plain_escapes_only r2 = true)
    (h : rpmostree_cache_branch_to_nevra (cache_branch_pfx ++ r1)
          = rpmostree_cache_branch_to_nevra (cache_branch_pfx ++ r2)) :
    cache_branch_pfx ++ r1 = cache_branch_pfx ++ r2 := by
  rw [to_nevra_pfx, to_nevra_pfx] at h
  rw [decode_injective_aux r1.length r1 (Nat.le_refl _) r2 h1 h2 (Option.some.inj h)]

/-- The plain-character rule at `a/b.c`. -/
theorem cache_branch_to_nevra_plain_witness :
    rpmostree_cache_branch_to_nevra (cache_branch_pfx ++ cstr "a/b.c")
        = some ((cstr "a/b.c").map (fun c => if c = 47 then 45 else c))
      ∧ ((cstr "a/b.c").map (fun c => if c = 47 then 45 else c)).length = (cstr "a/b.c").length :=
  cache_branch_to_nevra_plain (cstr "a/b.c") (by decide) (by decide)

/-- The truncated-escape rule at `u = a/b` and `c = 7`. -/
theorem cache_branch_to_nevra_truncated_witness :
    (∃ d, rpmostree_cache_branch_to_nevra (cache_branch_pfx ++ cstr "a/b") = some d
      ∧ rpmostree_cache_branch_to_nevra (cache_branch_pfx ++ (cstr "a/b" ++ [95])) = some d
      ∧ rpmostree_cache_branch_to_nevra (cache_branch_pfx ++ (cstr "a/b" ++ [95, 55])) = some d)
    ∧ rpmostree_cache_branch_to_nevra (cstr "rpmostree/pkg/a_b") = some (cstr "a") :=
  cache_branch_to_nevra_truncated (cstr "a/b") 55 (by decide) (by decide)

/-- The one-to-one rule at the remainder `a__b`, taken twice. -/
theorem cache_branch_to_nevra_injective_on_plain_witness :
    cache_branch_pfx ++ cstr "a__b" = cache_branch_pfx ++ cstr "a__b" :=
  cache_branch_to_nevra_injective_on_plain (cstr "a__b") (cstr "a__b") (by decide) (by decide) rfl

theorem g_strndup_of_le_strlen (s : List Nat) (n : Nat) (h : n ≤ strlen s) :
    g_strndup s n = s.take n := by
  unfold g_strndup
  unfold strlen at h
  obtain ⟨t, ht⟩ := List.takeWhile_prefix (fun b => b != 0) (l := s)
  conv_rhs => rw [← ht]
  rw [List.take_append_of_le_length h]

/-- C5 (amended): `rpmostree_decompose_sha256_nevra` succeeds on every string of
at least 66 characters that has `:` at offset 64 and whose first 64 characters
pass the checksum validation; it returns exactly those 64 characters and
advances the cursor by 65 characters. -/
theorem decompose_sha256_nevra_succeeds (validate : List Nat → Bool) (s : List Nat)
    (hlen : 66 ≤ strlen s) (hcolon : s.getD 64 0 = 58) (hvalid : validate (s.take 64) = true) :
    rpmostree_decompose_sha256_nevra validate s = (true, s.drop 65, some (s.take 64)) := by
  have h64 : g_strndup s 64 = s.take 64 := g_strndup_of_le_strlen s 64 (by omega)
  unfold rpmostree_decompose_sha256_nevra
  simp only [h64, hvalid, hcolon]
  have : ¬ (strlen s < 66) := by omega
  simp [this]

/-- The split of a digest followed by `:bash-5.0-1.x86_64`. -/
theorem decompose_sha256_nevra_succeeds_witness :
    rpmostree_decompose_sha256_nevra ostree_validate_checksum_string
        (cstr "e3b0c44298fc1c149afbf4c8996fb92427ae41e4649b934ca495991b7852b855:bash-5.0-1.x86_64")
      = (true, cstr "bash-5.0-1.x86_64",
          some (cstr "e3b0c44298fc1c149afbf4c8996fb92427ae41e4649b934ca495991b7852b855")) :=
  decompose_sha256_nevra_succeeds ostree_validate_checksum_string
    (cstr "e3b0c44298fc1c149afbf4c8996fb92427ae41e4649b934ca495991b7852b855:bash-5.0-1.x86_64")
    (by decide) (by decide) (by decide)

/-- C5 as stated fails: a string of exactly 65 characters, a valid digest followed
by `:`, meets the stated conditions and is rejected. -/
theorem decompose_sha256_nevra_rejects_65 :
    65 ≤ strlen (cstr "e3b0c44298fc1c149afbf4c8996fb92427ae41e4649b934ca495991b7852b855:")
      ∧ (cstr "e3b0c44298fc1c149afbf4c8996fb92427ae41e4649b934ca495991b7852b855:").getD 64 0 = 58
      ∧ ostree_validate_checksum_string
          ((cstr "e3b0c44298fc1c149afbf4c8996fb92427ae41e4649b934ca495991b7852b855:").take 64) = true
      ∧ (rpmostree_decompose_sha256_nevra ostree_validate_checksum_string
          (cstr "e3b0c44298fc1c149afbf4c8996fb92427ae41e4649b934ca495991b7852b855:")).1 = false := by
  decide

theorem walk_to_end (repo : OstreeRepo) (end_ e : String) :
    ∀ (mid : List String) (d : String) (ret : List String) (fuel : Nat),
      ParentChain repo (d :: (mid ++ [e])) → e ∉ mid → mid.length + 1 ≤ fuel →
      commit_hashes_walk repo (some end_) (some e) fuel d ret
        = some (ret ++ mid ++ [end_], some e) := by
  intro mid
  induction mid with
  | nil =>
    intro d ret fuel hc _ hf
    obtain ⟨f, rfl⟩ : ∃ f, fuel = f + 1 := ⟨fuel - 1, by simp at hf; omega⟩
    have hp : ost_get_prev_commit repo d = some e := hc.1
    simp [commit_hashes_walk, hp]
  | cons m mid ih =>
    intro d ret fuel hc hn hf
    obtain ⟨f, rfl⟩ : ∃ f, fuel = f + 1 := ⟨fuel - 1, by simp at hf; omega⟩
    have hp : ost_get_prev_commit repo d = some m := hc.1
    have hc1 : ParentChain repo (m :: (mid ++ [e])) := hc.2
    simp only [List.mem_cons, not_or] at hn
    have hne : ¬ (e = m) := hn.1
    have hf1 : mid.length + 1 ≤ f := by simp at hf; omega
    simp only [commit_hashes_walk, hp, Option.some.injEq, hne, if_false]
    rw [ih m (ret ++ [m]) f hc1 hn.2 hf1]
    simp

theorem walk_to_root (repo : OstreeRepo) (end_ end_checksum : Option String) :
    ∀ (rest : List String) (d : String) (ret : List String) (fuel : Nat),
      ParentChain repo (d :: rest) →
      ost_get_prev_commit repo ((d :: rest).getLast (List.cons_ne_nil d rest)) = none →
      (∀ x ∈ rest, end_checksum ≠ some x ∨ end_ = none) → rest.length + 1 ≤ fuel →
      commit_hashes_walk repo end_ end_checksum fuel d ret = some (ret ++ rest, none) := by
  intro rest
  induction rest with
  | nil =>
    intro d ret fuel _ hroot _ hf
    obtain ⟨f, rfl⟩ : ∃ f, fuel = f + 1 := ⟨fuel - 1, by simp at hf; omega⟩
    simp only [List.getLast_singleton] at hroot
    simp [commit_hashes_walk, hroot]
  | cons m rest ih =>
    intro d ret fuel hc hroot hn hf
    obtain ⟨f, rfl⟩ : ∃ f, fuel = f + 1 := ⟨fuel - 1, by simp at hf; omega⟩
    have hp : ost_get_prev_commit repo d = some m := hc.1
    have hc1 : ParentChain repo (m :: rest) := hc.2
    have hroot1 : ost_get_prev_commit repo ((m :: rest).getLast (List.cons_ne_nil m rest)) = none := by
      rw [List.getLast_cons (List.cons_ne_nil m rest)] at hroot
      exact hroot
    have hf1 : rest.length + 1 ≤ f := by simp at hf; omega
    have hn1 : ∀ x ∈ rest, end_checksum ≠ some x ∨ end_ = none :=
      fun x hx => hn x (List.mem_cons_of_mem m hx)
    have key := ih m (ret ++ [m]) f hc1 hroot1 hn1 hf1
    simp only [commit_hashes_walk, hp]
    cases end_ with
    | none => simp only [key]; simp
    | some e =>
      have hm : end_checksum ≠ some m := by
        rcases hn m (List.mem_cons_self m rest) with h | h
        · exact h
        · cases h
      simp only [hm, if_false, key]; simp

theorem parent_chain_left (repo : OstreeRepo) :
    ∀ (l1 l2 : List String), ParentChain repo (l1 ++ l2) → ParentChain repo l1 := by
  intro l1
  induction l1 with
  | nil => intro _ _; trivial
  | cons a l1 ih =>
    intro l2 h
    match l1, ih, h with
    | [], _, _ => trivial
    | b :: l1, ih, h => exact ⟨h.1, ih l2 h.2⟩

theorem get_commit_hashes_end_reached (repo : OstreeRepo) (beg end_ d0 e : String)
    (mid : List String) (fuel : Nat)
    (hbeg : repo.read_commit beg = .ok d0) (hend : repo.read_commit end_ = .ok e)
    (hchain : ParentChain repo (d0 :: (mid ++ [e]))) (hfirst : e ∉ d0 :: mid)
    (hfuel : mid.length + 1 ≤ fuel) :
    _rpmostree_util_get_commit_hashes fuel repo beg (some end_)
      = some (.ok (beg :: (mid ++ [end_]))) := by
  simp only [List.mem_cons, not_or] at hfirst
  have hw := walk_to_end repo end_ e mid d0 [beg] fuel hchain hfirst.2 hfuel
  simp [_rpmostree_util_get_commit_hashes, hbeg, read_end_commit, hend, hfirst.1, hw]

theorem get_commit_hashes_root_reached (repo : OstreeRepo) (beg d0 : String)
    (rest : List String) (fuel : Nat)
    (hbeg : repo.read_commit beg = .ok d0) (hchain : ParentChain repo (d0 :: rest))
    (hroot : ost_get_prev_commit repo ((d0 :: rest).getLast (List.cons_ne_nil d0 rest)) = none)
    (hfuel : rest.length + 1 ≤ fuel) :
    _rpmostree_util_get_commit_hashes fuel repo beg none = some (.ok (beg :: rest)) := by
  have hw := walk_to_root repo none none rest d0 [beg] fuel hchain hroot
    (fun _ _ => Or.inr rfl) hfuel
  simp [_rpmostree_util_get_commit_hashes, hbeg, read_end_commit, hw]

theorem get_commit_hashes_end_missed (repo : OstreeRepo) (beg end_ d0 e : String)
    (rest : List String) (fuel : Nat)
    (hbeg : repo.read_commit beg = .ok d0) (hend : repo.read_commit end_ = .ok e)
    (hchain : ParentChain repo (d0 :: rest))
    (hroot : ost_get_prev_commit repo ((d0 :: rest).getLast (List.cons_ne_nil d0 rest)) = none)
    (hnot : e ∉ d0 :: rest) (hfuel : rest.length + 1 ≤ fuel) :
    _rpmostree_util_get_commit_hashes fuel repo beg (some end_)
      = some (.error (invalid_ref_range end_ beg)) := by
  simp only [List.mem_cons, not_or] at hnot
  have hw := walk_to_root repo (some end_) (some e) rest d0 [beg] fuel hchain hroot
    (fun x hx => Or.inl (fun h => hnot.2 (by cases h; exact hx))) hfuel
  simp [_rpmostree_util_get_commit_hashes, hbeg, read_end_commit, hend, hnot.1, hw]

theorem prev_commit_of_root (repo : OstreeRepo) (d : String) (root : Commit)
    (h : repo.load_commit d = .ok root) (hp : root.parent = none) :
    ost_get_prev_commit repo d = none := by
  simp [ost_get_prev_commit, h, hp]

theorem prev_commit_of_load_error (repo : OstreeRepo) (d : String) (err : GError)
    (h : repo.load_commit d = .error err) : ost_get_prev_commit repo d = none := by
  simp [ost_get_prev_commit, h]

/-- C6: when `beg` resolves to `d0`, `end` resolves to `e`, the parent chain from
`d0` is `d0 -> mid... -> e` and `e` is none of `d0`, `mid...` (so `e` is met
first at index `k >= 1`), the resolver returns `[beg] ++ mid ++ [end]`: the
original `beg` string, the raw parent digests in walk order, then the original
`end` string, and nothing beyond it. Any fuel of at least `k` iterations gives
this result. -/
theorem get_commit_hashes_to_end (repo : OstreeRepo) (beg end_ d0 e : String) (mid : List String)
    (fuel : Nat)
    (hbeg : repo.read_commit beg = .ok d0) (hend : repo.read_commit end_ = .ok e)
    (hchain : ParentChain repo (d0 :: (mid ++ [e]))) (hfirst : e ∉ d0 :: mid)
    (hfuel : mid.length + 1 ≤ fuel) :
    _rpmostree_util_get_commit_hashes fuel repo beg (some end_)
      = some (.ok (beg :: (mid ++ [end_]))) :=
  get_commit_hashes_end_reached repo beg end_ d0 e mid fuel hbeg hend hchain hfirst hfuel

/-- The chain `A <- B <- C`, resolved from `C` to `A`. -/
theorem get_commit_hashes_to_end_witness :
    _rpmostree_util_get_commit_hashes 2 chain_repo "C" (some "A") = some (.ok ["C", "dB", "A"]) :=
  get_commit_hashes_to_end chain_repo "C" "A" "dC" "dA" ["dB"] 2 (by decide) (by decide)
    (by decide) (by decide) (by decide)

/-- C7: when `beg` resolves to `d0`, the parent chain is `d0 -> rest...`, and the
last commit of the chain loads and has no parent, the resolver called without
`end` succeeds and returns `beg` followed by every ancestor digest down to the
root; the list has one element per commit of the chain. -/
theorem get_commit_hashes_to_root (repo : OstreeRepo) (beg d0 : String) (rest : List String)
    (root : Commit) (fuel : Nat)
    (hbeg : repo.read_commit beg = .ok d0) (hchain : ParentChain repo (d0 :: rest))
    (hroot : repo.load_commit ((d0 :: rest).getLast (List.cons_ne_nil d0 rest)) = .ok root)
    (hnop : root.parent = none) (hfuel : rest.length + 1 ≤ fuel) :
    _rpmostree_util_get_commit_hashes fuel repo beg none = some (.ok (beg :: rest))
      ∧ (beg :: rest).length = rest.length + 1 :=
  ⟨get_commit_hashes_root_reached repo beg d0 rest fuel hbeg hchain
    (prev_commit_of_root repo _ root hroot hnop) hfuel, rfl⟩

/-- The chain `A <- B <- C`, resolved from `C` without an end. -/
theorem get_commit_hashes_to_root_witness :
    _rpmostree_util_get_commit_hashes 3 chain_repo "C" none = some (.ok ["C", "dB", "dA"])
      ∧ ["C", "dB", "dA"].length = ["dB", "dA"].length + 1 :=
  get_commit_hashes_to_root chain_repo "C" "dC" ["dB", "dA"]
    { parent := none, root_dirtree := "tA", root_dirmeta := "mA" } 3
    (by decide) (by decide) (by decide) (by decide) (by decide)

/-- C8: when `beg` and `end` both resolve and the parent chain of `beg` is finite,
loadable and ends in a commit without parent, the resolver returns a result,
this result is the `Invalid ref range` error if and only if the digest of `end`
is none of the digests of the chain, and otherwise it is a list; an error
result carries no list. -/
theorem get_commit_hashes_invalid_range_iff (repo : OstreeRepo) (beg end_ d0 e : String)
    (rest : List String) (root : Commit) (fuel : Nat)
    (hbeg : repo.read_commit beg = .ok d0) (hend : repo.read_commit end_ = .ok e)
    (hchain : ParentChain repo (d0 :: rest))
    (hroot : repo.load_commit ((d0 :: rest).getLast (List.cons_ne_nil d0 rest)) = .ok root)
    (hnop : root.parent = none) (hfuel : rest.length + 1 ≤ fuel) :
    ∃ r, _rpmostree_util_get_commit_hashes fuel repo beg (some end_) = some r
      ∧ (r = .error (invalid_ref_range end_ beg) ↔ e ∉ d0 :: rest)
      ∧ (e ∈ d0 :: rest → ∃ l, r = .ok l) := by
  by_cases hmem : e ∈ d0 :: rest
  · have hok : ∃ l, _rpmostree_util_get_commit_hashes fuel repo beg (some end_)
        = some (.ok l) := by
      by_cases h0 : e = d0
      · exact ⟨[beg], by
          simp [_rpmostree_util_get_commit_hashes, hbeg, read_end_commit, hend, h0]⟩
      · have hr : e ∈ rest := by
          rcases List.mem_cons.mp hmem with h | h
          · exact absurd h h0
          · exact h
        obtain ⟨mid, tl, hsplit, hmid⟩ := List.eq_append_cons_of_mem hr
        have hc : ParentChain repo (d0 :: (mid ++ [e])) := by
          apply parent_chain_left repo (d0 :: (mid ++ [e])) tl
          have : d0 :: (mid ++ [e]) ++ tl = d0 :: rest := by rw [hsplit]; simp
          rw [this]; exact hchain
        have hf : mid.length + 1 ≤ fuel := by
          have : rest.length = mid.length + (tl.length + 1) := by rw [hsplit]; simp
          omega
        exact ⟨_, get_commit_hashes_end_reached repo beg end_ d0 e mid fuel hbeg hend hc
          (by simp only [List.mem_cons, not_or]; exact ⟨h0, hmid⟩) hf⟩
    obtain ⟨l, hl⟩ := hok
    exact ⟨.ok l, hl, ⟨fun h => Except.noConfusion h, fun h => absurd hmem h⟩, fun _ => ⟨l, rfl⟩⟩
  · exact ⟨_, get_commit_hashes_end_missed repo beg end_ d0 e rest fuel hbeg hend hchain
      (prev_commit_of_root repo _ root hroot hnop) hmem hfuel,
      ⟨fun _ => hmem, fun _ => rfl⟩, fun h => absurd h hmem⟩

/-- The chain `A <- B <- C`, resolved from `C` to the unrelated `X`. -/
theorem get_commit_hashes_invalid_range_iff_witness :
    ∃ r, _rpmostree_util_get_commit_hashes 3 chain_repo "C" (some "X") = some r
      ∧ (r = .error (invalid_ref_range "X" "C") ↔ "dX" ∉ ["dC", "dB", "dA"])
      ∧ ("dX" ∈ ["dC", "dB", "dA"] → ∃ l, r = .ok l) :=
  get_commit_hashes_invalid_range_iff chain_repo "C" "X" "dC" "dX" ["dB", "dA"]
    { parent := none, root_dirtree := "tA", root_dirmeta := "mA" } 3
    (by decide) (by decide) (by decide) (by decide) (by decide) (by decide)

/-- C9 as stated fails: in a store where the commit `dB` fails to load with
`NOT_FOUND` during the walk from `C`, the resolver without `end` succeeds with
the shortened list `[C, dB]`, and with `end = A` it reports `Invalid ref range`,
which is not the load error. -/
theorem get_commit_hashes_drops_load_error :
    shallow_repo.load_commit "dB" = .error { code := .NOT_FOUND, message := "No such commit" }
      ∧ _rpmostree_util_get_commit_hashes 3 shallow_repo "C" none = some (.ok ["C", "dB"])
      ∧ _rpmostree_util_get_commit_hashes 3 shallow_repo "C" (some "A")
          = some (.error (invalid_ref_range "A" "C"))
      ∧ invalid_ref_range "A" "C" ≠ { code := .NOT_FOUND, message := "No such commit" } := by
  decide


theorem recurse_end (fuel : Nat) (dest src : OstreeRepo) :
    pull_content_only_recurse (fuel + 1) dest src [] = some (.ok (), dest) := by
  simp [pull_content_only_recurse, ostree_repo_commit_traverse_iter_next]

theorem recurse_end_item (fuel : Nat) (dest src : OstreeRepo)
    (rest : OstreeRepoCommitTraverseIter) :
    pull_content_only_recurse (fuel + 1) dest src (.END :: rest) = some (.ok (), dest) := by
  simp [pull_content_only_recurse, ostree_repo_commit_traverse_iter_next]

theorem recurse_error (fuel : Nat) (dest src : OstreeRepo) (e : GError)
    (rest : OstreeRepoCommitTraverseIter) :
    pull_content_only_recurse (fuel + 1) dest src (.ERROR e :: rest) = some (.error e, dest) := by
  simp [pull_content_only_recurse, ostree_repo_commit_traverse_iter_next]

theorem recurse_file (fuel : Nat) (dest src : OstreeRepo) (name checksum : String)
    (rest : OstreeRepoCommitTraverseIter) :
    pull_content_only_recurse (fuel + 1) dest src (.FILE name checksum :: rest)
      = match ostree_repo_import_object_from dest src .FILE checksum with
        | .error e => some (.error e, dest)
        | .ok dest1 => pull_content_only_recurse fuel dest1 src rest := by
  simp [pull_content_only_recurse, ostree_repo_commit_traverse_iter_next]

theorem recurse_dir_load_error (fuel : Nat) (dest src : OstreeRepo) (name cc mc : String)
    (rest : OstreeRepoCommitTraverseIter) (e : GError) (h : src.load_dirtree cc = .error e) :
    pull_content_only_recurse (fuel + 1) dest src (.DIR name cc mc :: rest)
      = some (.error e, dest) := by
  simp [pull_content_only_recurse, ostree_repo_commit_traverse_iter_next, h]

theorem recurse_dir (fuel : Nat) (dest src : OstreeRepo) (name cc mc : String)
    (rest : OstreeRepoCommitTraverseIter) (dt : DirTree) (h : src.load_dirtree cc = .ok dt) :
    pull_content_only_recurse (fuel + 1) dest src (.DIR name cc mc :: rest)
      = match pull_content_only_recurse fuel dest src (dirtree_entries dt) with
        | none => none
        | some (.error e, dest1) => some (.error e, dest1)
        | some (.ok _, dest1) => pull_content_only_recurse fuel dest1 src rest := by
  simp [pull_content_only_recurse, ostree_repo_commit_traverse_iter_next, h,
    ostree_repo_commit_traverse_iter_init_dirtree]

theorem import_object_ok (dest src dest1 : OstreeRepo) (ty : OstreeObjectType) (c : String)
    (h : ostree_repo_import_object_from dest src ty c = .ok dest1) :
    (∀ o ∈ dest.objects, o ∈ dest1.objects) ∧ (ty, c) ∈ dest1.objects := by
  unfold ostree_repo_import_object_from at h
  split_ifs at h with hmem
  · cases h; exact ⟨fun _ ho => ho, hmem⟩
  · split at h
    · cases h
    · cases h
      exact ⟨fun o ho => List.mem_append_left _ ho, by simp⟩

theorem recurse_objects_kept (src : OstreeRepo) :
    ∀ (fuel : Nat) (dest : OstreeRepo) (iter : OstreeRepoCommitTraverseIter)
      (res : Except GError Unit × OstreeRepo),
      pull_content_only_recurse fuel dest src iter = some res →
      ∀ o ∈ dest.objects, o ∈ res.2.objects := by
  intro fuel
  induction fuel with
  | zero => intro dest iter res h; simp [pull_content_only_recurse] at h
  | succ fuel ih =>
    intro dest iter res h o ho
    match iter, h with
    | [], h => rw [recurse_end] at h; cases h; exact ho
    | .END :: rest, h => rw [recurse_end_item] at h; cases h; exact ho
    | .ERROR e :: rest, h => rw [recurse_error] at h; cases h; exact ho
    | .FILE name c :: rest, h =>
      rw [recurse_file] at h
      cases himp : ostree_repo_import_object_from dest src .FILE c with
      | error e => rw [himp] at h; cases h; exact ho
      | ok dest1 =>
        rw [himp] at h
        exact ih dest1 rest res h o ((import_object_ok dest src dest1 _ c himp).1 o ho)
    | .DIR name cc mc :: rest, h =>
      cases hload : src.load_dirtree cc with
      | error e => rw [recurse_dir_load_error _ _ _ _ _ _ _ e hload] at h; cases h; exact ho
      | ok dt =>
        rw [recurse_dir _ _ _ _ _ _ _ dt hload] at h
        cases hsub : pull_content_only_recurse fuel dest src (dirtree_entries dt) with
        | none => rw [hsub] at h; cases h
        | some r1 =>
          obtain ⟨r, dest1⟩ := r1
          have h1 := ih dest (dirtree_entries dt) (r, dest1) hsub o ho
          rw [hsub] at h
          cases r with
          | error e => cases h; exact h1
          | ok u => exact ih dest1 rest res h o h1

theorem dirtree_entries_no_end (dt : DirTree) : OstreeRepoCommitIterResult.END ∉ dirtree_entries dt := by
  simp [dirtree_entries]

theorem file_mem_dirtree_entries (dt : DirTree) (name c : String) (h : (name, c) ∈ dt.files) :
    OstreeRepoCommitIterResult.FILE name c ∈ dirtree_entries dt := by
  unfold dirtree_entries
  exact List.mem_append_left _ (List.mem_map.mpr ⟨(name, c), h, rfl⟩)

theorem dir_mem_dirtree_entries (dt : DirTree) (name cc mc : String)
    (h : (name, cc, mc) ∈ dt.dirs) :
    OstreeRepoCommitIterResult.DIR name cc mc ∈ dirtree_entries dt := by
  unfold dirtree_entries
  exact List.mem_append_right _ (List.mem_map.mpr ⟨(name, cc, mc), h, rfl⟩)

theorem dir_of_mem_dirtree_entries (dt : DirTree) (name cc mc : String)
    (h : OstreeRepoCommitIterResult.DIR name cc mc ∈ dirtree_entries dt) :
    (name, cc, mc) ∈ dt.dirs := by
  unfold dirtree_entries at h
  rcases List.mem_append.mp h with h | h
  · obtain ⟨f, _, hf⟩ := List.mem_map.mp h
    cases hf
  · obtain ⟨d, hd, hf⟩ := List.mem_map.mp h
    cases hf
    exact hd

theorem recurse_complete (src : OstreeRepo) :
    ∀ (fuel : Nat) (dest dest1 : OstreeRepo) (iter : OstreeRepoCommitTraverseIter),
      pull_content_only_recurse fuel dest src iter = some (.ok (), dest1) →
      OstreeRepoCommitIterResult.END ∉ iter →
      (∀ name c, OstreeRepoCommitIterResult.FILE name c ∈ iter →
          (OstreeObjectType.FILE, c) ∈ dest1.objects)
      ∧ (∀ name cc mc c, OstreeRepoCommitIterResult.DIR name cc mc ∈ iter →
          FileReachable src cc c → (OstreeObjectType.FILE, c) ∈ dest1.objects) := by
  intro fuel
  induction fuel with
  | zero => intro dest dest1 iter h; simp [pull_content_only_recurse] at h
  | succ fuel ih =>
    intro dest dest1 iter h hend
    match iter, h, hend with
    | [], _, _ => exact ⟨fun _ _ hm => (List.not_mem_nil _ hm).elim,
        fun _ _ _ _ hm => (List.not_mem_nil _ hm).elim⟩
    | .END :: rest, _, hend => exact absurd (List.mem_cons_self _ _) hend
    | .ERROR e :: rest, h, _ => rw [recurse_error] at h; cases h
    | .FILE name0 c0 :: rest, h, hend =>
      rw [recurse_file] at h
      have hend1 : OstreeRepoCommitIterResult.END ∉ rest :=
        fun hm => hend (List.mem_cons_of_mem _ hm)
      cases himp : ostree_repo_import_object_from dest src .FILE c0 with
      | error e => rw [himp] at h; cases h
      | ok dest2 =>
        rw [himp] at h
        have hrest := ih dest2 dest1 rest h hend1
        have hkept := recurse_objects_kept src fuel dest2 rest _ h
        refine ⟨fun name c hm => ?_, fun name cc mc c hm hr => ?_⟩
        · rcases List.mem_cons.mp hm with heq | hm1
          · cases heq
            exact hkept _ (import_object_ok dest src dest2 _ _ himp).2
          · exact hrest.1 name c hm1
        · rcases List.mem_cons.mp hm with heq | hm1
          · cases heq
          · exact hrest.2 name cc mc c hm1 hr
    | .DIR name0 cc0 mc0 :: rest, h, hend =>
      have hend1 : OstreeRepoCommitIterResult.END ∉ rest :=
        fun hm => hend (List.mem_cons_of_mem _ hm)
      cases hload : src.load_dirtree cc0 with
      | error e => rw [recurse_dir_load_error _ _ _ _ _ _ _ e hload] at h; cases h
      | ok dt =>
        rw [recurse_dir _ _ _ _ _ _ _ dt hload] at h
        cases hsub : pull_content_only_recurse fuel dest src (dirtree_entries dt) with
        | none => rw [hsub] at h; cases h
        | some r1 =>
          obtain ⟨r, dest2⟩ := r1
          rw [hsub] at h
          cases r with
          | error e => cases h
          | ok u =>
            cases u
            have hsubok := ih dest dest2 (dirtree_entries dt) hsub (dirtree_entries_no_end dt)
            have hrest := ih dest2 dest1 rest h hend1
            have hkept := recurse_objects_kept src fuel dest2 rest _ h
            refine ⟨fun name c hm => ?_, fun name cc mc c hm hr => ?_⟩
            · rcases List.mem_cons.mp hm with heq | hm1
              · cases heq
              · exact hrest.1 name c hm1
            · rcases List.mem_cons.mp hm with heq | hm1
              · cases heq
                cases hr with
                | here _ dt1 n1 _ hl hf =>
                  rw [hload] at hl; cases hl
                  exact hkept _ (hsubok.1 n1 c (file_mem_dirtree_entries dt n1 c hf))
                | sub _ dt1 n1 cc1 mc1 _ hl hd hr1 =>
                  rw [hload] at hl; cases hl
                  exact hkept _ (hsubok.2 n1 cc1 mc1 c (dir_mem_dirtree_entries dt n1 cc1 mc1 hd) hr1)
              · exact hrest.2 name cc mc c hm1 hr

theorem recurse_terminates_list (src : OstreeRepo) :
    ∀ (iter : OstreeRepoCommitTraverseIter),
      (∀ name cc mc dt, OstreeRepoCommitIterResult.DIR name cc mc ∈ iter →
        src.load_dirtree cc = .ok dt →
        ∃ N, ∀ fuel, N ≤ fuel → ∀ dest, ∃ res,
          pull_content_only_recurse fuel dest src (dirtree_entries dt) = some res) →
      ∃ N, ∀ fuel, N ≤ fuel → ∀ dest, ∃ res,
        pull_content_only_recurse fuel dest src iter = some res := by
  intro iter
  induction iter with
  | nil =>
    intro _
    refine ⟨1, fun fuel hf dest => ?_⟩
    obtain ⟨f, rfl⟩ : ∃ f, fuel = f + 1 := ⟨fuel - 1, by omega⟩
    exact ⟨_, recurse_end f dest src⟩
  | cons r rest ih =>
    intro hsub
    obtain ⟨N2, hN2⟩ := ih (fun name cc mc dt hm hl =>
      hsub name cc mc dt (List.mem_cons_of_mem _ hm) hl)
    cases r with
    | END =>
      refine ⟨1, fun fuel hf dest => ?_⟩
      obtain ⟨f, rfl⟩ : ∃ f, fuel = f + 1 := ⟨fuel - 1, by omega⟩
      exact ⟨_, recurse_end_item f dest src rest⟩
    | ERROR e =>
      refine ⟨1, fun fuel hf dest => ?_⟩
      obtain ⟨f, rfl⟩ : ∃ f, fuel = f + 1 := ⟨fuel - 1, by omega⟩
      exact ⟨_, recurse_error f dest src e rest⟩
    | FILE name c =>
      refine ⟨N2 + 1, fun fuel hf dest => ?_⟩
      obtain ⟨f, rfl⟩ : ∃ f, fuel = f + 1 := ⟨fuel - 1, by omega⟩
      rw [recurse_file]
      cases ostree_repo_import_object_from dest src .FILE c with
      | error e => exact ⟨_, rfl⟩
      | ok dest1 => exact hN2 f (by omega) dest1
    | DIR name cc mc =>
      cases hload : src.load_dirtree cc with
      | error e =>
        refine ⟨1, fun fuel hf dest => ?_⟩
        obtain ⟨f, rfl⟩ : ∃ f, fuel = f + 1 := ⟨fuel - 1, by omega⟩
        exact ⟨_, recurse_dir_load_error f dest src name cc mc rest e hload⟩
      | ok dt =>
        obtain ⟨N1, hN1⟩ := hsub name cc mc dt (List.mem_cons_self _ _) hload
        refine ⟨max N1 N2 + 1, fun fuel hf dest => ?_⟩
        obtain ⟨f, rfl⟩ : ∃ f, fuel = f + 1 := ⟨fuel - 1, by omega⟩
        have hf1 : N1 ≤ f := by have := Nat.le_max_left N1 N2; omega
        have hf2 : N2 ≤ f := by have := Nat.le_max_right N1 N2; omega
        rw [recurse_dir _ _ _ _ _ _ _ dt hload]
        obtain ⟨⟨r, dest1⟩, hr⟩ := hN1 f hf1 dest
        rw [hr]
        cases r with
        | error e => exact ⟨_, rfl⟩
        | ok u => exact hN2 f hf2 dest1

theorem recurse_terminates (src : OstreeRepo) :
    ∀ (n : Nat) (iter : OstreeRepoCommitTraverseIter),
      (∀ name cc mc, OstreeRepoCommitIterResult.DIR name cc mc ∈ iter → FiniteTree src n cc) →
      ∃ N, ∀ fuel, N ≤ fuel → ∀ dest, ∃ res,
        pull_content_only_recurse fuel dest src iter = some res := by
  intro n
  induction n with
  | zero =>
    intro iter h
    exact recurse_terminates_list src iter (fun name cc mc dt hm _ => (h name cc mc hm).elim)
  | succ n ih =>
    intro iter h
    refine recurse_terminates_list src iter (fun name cc mc dt hm hl => ?_)
    refine ih (dirtree_entries dt) (fun n1 cc1 mc1 hm1 => ?_)
    exact h name cc mc hm dt hl (n1, cc1, mc1) (dir_of_mem_dirtree_entries dt n1 cc1 mc1 hm1)

theorem recurse_fileless_list (src : OstreeRepo) :
    ∀ (dirs : List (String × String × String)),
      (∀ d ∈ dirs, ∃ dt, src.load_dirtree d.2.1 = .ok dt ∧
        ∃ N, ∀ fuel, N ≤ fuel → ∀ dest,
          pull_content_only_recurse fuel dest src (dirtree_entries dt) = some (.ok (), dest)) →
      ∃ N, ∀ fuel, N ≤ fuel → ∀ dest,
        pull_content_only_recurse fuel dest src
          (dirs.map (fun d => OstreeRepoCommitIterResult.DIR d.1 d.2.1 d.2.2))
          = some (.ok (), dest) := by
  intro dirs
  induction dirs with
  | nil =>
    intro _
    refine ⟨1, fun fuel hf dest => ?_⟩
    obtain ⟨f, rfl⟩ : ∃ f, fuel = f + 1 := ⟨fuel - 1, by omega⟩
    exact recurse_end f dest src
  | cons d rest ih =>
    intro hsub
    obtain ⟨N2, hN2⟩ := ih (fun d1 hm => hsub d1 (List.mem_cons_of_mem _ hm))
    obtain ⟨dt, hload, N1, hN1⟩ := hsub d (List.mem_cons_self _ _)
    refine ⟨max N1 N2 + 1, fun fuel hf dest => ?_⟩
    obtain ⟨f, rfl⟩ : ∃ f, fuel = f + 1 := ⟨fuel - 1, by omega⟩
    have hf1 : N1 ≤ f := by have := Nat.le_max_left N1 N2; omega
    have hf2 : N2 ≤ f := by have := Nat.le_max_right N1 N2; omega
    rw [List.map_cons, recurse_dir _ _ _ _ _ _ _ dt hload, hN1 f hf1 dest]
    exact hN2 f hf2 dest

theorem recurse_fileless (src : OstreeRepo) :
    ∀ (n : Nat) (d : String), FilelessTree src n d →
      ∃ dt, src.load_dirtree d = .ok dt ∧
        ∃ N, ∀ fuel, N ≤ fuel → ∀ dest,
          pull_content_only_recurse fuel dest src (dirtree_entries dt) = some (.ok (), dest) := by
  intro n
  induction n with
  | zero => intro d h; exact h.elim
  | succ n ih =>
    intro d h
    obtain ⟨dt, hload, hfiles, hdirs⟩ := h
    refine ⟨dt, hload, ?_⟩
    have := recurse_fileless_list src dt.dirs (fun e he => ih e.2.1 (hdirs e he))
    simpa [dirtree_entries, hfiles] using this

theorem pull_content_only_unfold (fuel : Nat) (dest src : OstreeRepo) (src_commit : String)
    (commit : Commit) (hcommit : src.load_commit src_commit = .ok commit) :
    rpmostree_pull_content_only fuel dest src src_commit
      = pull_content_only_recurse fuel dest src
          [OstreeRepoCommitIterResult.DIR "" commit.root_dirtree commit.root_dirmeta] := by
  simp [rpmostree_pull_content_only, hcommit, ostree_repo_commit_traverse_iter_init_commit]

theorem tree_repo_finite : FiniteTree tree_repo 2 "t0" := by
  intro dt h e he
  have hdt : dt = { files := [("a", "fa")], dirs := [("sub", "t1", "m1")] } := by
    simpa [tree_repo] using h.symm
  subst hdt
  have he1 : e = ("sub", "t1", "m1") := by simpa using he
  subst he1
  intro dt1 h1 e1 he1
  have hdt1 : dt1 = { files := [("b", "fb")], dirs := [] } := by
    simpa [tree_repo] using h1.symm
  subst hdt1
  simp at he1

theorem tree_repo_fileless : FilelessTree tree_repo 2 "e0" := by
  refine ⟨{ files := [], dirs := [("sub", "e1", "m1")] }, by decide, rfl, ?_⟩
  intro e he
  have he1 : e = ("sub", "e1", "m1") := by simpa using he
  subst he1
  exact ⟨{ files := [], dirs := [] }, by decide, rfl, fun _ h => by simp at h⟩

theorem tree_repo_fileless_finite : FiniteTree tree_repo 2 "e0" := by
  intro dt h e he
  have hdt : dt = { files := [], dirs := [("sub", "e1", "m1")] } := by
    simpa [tree_repo] using h.symm
  subst hdt
  have he1 : e = ("sub", "e1", "m1") := by simpa using he
  subst he1
  intro dt1 h1 e1 he1
  have hdt1 : dt1 = { files := [], dirs := [] } := by
    simpa [tree_repo] using h1.symm
  subst hdt1
  simp at he1

/-- C10: for a source commit whose directory tree is finite and acyclic, the
importer returns a result once the fuel is large enough; whenever it returns
success, every file checksum reachable from the root directory of the commit,
at any depth, is among the objects of the destination afterwards; and on a tree
without any file entry it succeeds and leaves the destination unchanged. -/
theorem pull_content_only_complete (dest src : OstreeRepo) (src_commit : String)
    (commit : Commit) (n : Nat)
    (hcommit : src.load_commit src_commit = .ok commit)
    (hfin : FiniteTree src n commit.root_dirtree) :
    (∃ N, ∀ fuel, N ≤ fuel →
        ∃ res, rpmostree_pull_content_only fuel dest src src_commit = some res)
      ∧ (∀ fuel dest1, rpmostree_pull_content_only fuel dest src src_commit = some (.ok (), dest1) →
          ∀ c, FileReachable src commit.root_dirtree c →
            (OstreeObjectType.FILE, c) ∈ dest1.objects)
      ∧ (FilelessTree src n commit.root_dirtree →
          ∃ N, ∀ fuel, N ≤ fuel →
            rpmostree_pull_content_only fuel dest src src_commit = some (.ok (), dest)) := by
  refine ⟨?_, ?_, ?_⟩
  · obtain ⟨N, hN⟩ := recurse_terminates src n
      [OstreeRepoCommitIterResult.DIR "" commit.root_dirtree commit.root_dirmeta]
      (fun name cc mc hm => by
        have := List.mem_singleton.mp hm
        cases this
        exact hfin)
    exact ⟨N, fun fuel hf => by
      rw [pull_content_only_unfold fuel dest src src_commit commit hcommit]
      exact hN fuel hf dest⟩
  · intro fuel dest1 hrun c hc
    rw [pull_content_only_unfold fuel dest src src_commit commit hcommit] at hrun
    exact (recurse_complete src fuel dest dest1 _ hrun (by simp)).2 ""
      commit.root_dirtree commit.root_dirmeta c (List.mem_singleton.mpr rfl) hc
  · intro hfl
    obtain ⟨N, hN⟩ := recurse_fileless_list src [("", commit.root_dirtree, commit.root_dirmeta)]
      (fun d hd => by
        have := List.mem_singleton.mp hd
        subst this
        exact recurse_fileless src n commit.root_dirtree hfl)
    exact ⟨N, fun fuel hf => by
      rw [pull_content_only_unfold fuel dest src src_commit commit hcommit]
      exact hN fuel hf dest⟩

/-- The two commits of `tree_repo` imported into `dest_repo`. -/
theorem pull_content_only_complete_witness :
    ((∃ N, ∀ fuel, N ≤ fuel →
        ∃ res, rpmostree_pull_content_only fuel dest_repo tree_repo "c1" = some res)
      ∧ (∀ fuel dest1,
          rpmostree_pull_content_only fuel dest_repo tree_repo "c1" = some (.ok (), dest1) →
          ∀ c, FileReachable tree_repo "t0" c → (OstreeObjectType.FILE, c) ∈ dest1.objects)
      ∧ (FilelessTree tree_repo 2 "t0" →
          ∃ N, ∀ fuel, N ≤ fuel →
            rpmostree_pull_content_only fuel dest_repo tree_repo "c1"
              = some (.ok (), dest_repo)))
    ∧ (rpmostree_pull_content_only 5 dest_repo tree_repo "c1").map (fun r => (r.1, r.2.objects))
        = some (.ok (), [(.COMMIT, "base"), (.FILE, "fa"), (.FILE, "fb")])
    ∧ ∃ N, ∀ fuel, N ≤ fuel →
        rpmostree_pull_content_only fuel dest_repo tree_repo "c0" = some (.ok (), dest_repo) :=
  ⟨pull_content_only_complete dest_repo tree_repo "c1"
      { parent := none, root_dirtree := "t0", root_dirmeta := "m0" } 2 (by decide)
      tree_repo_finite,
    by decide,
    (pull_content_only_complete dest_repo tree_repo "c0"
      { parent := none, root_dirtree := "e0", root_dirmeta := "m0" } 2 (by decide)
      tree_repo_fileless_finite).2.2 tree_repo_fileless⟩

theorem decompose_failure_shape (validate : List Nat → Bool) (s : List Nat)
    (h : (rpmostree_decompose_sha256_nevra validate s).1 = false) :
    rpmostree_decompose_sha256_nevra validate s = (false, s, none) := by
  unfold rpmostree_decompose_sha256_nevra at h ⊢
  by_cases h1 : strlen s < 66 ∨ s.getD 64 0 ≠ 58
  · simp only [h1, if_true]
  · simp only [h1, if_false] at h ⊢
    by_cases h2 : validate (g_strndup s 64) = true
    · simp [h2] at h
    · simp [h2]

/-- C16: `rpmostree_decompose_sha256_nevra` reports failure on every string that
has no `:` at offset 64, that is shorter than 65 characters, or whose first 64
characters fail the checksum validation; and on every failing call the cursor
is where it was and no digest is returned. A string of 64 hexadecimal
characters without a colon fails. -/
theorem decompose_sha256_nevra_fails (validate : List Nat → Bool) (s : List Nat)
    (hbad : s.getD 64 0 ≠ 58 ∨ strlen s < 65 ∨ validate (s.take 64) = false) :
    rpmostree_decompose_sha256_nevra validate s = (false, s, none)
      ∧ (∀ t : List Nat, (rpmostree_decompose_sha256_nevra validate t).1 = false →
          rpmostree_decompose_sha256_nevra validate t = (false, t, none))
      ∧ rpmostree_decompose_sha256_nevra ostree_validate_checksum_string
          (cstr "e3b0c44298fc1c149afbf4c8996fb92427ae41e4649b934ca495991b7852b855")
        = (false, cstr "e3b0c44298fc1c149afbf4c8996fb92427ae41e4649b934ca495991b7852b855", none) := by
  refine ⟨?_, fun t ht => decompose_failure_shape validate t ht, by decide⟩
  apply decompose_failure_shape
  unfold rpmostree_decompose_sha256_nevra
  by_cases h1 : strlen s < 66 ∨ s.getD 64 0 ≠ 58
  · simp only [h1, if_true]
  · simp only [h1, if_false]
    have hlen : 66 ≤ strlen s := by
      by_contra hc; exact h1 (Or.inl (by omega))
    have hcol : s.getD 64 0 = 58 := by
      by_contra hc; exact h1 (Or.inr hc)
    rcases hbad with hb | hb | hb
    · exact absurd hcol hb
    · omega
    · rw [g_strndup_of_le_strlen s 64 (by omega), hb]; rfl

/-- The split of `abc:bash-5.0-1.x86_64`, which has no colon at offset 64. -/
theorem decompose_sha256_nevra_fails_witness :
    rpmostree_decompose_sha256_nevra ostree_validate_checksum_string (cstr "abc:bash-5.0-1.x86_64")
        = (false, cstr "abc:bash-5.0-1.x86_64", none)
      ∧ (∀ t : List Nat,
          (rpmostree_decompose_sha256_nevra ostree_validate_checksum_string t).1 = false →
          rpmostree_decompose_sha256_nevra ostree_validate_checksum_string t = (false, t, none))
      ∧ rpmostree_decompose_sha256_nevra ostree_validate_checksum_string
          (cstr "e3b0c44298fc1c149afbf4c8996fb92427ae41e4649b934ca495991b7852b855")
        = (false, cstr "e3b0c44298fc1c149afbf4c8996fb92427ae41e4649b934ca495991b7852b855", none) :=
  decompose_sha256_nevra_fails ostree_validate_checksum_string (cstr "abc:bash-5.0-1.x86_64")
    (Or.inl (by decide))

/-- C18: when `beg` and `end` resolve to the same commit digest, whether or not
the two ref strings are equal, the resolver succeeds with the one-element list
`[beg]`; it does so with no fuel at all, that is without a single iteration of
the parent walk. -/
theorem get_commit_hashes_end_is_beg (repo : OstreeRepo) (beg end_ d : String) (fuel : Nat)
    (hbeg : repo.read_commit beg = .ok d) (hend : repo.read_commit end_ = .ok d) :
    _rpmostree_util_get_commit_hashes fuel repo beg (some end_) = some (.ok [beg])
      ∧ _rpmostree_util_get_commit_hashes 0 repo beg (some end_) = some (.ok [beg]) := by
  constructor <;> simp [_rpmostree_util_get_commit_hashes, hbeg, read_end_commit, hend]

/-- The chain `A <- B <- C`, resolved from the ref `C` to the digest `dC`. -/
theorem get_commit_hashes_end_is_beg_witness :
    _rpmostree_util_get_commit_hashes 7 chain_repo "C" (some "dC") = some (.ok ["C"])
      ∧ _rpmostree_util_get_commit_hashes 0 chain_repo "C" (some "dC") = some (.ok ["C"]) :=
  get_commit_hashes_end_is_beg chain_repo "C" "dC" "dC" 7 (by decide) (by decide)

theorem with_objects_nil (dest : OstreeRepo) :
    ({ dest with objects := dest.objects ++ [] } : OstreeRepo) = dest := by
  cases dest; simp

theorem with_objects_append (dest : OstreeRepo) (a b : List (OstreeObjectType × String)) :
    ({ ({ dest with objects := dest.objects ++ a } : OstreeRepo) with
        objects := ({ dest with objects := dest.objects ++ a } : OstreeRepo).objects ++ b }
      : OstreeRepo) = { dest with objects := dest.objects ++ (a ++ b) } := by
  cases dest; simp

theorem import_object_shape (dest src : OstreeRepo) (c : String) :
    (∃ e, ostree_repo_import_object_from dest src .FILE c = .error e)
      ∨ ostree_repo_import_object_from dest src .FILE c = .ok dest
      ∨ ostree_repo_import_object_from dest src .FILE c
          = .ok { dest with objects := dest.objects ++ [(.FILE, c)] } := by
  unfold ostree_repo_import_object_from
  split_ifs
  · exact Or.inr (Or.inl rfl)
  · cases src.export_object .FILE c with
    | error e => exact Or.inl ⟨e, rfl⟩
    | ok u => exact Or.inr (Or.inr rfl)

theorem import_object_added (dest src dest1 : OstreeRepo) (c : String)
    (h : ostree_repo_import_object_from dest src .FILE c = .ok dest1) :
    ∃ added, dest1 = { dest with objects := dest.objects ++ added }
      ∧ ∀ o ∈ added, o = (OstreeObjectType.FILE, c) := by
  rcases import_object_shape dest src c with ⟨e, he⟩ | he | he
  · rw [he] at h; cases h
  · rw [he] at h; cases h
    exact ⟨[], (with_objects_nil dest).symm, fun _ ho => (List.not_mem_nil _ ho).elim⟩
  · rw [he] at h; cases h
    exact ⟨[(.FILE, c)], rfl, fun o ho => List.mem_singleton.mp ho⟩

theorem file_of_mem_dirtree_entries (dt : DirTree) (name c : String)
    (h : OstreeRepoCommitIterResult.FILE name c ∈ dirtree_entries dt) :
    (name, c) ∈ dt.files := by
  unfold dirtree_entries at h
  rcases List.mem_append.mp h with h | h
  · obtain ⟨f, hf, heq⟩ := List.mem_map.mp h
    cases heq
    exact hf
  · obtain ⟨d, _, heq⟩ := List.mem_map.mp h
    cases heq

theorem iter_file_tail (src : OstreeRepo) (r : OstreeRepoCommitIterResult)
    (rest : OstreeRepoCommitTraverseIter) (c : String) (h : IterFile src rest c) :
    IterFile src (r :: rest) c := by
  rcases h with ⟨n, hn⟩ | ⟨n, cc, mc, hm, hr⟩
  · exact Or.inl ⟨n, List.mem_cons_of_mem _ hn⟩
  · exact Or.inr ⟨n, cc, mc, List.mem_cons_of_mem _ hm, hr⟩

theorem iter_file_below (src : OstreeRepo) (name cc mc : String) (dt : DirTree)
    (rest : OstreeRepoCommitTraverseIter) (c : String)
    (hload : src.load_dirtree cc = .ok dt) (h : IterFile src (dirtree_entries dt) c) :
    IterFile src (.DIR name cc mc :: rest) c := by
  refine Or.inr ⟨name, cc, mc, List.mem_cons_self _ _, ?_⟩
  rcases h with ⟨n, hn⟩ | ⟨n, cc1, mc1, hm, hr⟩
  · exact FileReachable.here cc dt n c hload (file_of_mem_dirtree_entries dt n c hn)
  · exact FileReachable.sub cc dt n cc1 mc1 c hload (dir_of_mem_dirtree_entries dt n cc1 mc1 hm) hr

theorem recurse_frame (src : OstreeRepo) :
    ∀ (fuel : Nat) (dest : OstreeRepo) (iter : OstreeRepoCommitTraverseIter)
      (res : Except GError Unit) (dest1 : OstreeRepo),
      pull_content_only_recurse fuel dest src iter = some (res, dest1) →
      ∃ added, dest1 = { dest with objects := dest.objects ++ added }
        ∧ ∀ o ∈ added, ∃ c, o = (OstreeObjectType.FILE, c) ∧ IterFile src iter c := by
  intro fuel
  induction fuel with
  | zero => intro dest iter res dest1 h; simp [pull_content_only_recurse] at h
  | succ fuel ih =>
    intro dest iter res dest1 h
    have hnil : ∀ it : OstreeRepoCommitTraverseIter,
        ∃ added, dest = { dest with objects := dest.objects ++ added }
          ∧ ∀ o ∈ added, ∃ c, o = (OstreeObjectType.FILE, c) ∧ IterFile src it c :=
      fun _ => ⟨[], (with_objects_nil dest).symm, fun _ ho => (List.not_mem_nil _ ho).elim⟩
    match iter, h with
    | [], h => rw [recurse_end] at h; cases h; exact hnil _
    | .END :: rest, h => rw [recurse_end_item] at h; cases h; exact hnil _
    | .ERROR e :: rest, h => rw [recurse_error] at h; cases h; exact hnil _
    | .FILE name c :: rest, h =>
      rw [recurse_file] at h
      cases himp : ostree_repo_import_object_from dest src .FILE c with
      | error e => rw [himp] at h; cases h; exact hnil _
      | ok dest2 =>
        rw [himp] at h
        obtain ⟨a1, hd2, ha1⟩ := import_object_added dest src dest2 c himp
        obtain ⟨a2, hd1, ha2⟩ := ih dest2 rest res dest1 h
        refine ⟨a1 ++ a2, ?_, fun o ho => ?_⟩
        · rw [hd1, hd2, with_objects_append]
        · rcases List.mem_append.mp ho with h1 | h2
          · exact ⟨c, ha1 o h1, Or.inl ⟨name, List.mem_cons_self _ _⟩⟩
          · obtain ⟨c1, hc1, hit⟩ := ha2 o h2
            exact ⟨c1, hc1, iter_file_tail src _ rest c1 hit⟩
    | .DIR name cc mc :: rest, h =>
      cases hload : src.load_dirtree cc with
      | error e => rw [recurse_dir_load_error _ _ _ _ _ _ _ e hload] at h; cases h; exact hnil _
      | ok dt =>
        rw [recurse_dir _ _ _ _ _ _ _ dt hload] at h
        cases hsub : pull_content_only_recurse fuel dest src (dirtree_entries dt) with
        | none => rw [hsub] at h; cases h
        | some r1 =>
          obtain ⟨r, dest2⟩ := r1
          obtain ⟨a1, hd2, ha1⟩ := ih dest (dirtree_entries dt) r dest2 hsub
          have hbelow : ∀ o ∈ a1, ∃ c, o = (OstreeObjectType.FILE, c)
              ∧ IterFile src (.DIR name cc mc :: rest) c := fun o ho => by
            obtain ⟨c1, hc1, hit⟩ := ha1 o ho
            exact ⟨c1, hc1, iter_file_below src name cc mc dt rest c1 hload hit⟩
          rw [hsub] at h
          cases r with
          | error e => cases h; exact ⟨a1, hd2, hbelow⟩
          | ok u =>
            obtain ⟨a2, hd1, ha2⟩ := ih dest2 rest res dest1 h
            refine ⟨a1 ++ a2, ?_, fun o ho => ?_⟩
            · rw [hd1, hd2, with_objects_append]
            · rcases List.mem_append.mp ho with h1 | h2
              · exact hbelow o h1
              · obtain ⟨c1, hc1, hit⟩ := ha2 o h2
                exact ⟨c1, hc1, iter_file_tail src _ rest c1 hit⟩

theorem import_object_same_objects (dest dest2 src : OstreeRepo) (c : String)
    (hobj : dest2.objects = dest.objects) :
    (∃ e, ostree_repo_import_object_from dest src .FILE c = .error e
        ∧ ostree_repo_import_object_from dest2 src .FILE c = .error e)
      ∨ (∃ d1 d2, ostree_repo_import_object_from dest src .FILE c = .ok d1
        ∧ ostree_repo_import_object_from dest2 src .FILE c = .ok d2
        ∧ d2.objects = d1.objects) := by
  unfold ostree_repo_import_object_from
  rw [hobj]
  split_ifs
  · exact Or.inr ⟨dest, dest2, rfl, rfl, hobj⟩
  · cases src.export_object .FILE c with
    | error e => exact Or.inl ⟨e, rfl, rfl⟩
    | ok u => exact Or.inr ⟨_, _, rfl, rfl, by simp [hobj]⟩

theorem recurse_reads_dest_objects_only (src : OstreeRepo) :
    ∀ (fuel : Nat) (dest dest2 : OstreeRepo) (iter : OstreeRepoCommitTraverseIter)
      (res : Except GError Unit) (dest1 : OstreeRepo),
      dest2.objects = dest.objects →
      pull_content_only_recurse fuel dest src iter = some (res, dest1) →
      ∃ dest3, pull_content_only_recurse fuel dest2 src iter = some (res, dest3)
        ∧ dest3.objects = dest1.objects := by
  intro fuel
  induction fuel with
  | zero => intro dest dest2 iter res dest1 _ h; simp [pull_content_only_recurse] at h
  | succ fuel ih =>
    intro dest dest2 iter res dest1 hobj h
    match iter, h with
    | [], h => rw [recurse_end] at h; cases h; exact ⟨dest2, recurse_end _ _ _, hobj⟩
    | .END :: rest, h =>
      rw [recurse_end_item] at h; cases h; exact ⟨dest2, recurse_end_item _ _ _ _, hobj⟩
    | .ERROR e :: rest, h =>
      rw [recurse_error] at h; cases h; exact ⟨dest2, recurse_error _ _ _ _ _, hobj⟩
    | .FILE name c :: rest, h =>
      rw [recurse_file] at h
      rw [recurse_file]
      rcases import_object_same_objects dest dest2 src c hobj with
        ⟨e, h1, h2⟩ | ⟨d1, d2, h1, h2, h12⟩
      · rw [h1] at h; cases h
        rw [h2]; exact ⟨dest2, rfl, hobj⟩
      · rw [h1] at h
        rw [h2]
        exact ih d1 d2 rest res dest1 h12 h
    | .DIR name cc mc :: rest, h =>
      cases hload : src.load_dirtree cc with
      | error e =>
        rw [recurse_dir_load_error _ _ _ _ _ _ _ e hload] at h; cases h
        exact ⟨dest2, recurse_dir_load_error _ _ _ _ _ _ _ e hload, hobj⟩
      | ok dt =>
        rw [recurse_dir _ _ _ _ _ _ _ dt hload] at h
        rw [recurse_dir _ _ _ _ _ _ _ dt hload]
        cases hsub : pull_content_only_recurse fuel dest src (dirtree_entries dt) with
        | none => rw [hsub] at h; cases h
        | some r1 =>
          obtain ⟨r, dA⟩ := r1
          obtain ⟨dB, hB, hAB⟩ := ih dest dest2 (dirtree_entries dt) r dA hobj hsub
          rw [hsub] at h
          rw [hB]
          cases r with
          | error e => cases h; exact ⟨dB, rfl, hAB⟩
          | ok u => exact ih dA dB rest res dest1 hAB h

theorem recurse_idempotent (src : OstreeRepo) :
    ∀ (fuel : Nat) (dest dest1 : OstreeRepo) (iter : OstreeRepoCommitTraverseIter),
      pull_content_only_recurse fuel dest src iter = some (.ok (), dest1) →
      ∀ dest2 : OstreeRepo, (∀ o ∈ dest1.objects, o ∈ dest2.objects) →
        pull_content_only_recurse fuel dest2 src iter = some (.ok (), dest2) := by
  intro fuel
  induction fuel with
  | zero => intro dest dest1 iter h; simp [pull_content_only_recurse] at h
  | succ fuel ih =>
    intro dest dest1 iter h dest2 hsup
    match iter, h with
    | [], _ => exact recurse_end _ _ _
    | .END :: rest, _ => exact recurse_end_item _ _ _ _
    | .ERROR e :: rest, h => rw [recurse_error] at h; cases h
    | .FILE name c :: rest, h =>
      rw [recurse_file] at h
      cases himp : ostree_repo_import_object_from dest src .FILE c with
      | error e => rw [himp] at h; cases h
      | ok dA =>
        rw [himp] at h
        have hin : (OstreeObjectType.FILE, c) ∈ dest2.objects :=
          hsup _ (recurse_objects_kept src fuel dA rest _ h _
            (import_object_ok dest src dA _ c himp).2)
        have hnoop : ostree_repo_import_object_from dest2 src .FILE c = .ok dest2 := by
          simp [ostree_repo_import_object_from, hin]
        rw [recurse_file, hnoop]
        exact ih dA dest1 rest h dest2 hsup
    | .DIR name cc mc :: rest, h =>
      cases hload : src.load_dirtree cc with
      | error e => rw [recurse_dir_load_error _ _ _ _ _ _ _ e hload] at h; cases h
      | ok dt =>
        rw [recurse_dir _ _ _ _ _ _ _ dt hload] at h
        cases hsub : pull_content_only_recurse fuel dest src (dirtree_entries dt) with
        | none => rw [hsub] at h; cases h
        | some r1 =>
          obtain ⟨r, dA⟩ := r1
          rw [hsub] at h
          cases r with
          | error e => cases h
          | ok u =>
            cases u
            have hA : ∀ o ∈ dA.objects, o ∈ dest2.objects := fun o ho =>
              hsup o (recurse_objects_kept src fuel dA rest _ h o ho)
            rw [recurse_dir _ _ _ _ _ _ _ dt hload,
              ih dest dA (dirtree_entries dt) hsub dest2 hA]
            exact ih dA dest1 rest h dest2 hsup

/-- C11: every run of the importer, successful or failed, leaves the destination
equal to the one it started from except for objects appended to it; each
appended object is a `FILE` object whose checksum is a file entry of the tree
of the source commit; every object of the destination is still there; the
objects of every other kind are the same as before; and the run reads the
destination through its object set only, so directory trees come from the
source alone. The source store is an argument that the run does not return:
it is not changed. -/
theorem pull_content_only_frame (dest src : OstreeRepo) (src_commit : String) (fuel : Nat)
    (res : Except GError Unit) (dest1 : OstreeRepo)
    (hrun : rpmostree_pull_content_only fuel dest src src_commit = some (res, dest1)) :
    (∃ added, dest1 = { dest with objects := dest.objects ++ added }
        ∧ ∀ o ∈ added, ∃ c commit, o = (OstreeObjectType.FILE, c)
            ∧ src.load_commit src_commit = .ok commit
            ∧ FileReachable src commit.root_dirtree c)
      ∧ (∀ o ∈ dest.objects, o ∈ dest1.objects)
      ∧ (∀ ty c, ty ≠ OstreeObjectType.FILE →
          ((ty, c) ∈ dest1.objects ↔ (ty, c) ∈ dest.objects))
      ∧ (∀ dest2 : OstreeRepo, dest2.objects = dest.objects →
          ∃ dest3, rpmostree_pull_content_only fuel dest2 src src_commit = some (res, dest3)
            ∧ dest3.objects = dest1.objects) := by
  have hadded : ∃ added, dest1 = { dest with objects := dest.objects ++ added }
      ∧ ∀ o ∈ added, ∃ c commit, o = (OstreeObjectType.FILE, c)
          ∧ src.load_commit src_commit = .ok commit
          ∧ FileReachable src commit.root_dirtree c := by
    cases hcommit : src.load_commit src_commit with
    | error e =>
      simp [rpmostree_pull_content_only, hcommit] at hrun
      exact ⟨[], by rw [← hrun.2]; exact (with_objects_nil dest).symm,
        fun _ ho => (List.not_mem_nil _ ho).elim⟩
    | ok commit =>
      rw [pull_content_only_unfold fuel dest src src_commit commit hcommit] at hrun
      obtain ⟨added, hd, ha⟩ := recurse_frame src fuel dest _ res dest1 hrun
      refine ⟨added, hd, fun o ho => ?_⟩
      obtain ⟨c, hc, hit⟩ := ha o ho
      refine ⟨c, commit, hc, rfl, ?_⟩
      rcases hit with ⟨n, hn⟩ | ⟨n, cc, mc, hm, hr⟩
      · cases List.mem_singleton.mp hn
      · cases List.mem_singleton.mp hm
        exact hr
  refine ⟨hadded, ?_, ?_, ?_⟩
  · obtain ⟨added, hd, _⟩ := hadded
    intro o ho
    rw [hd]
    exact List.mem_append_left _ ho
  · obtain ⟨added, hd, ha⟩ := hadded
    intro ty c hty
    rw [hd]
    constructor
    · intro hm
      rcases List.mem_append.mp hm with h1 | h2
      · exact h1
      · obtain ⟨c1, commit, hc1, _, _⟩ := ha _ h2
        cases hc1
        exact absurd rfl hty
    · intro hm
      exact List.mem_append_left _ hm
  · intro dest2 hobj
    cases hcommit : src.load_commit src_commit with
    | error e =>
      simp [rpmostree_pull_content_only, hcommit] at hrun
      refine ⟨dest2, by simp [rpmostree_pull_content_only, hcommit, hrun.1], ?_⟩
      rw [hobj, hrun.2]
    | ok commit =>
      rw [pull_content_only_unfold fuel dest src src_commit commit hcommit] at hrun
      rw [pull_content_only_unfold fuel dest2 src src_commit commit hcommit]
      exact recurse_reads_dest_objects_only src fuel dest dest2 _ res dest1 hobj hrun

/-- C17: if a run of the importer succeeds and leaves the destination `dest1`,
then the same run started on `dest1` also succeeds and leaves `dest1` exactly
as it is. -/
theorem pull_content_only_idempotent (dest src : OstreeRepo) (src_commit : String) (fuel : Nat)
    (dest1 : OstreeRepo)
    (hrun : rpmostree_pull_content_only fuel dest src src_commit = some (.ok (), dest1)) :
    rpmostree_pull_content_only fuel dest1 src src_commit = some (.ok (), dest1) := by
  cases hcommit : src.load_commit src_commit with
  | error e => simp [rpmostree_pull_content_only, hcommit] at hrun
  | ok commit =>
    rw [pull_content_only_unfold fuel dest src src_commit commit hcommit] at hrun
    rw [pull_content_only_unfold fuel dest1 src src_commit commit hcommit]
    exact recurse_idempotent src fuel dest dest1 _ hrun dest1 (fun _ ho => ho)

theorem traversal_nil (src : OstreeRepo) (fuel : Nat) :
    traversal_steps src (fuel + 1) [] = some [] := by
  simp [traversal_steps]

theorem traversal_end (src : OstreeRepo) (fuel : Nat) (rest : OstreeRepoCommitTraverseIter) :
    traversal_steps src (fuel + 1) (.END :: rest) = some [] := by
  simp [traversal_steps]

theorem traversal_error (src : OstreeRepo) (fuel : Nat) (e : GError)
    (rest : OstreeRepoCommitTraverseIter) :
    traversal_steps src (fuel + 1) (.ERROR e :: rest) = some [.iter_error e] := by
  simp [traversal_steps]

theorem traversal_file (src : OstreeRepo) (fuel : Nat) (name c : String)
    (rest : OstreeRepoCommitTraverseIter) :
    traversal_steps src (fuel + 1) (.FILE name c :: rest)
      = match traversal_steps src fuel rest with
        | none => none
        | some after => some (.import_file c :: after) := by
  simp [traversal_steps]

theorem traversal_dir_error (src : OstreeRepo) (fuel : Nat) (name cc mc : String)
    (rest : OstreeRepoCommitTraverseIter) (e : GError) (h : src.load_dirtree cc = .error e) :
    traversal_steps src (fuel + 1) (.DIR name cc mc :: rest)
      = match traversal_steps src fuel rest with
        | none => none
        | some after => some (.load_dirtree cc :: after) := by
  simp [traversal_steps, h]

theorem traversal_dir (src : OstreeRepo) (fuel : Nat) (name cc mc : String)
    (rest : OstreeRepoCommitTraverseIter) (dt : DirTree) (h : src.load_dirtree cc = .ok dt) :
    traversal_steps src (fuel + 1) (.DIR name cc mc :: rest)
      = match traversal_steps src fuel (dirtree_entries dt), traversal_steps src fuel rest with
        | some below, some after => some (.load_dirtree cc :: (below ++ after))
        | _, _ => none := by
  simp [traversal_steps, h]

theorem run_steps_append (src : OstreeRepo) :
    ∀ (a b : List TraverseStep) (dest : OstreeRepo),
      run_steps src dest (a ++ b)
        = match run_steps src dest a with
          | (.ok _, dest1) => run_steps src dest1 b
          | (.error e, dest1) => (.error e, dest1) := by
  intro a
  induction a with
  | nil => intro b dest; simp [run_steps]
  | cons s a ih =>
    intro b dest
    cases s with
    | import_file c =>
      simp only [List.cons_append, run_steps]
      cases ostree_repo_import_object_from dest src .FILE c with
      | error e => rfl
      | ok dest1 => exact ih b dest1
    | load_dirtree c =>
      simp only [List.cons_append, run_steps]
      cases src.load_dirtree c with
      | error e => rfl
      | ok dt => exact ih b dest
    | iter_error e => simp [run_steps]

theorem recurse_eq_run_steps (src : OstreeRepo) :
    ∀ (fuel : Nat) (dest : OstreeRepo) (iter : OstreeRepoCommitTraverseIter)
      (steps : List TraverseStep),
      traversal_steps src fuel iter = some steps →
      pull_content_only_recurse fuel dest src iter = some (run_steps src dest steps) := by
  intro fuel
  induction fuel with
  | zero => intro dest iter steps h; simp [traversal_steps] at h
  | succ fuel ih =>
    intro dest iter steps h
    match iter, h with
    | [], h => rw [traversal_nil] at h; cases h; rw [recurse_end]; rfl
    | .END :: rest, h => rw [traversal_end] at h; cases h; rw [recurse_end_item]; rfl
    | .ERROR e :: rest, h => rw [traversal_error] at h; cases h; rw [recurse_error]; rfl
    | .FILE name c :: rest, h =>
      rw [traversal_file] at h
      cases hrest : traversal_steps src fuel rest with
      | none => rw [hrest] at h; cases h
      | some after =>
        rw [hrest] at h; cases h
        rw [recurse_file]
        simp only [run_steps]
        cases ostree_repo_import_object_from dest src .FILE c with
        | error e => rfl
        | ok dest1 => exact ih dest1 rest after hrest
    | .DIR name cc mc :: rest, h =>
      cases hload : src.load_dirtree cc with
      | error e =>
        rw [traversal_dir_error _ _ _ _ _ _ e hload] at h
        cases hrest : traversal_steps src fuel rest with
        | none => rw [hrest] at h; cases h
        | some after =>
          rw [hrest] at h; cases h
          rw [recurse_dir_load_error _ _ _ _ _ _ _ e hload]
          simp [run_steps, hload]
      | ok dt =>
        rw [traversal_dir _ _ _ _ _ _ dt hload] at h
        cases hbelow : traversal_steps src fuel (dirtree_entries dt) with
        | none => rw [hbelow] at h; cases h
        | some below =>
          cases hrest : traversal_steps src fuel rest with
          | none => rw [hbelow, hrest] at h; cases h
          | some after =>
            rw [hbelow, hrest] at h; cases h
            rw [recurse_dir _ _ _ _ _ _ _ dt hload, ih dest _ below hbelow]
            simp only [run_steps, hload]
            rw [run_steps_append]
            cases hr : run_steps src dest below with
            | mk r d1 =>
              cases r with
              | error e => rfl
              | ok u => exact ih d1 rest after hrest

theorem run_steps_ok_objects (src : OstreeRepo) :
    ∀ (pre : List TraverseStep) (dest dest1 : OstreeRepo),
      run_steps src dest pre = (.ok (), dest1) →
      ∀ o, o ∈ dest1.objects ↔
        (o ∈ dest.objects ∨ ∃ c, o = (OstreeObjectType.FILE, c) ∧ TraverseStep.import_file c ∈ pre) := by
  intro pre
  induction pre with
  | nil =>
    intro dest dest1 h o
    simp only [run_steps] at h
    cases h
    simp
  | cons s pre ih =>
    intro dest dest1 h o
    cases s with
    | import_file c =>
      simp only [run_steps] at h
      cases himp : ostree_repo_import_object_from dest src .FILE c with
      | error e => rw [himp] at h; cases h
      | ok dA =>
        rw [himp] at h
        rw [ih dA dest1 h o]
        obtain ⟨added, hA, hadd⟩ := import_object_added dest src dA c himp
        have hkept := import_object_ok dest src dA _ c himp
        constructor
        · rintro (h1 | ⟨c1, hc1, hm⟩)
          · rw [hA] at h1
            rcases List.mem_append.mp h1 with h2 | h2
            · exact Or.inl h2
            · exact Or.inr ⟨c, hadd o h2, List.mem_cons_self _ _⟩
          · exact Or.inr ⟨c1, hc1, List.mem_cons_of_mem _ hm⟩
        · rintro (h1 | ⟨c1, hc1, hm⟩)
          · exact Or.inl (hkept.1 o h1)
          · rcases List.mem_cons.mp hm with heq | hm1
            · cases heq
              rw [hc1]
              exact Or.inl hkept.2
            · exact Or.inr ⟨c1, hc1, hm1⟩
    | load_dirtree c =>
      simp only [run_steps] at h
      cases hl : src.load_dirtree c with
      | error e => rw [hl] at h; cases h
      | ok dt =>
        rw [hl] at h
        rw [ih dest dest1 h o]
        constructor
        · rintro (h1 | ⟨c1, hc1, hm⟩)
          · exact Or.inl h1
          · exact Or.inr ⟨c1, hc1, List.mem_cons_of_mem _ hm⟩
        · rintro (h1 | ⟨c1, hc1, hm⟩)
          · exact Or.inl h1
          · rcases List.mem_cons.mp hm with heq | hm1
            · cases heq
            · exact Or.inr ⟨c1, hc1, hm1⟩
    | iter_error e => simp [run_steps] at h

theorem run_steps_failing (src : OstreeRepo) (dest1 : OstreeRepo) (s : TraverseStep)
    (post : List TraverseStep) (e : GError) (h : step_failure dest1 src s = some e) :
    run_steps src dest1 (s :: post) = (.error e, dest1) := by
  cases s with
  | import_file c =>
    simp only [step_failure] at h
    simp only [run_steps]
    cases himp : ostree_repo_import_object_from dest1 src .FILE c with
    | error e1 => rw [himp] at h; cases h; rfl
    | ok d => rw [himp] at h; cases h
  | load_dirtree c =>
    simp only [step_failure] at h
    simp only [run_steps]
    cases hl : src.load_dirtree c with
    | error e1 => rw [hl] at h; cases h; rfl
    | ok d => rw [hl] at h; cases h
  | iter_error e1 =>
    simp only [step_failure] at h
    cases h
    rfl

/-- C20: let `steps` be the actions of the traversal of the source commit in
traversal order, `s` the first action that fails, with error `e`, and `pre`
the actions before it, all successful and leaving the destination `dest1`.
Then the importer returns the failure `e` and leaves the destination `dest1`:
its objects are exactly those it had at the start and the `FILE` objects of
the file entries visited before `s`. Nothing of the actions after `s` is
imported and nothing imported before is taken back. -/
theorem pull_content_only_aborts_at_first_failure (dest src : OstreeRepo) (src_commit : String)
    (commit : Commit) (fuel : Nat) (steps pre post : List TraverseStep) (s : TraverseStep)
    (e : GError) (dest1 : OstreeRepo)
    (hcommit : src.load_commit src_commit = .ok commit)
    (htrav : traversal_steps src fuel
        [OstreeRepoCommitIterResult.DIR "" commit.root_dirtree commit.root_dirmeta] = some steps)
    (hsplit : steps = pre ++ s :: post)
    (hpre : run_steps src dest pre = (.ok (), dest1))
    (hfail : step_failure dest1 src s = some e) :
    rpmostree_pull_content_only fuel dest src src_commit = some (.error e, dest1)
      ∧ (∀ o, o ∈ dest1.objects ↔
          (o ∈ dest.objects
            ∨ ∃ c, o = (OstreeObjectType.FILE, c) ∧ TraverseStep.import_file c ∈ pre)) := by
  refine ⟨?_, run_steps_ok_objects src pre dest dest1 hpre⟩
  rw [pull_content_only_unfold fuel dest src src_commit commit hcommit,
    recurse_eq_run_steps src fuel dest _ steps htrav, hsplit, run_steps_append, hpre]
  simp only
  rw [run_steps_failing src dest1 s post e hfail]


/-- The failed import of commit `c2` of `faulty_tree_repo` into `dest_repo`. -/
theorem pull_content_only_frame_witness :
    (∃ added, dest_repo_fa = { dest_repo with objects := dest_repo.objects ++ added }
        ∧ ∀ o ∈ added, ∃ c commit, o = (OstreeObjectType.FILE, c)
            ∧ faulty_tree_repo.load_commit "c2" = .ok commit
            ∧ FileReachable faulty_tree_repo commit.root_dirtree c)
      ∧ (∀ o ∈ dest_repo.objects, o ∈ dest_repo_fa.objects)
      ∧ (∀ ty c, ty ≠ OstreeObjectType.FILE →
          ((ty, c) ∈ dest_repo_fa.objects ↔ (ty, c) ∈ dest_repo.objects))
      ∧ (∀ dest2 : OstreeRepo, dest2.objects = dest_repo.objects →
          ∃ dest3, rpmostree_pull_content_only 6 dest2 faulty_tree_repo "c2"
              = some (.error { code := .OTHER 5, message := "Input/output error" }, dest3)
            ∧ dest3.objects = dest_repo_fa.objects) :=
  pull_content_only_frame dest_repo faulty_tree_repo "c2" 6
    (.error { code := .OTHER 5, message := "Input/output error" }) dest_repo_fa rfl

/-- The import of commit `c1` of `tree_repo`, run a second time. -/
theorem pull_content_only_idempotent_witness :
    rpmostree_pull_content_only 6 dest_repo_full tree_repo "c1" = some (.ok (), dest_repo_full) :=
  pull_content_only_idempotent dest_repo tree_repo "c1" 6 dest_repo_full rfl

/-- The import of commit `c2` of `faulty_tree_repo`, which fails at the file `fx`. -/
theorem pull_content_only_aborts_at_first_failure_witness :
    rpmostree_pull_content_only 6 dest_repo faulty_tree_repo "c2"
        = some (.error { code := .OTHER 5, message := "Input/output error" }, dest_repo_fa)
      ∧ (∀ o, o ∈ dest_repo_fa.objects ↔
          (o ∈ dest_repo.objects
            ∨ ∃ c, o = (OstreeObjectType.FILE, c)
                ∧ TraverseStep.import_file c
                    ∈ [TraverseStep.load_dirtree "t0", TraverseStep.import_file "fa"])) :=
  pull_content_only_aborts_at_first_failure dest_repo faulty_tree_repo "c2"
    { parent := none, root_dirtree := "t0", root_dirmeta := "m0" } 6
    [.load_dirtree "t0", .import_file "fa", .import_file "fx", .load_dirtree "t1",
      .import_file "fb"]
    [.load_dirtree "t0", .import_file "fa"] [.load_dirtree "t1", .import_file "fb"]
    (.import_file "fx") { code := .OTHER 5, message := "Input/output error" } dest_repo_fa
    (by decide) (by decide) rfl rfl rfl

theorem lookup_boolean_eq (dict : GVariantDict) (key : String) :
    g_variant_dict_lookup_boolean dict key
      = match g_variant_dict_get dict key with
        | some (.boolean b) => some b
        | _ => none := by
  unfold g_variant_dict_lookup_boolean g_variant_dict_lookup_value
  cases g_variant_dict_get dict key with
  | none => rfl
  | some v =>
    cases v <;> simp [g_variant_get_type_string]

theorem lookup_uint32_eq (dict : GVariantDict) (key : String) :
    g_variant_dict_lookup_uint32 dict key
      = match g_variant_dict_get dict key with
        | some (.uint32 n) => some n
        | _ => none := by
  unfold g_variant_dict_lookup_uint32 g_variant_dict_lookup_value
  cases g_variant_dict_get dict key with
  | none => rfl
  | some v =>
    cases v <;> simp [g_variant_get_type_string]

theorem lookup_strv_eq (dict : GVariantDict) (key : String) :
    g_variant_dict_lookup_strv dict key
      = match g_variant_dict_get dict key with
        | some (.strv l) => some l
        | _ => none := by
  unfold g_variant_dict_lookup_strv g_variant_dict_lookup_value
  cases g_variant_dict_get dict key with
  | none => rfl
  | some v =>
    cases v <;> simp [g_variant_get_type_string]

theorem layered_info_unfold (repo : OstreeRepo) (deployment : OstreeDeployment) (commit : Commit)
    (oil obl olp orm orp : Bool) (hload : repo.load_commit deployment.csum = .ok commit) :
    rpmostree_deployment_get_layered_info repo deployment oil obl olp orm orp
      = match layered_info_fetch_base commit (metadata_is_layered commit.metadata) obl with
        | none => none
        | some base_layer =>
          match layered_info_fetch_pkgs commit.metadata (metadata_is_layered commit.metadata)
              (metadata_clientlayer_version commit.metadata) olp orm with
          | none => none
          | some (layered_pkgs, removed_base_pkgs, replaced_base_pkgs) =>
            some (.ok
              { is_layered := if oil then some (metadata_is_layered commit.metadata) else none,
                base_layer := if obl then some base_layer else none,
                layered_pkgs := if olp then some (some (layered_pkgs.getD [])) else none,
                removed_base_pkgs :=
                  if orm then some (some (removed_base_pkgs.getD (GVariant.array_v []))) else none,
                replaced_base_pkgs :=
                  if orp then some (some (replaced_base_pkgs.getD (GVariant.array_vv [])))
                  else none }) := by
  have h1 : (match g_variant_dict_lookup_boolean (g_variant_dict_new commit.metadata)
        "rpmostree.clientlayer" with
      | some b => b
      | none => g_variant_dict_contains (g_variant_dict_new commit.metadata) "rpmostree.spec")
      = metadata_is_layered commit.metadata := by
    rw [lookup_boolean_eq]
    unfold metadata_is_layered g_variant_dict_contains g_variant_dict_new
    cases g_variant_dict_get commit.metadata "rpmostree.clientlayer" with
    | none => rfl
    | some v => cases v <;> rfl
  have h2 : (match g_variant_dict_lookup_uint32 (g_variant_dict_new commit.metadata)
        "rpmostree.clientlayer_version" with
      | some n => n
      | none => 0)
      = metadata_clientlayer_version commit.metadata := by
    rw [lookup_uint32_eq]
    unfold metadata_clientlayer_version g_variant_dict_new
    cases g_variant_dict_get commit.metadata "rpmostree.clientlayer_version" with
    | none => rfl
    | some v => cases v <;> rfl
  unfold rpmostree_deployment_get_layered_info ostree_deployment_get_csum
  simp only [hload, h1, h2]
  unfold g_variant_dict_new
  cases layered_info_fetch_base commit (metadata_is_layered commit.metadata) obl with
  | none => rfl
  | some base_layer =>
    cases layered_info_fetch_pkgs commit.metadata (metadata_is_layered commit.metadata)
        (metadata_clientlayer_version commit.metadata) olp orm with
    | none => rfl
    | some r =>
      obtain ⟨a, b, c⟩ := r
      cases a <;> cases b <;> cases c <;> rfl

theorem layered_info_ok_inv (repo : OstreeRepo) (deployment : OstreeDeployment) (commit : Commit)
    (oil obl olp orm orp : Bool) (out : LayeredInfo)
    (hload : repo.load_commit deployment.csum = .ok commit)
    (hrun : rpmostree_deployment_get_layered_info repo deployment oil obl olp orm orp
      = some (.ok out)) :
    ∃ base_layer layered_pkgs removed replaced,
      layered_info_fetch_base commit (metadata_is_layered commit.metadata) obl = some base_layer
      ∧ layered_info_fetch_pkgs commit.metadata (metadata_is_layered commit.metadata)
          (metadata_clientlayer_version commit.metadata) olp orm
        = some (layered_pkgs, removed, replaced)
      ∧ out = { is_layered := if oil then some (metadata_is_layered commit.metadata) else none,
                base_layer := if obl then some base_layer else none,
                layered_pkgs := if olp then some (some (layered_pkgs.getD [])) else none,
                removed_base_pkgs :=
                  if orm then some (some (removed.getD (GVariant.array_v []))) else none,
                replaced_base_pkgs :=
                  if orp then some (some (replaced.getD (GVariant.array_vv []))) else none } := by
  rw [layered_info_unfold repo deployment commit oil obl olp orm orp hload] at hrun
  cases hb : layered_info_fetch_base commit (metadata_is_layered commit.metadata) obl with
  | none => rw [hb] at hrun; cases hrun
  | some base_layer =>
    cases hp : layered_info_fetch_pkgs commit.metadata (metadata_is_layered commit.metadata)
        (metadata_clientlayer_version commit.metadata) olp orm with
    | none => rw [hb, hp] at hrun; cases hrun
    | some r =>
      obtain ⟨a, b, c⟩ := r
      rw [hb, hp] at hrun
      simp only [Option.some.injEq, Except.ok.injEq] at hrun
      exact ⟨base_layer, a, b, c, rfl, rfl, hrun.symm⟩

theorem fetch_layered_pkgs_v1 (dict : GVariantDict) (ver : Nat) (pkgs : List String)
    (hver : 1 ≤ ver) (h : g_variant_dict_get dict "rpmostree.packages" = some (.strv pkgs)) :
    layered_info_fetch_layered_pkgs dict ver = some pkgs := by
  unfold layered_info_fetch_layered_pkgs
  rw [if_pos hver, lookup_strv_eq, h]

theorem fetch_layered_pkgs_v0 (dict : GVariantDict) (ver : Nat)
    (entries : List (String × GVariantChild)) (pkgs : List String) (hver : ver = 0)
    (hspec : g_variant_dict_get dict "rpmostree.spec" = some (.vardict entries))
    (h : g_variant_dict_get (g_variant_asv_entries (.vardict entries)) "packages"
      = some (.strv pkgs)) :
    layered_info_fetch_layered_pkgs dict ver = some pkgs := by
  unfold layered_info_fetch_layered_pkgs
  have hv : ¬ (1 ≤ ver) := by omega
  rw [if_neg hv]
  simp only [g_variant_dict_contains, hspec, Option.isSome_some, if_true,
    g_variant_dict_lookup_value, g_variant_get_type_string, g_variant_dict_new]
  rw [lookup_strv_eq, h]

theorem fetch_pkgs_layered_requested (dict : GVariantDict) (ver : Nat) (orm : Bool)
    (r : Option (List String) × Option GVariant × Option GVariant)
    (h : layered_info_fetch_pkgs dict true ver true orm = some r) :
    ∃ l, layered_info_fetch_layered_pkgs dict ver = some l ∧ r.1 = some l := by
  unfold layered_info_fetch_pkgs at h
  simp only [true_and, true_or, if_true] at h
  cases hl : layered_info_fetch_layered_pkgs dict ver with
  | none => rw [hl] at h; cases h
  | some l =>
    rw [hl] at h
    refine ⟨l, rfl, ?_⟩
    split_ifs at h
    · cases h1 : g_variant_dict_lookup_value dict "rpmostree.removed-base-packages" "av" with
      | none => rw [h1] at h; cases h
      | some v1 =>
        cases h2 : g_variant_dict_lookup_value dict "rpmostree.replaced-base-packages" "a(vv)" with
        | none => rw [h1, h2] at h; cases h
        | some v2 => rw [h1, h2] at h; cases h; rfl
    · cases h; rfl

theorem fetch_pkgs_not_layered (dict : GVariantDict) (ver : Nat) (olp orm : Bool) :
    layered_info_fetch_pkgs dict false ver olp orm = some (none, none, none) := by
  simp [layered_info_fetch_pkgs]

theorem fetch_pkgs_before_v2 (dict : GVariantDict) (il : Bool) (ver : Nat) (olp orm : Bool)
    (r : Option (List String) × Option GVariant × Option GVariant) (hver : ver < 2)
    (h : layered_info_fetch_pkgs dict il ver olp orm = some r) :
    r.2.1 = none ∧ r.2.2 = none := by
  unfold layered_info_fetch_pkgs at h
  have hv : ¬ (2 ≤ ver) := by omega
  split_ifs at h
  · cases hl : layered_info_fetch_layered_pkgs dict ver with
    | none => rw [hl] at h; cases h
    | some l => rw [hl] at h; cases h; exact ⟨rfl, rfl⟩
  · cases h; exact ⟨rfl, rfl⟩

/-- C14: whenever the decoder returns, each requested list output holds a
collection and not NULL; for a commit that is not layered all three are empty;
for a layered commit of a version below 2 the removed and the replaced base
packages are empty. A commit with neither flag nor treespec gives
`is_layered = false` and three empty collections. -/
theorem layered_info_canonical (repo : OstreeRepo) (deployment : OstreeDeployment)
    (commit : Commit) (oil obl olp orm orp : Bool) (out : LayeredInfo)
    (hload : repo.load_commit deployment.csum = .ok commit)
    (hrun : rpmostree_deployment_get_layered_info repo deployment oil obl olp orm orp
      = some (.ok out)) :
    ((olp = true → ∃ l, out.layered_pkgs = some (some l))
        ∧ (orm = true → ∃ v, out.removed_base_pkgs = some (some v))
        ∧ (orp = true → ∃ v, out.replaced_base_pkgs = some (some v)))
      ∧ (metadata_is_layered commit.metadata = false →
          (olp = true → out.layered_pkgs = some (some []))
            ∧ (orm = true → out.removed_base_pkgs = some (some (.array_v [])))
            ∧ (orp = true → out.replaced_base_pkgs = some (some (.array_vv []))))
      ∧ (metadata_is_layered commit.metadata = true →
          metadata_clientlayer_version commit.metadata < 2 →
          (orm = true → out.removed_base_pkgs = some (some (.array_v [])))
            ∧ (orp = true → out.replaced_base_pkgs = some (some (.array_vv []))))
      ∧ rpmostree_deployment_get_layered_info layered_repo { csum := "plain" }
          true true true true true
        = some (.ok { is_layered := some false, base_layer := some none,
                      layered_pkgs := some (some []),
                      removed_base_pkgs := some (some (.array_v [])),
                      replaced_base_pkgs := some (some (.array_vv [])) }) := by
  obtain ⟨bl, lp, rm, rp, _, hp, hout⟩ :=
    layered_info_ok_inv repo deployment commit oil obl olp orm orp out hload hrun
  refine ⟨⟨fun h => ?_, fun h => ?_, fun h => ?_⟩, fun hl => ?_, fun hl hv => ?_, by decide⟩
  · exact ⟨_, by rw [hout, h]; rfl⟩
  · exact ⟨_, by rw [hout, h]; rfl⟩
  · exact ⟨_, by rw [hout, h]; rfl⟩
  · rw [hl, fetch_pkgs_not_layered] at hp
    cases hp
    exact ⟨fun h => by rw [hout, h]; rfl, fun h => by rw [hout, h]; rfl,
      fun h => by rw [hout, h]; rfl⟩
  · obtain ⟨h1, h2⟩ := fetch_pkgs_before_v2 _ _ _ _ _ _ hv hp
    simp only at h1 h2
    subst h1 h2
    exact ⟨fun h => by rw [hout, h]; rfl, fun h => by rw [hout, h]; rfl⟩

/-- C13, the code at the failing input: the commit `v2` stores one replaced base
package, but a call that requests `replaced_base_pkgs` alone reports the empty
collection; a call that also requests `removed_base_pkgs` reports the stored
values. -/
theorem layered_info_replaced_alone_is_empty :
    g_variant_dict_get v2_commit.metadata "rpmostree.replaced-base-packages"
      = some (.array_vv [(.other "(sss)" [2], .other "(sss)" [3])])
    ∧ rpmostree_deployment_get_layered_info layered_repo { csum := "v2" }
          false false false false true
        = some (.ok { is_layered := none, base_layer := none, layered_pkgs := none,
                      removed_base_pkgs := none,
                      replaced_base_pkgs := some (some (.array_vv [])) })
    ∧ rpmostree_deployment_get_layered_info layered_repo { csum := "v2" }
          false false false true true
        = some (.ok { is_layered := none, base_layer := none, layered_pkgs := none,
                      removed_base_pkgs := some (some (.array_v [.other "(sss)" [1]])),
                      replaced_base_pkgs :=
                        some (some (.array_vv [(.other "(sss)" [2], .other "(sss)" [3])])) }) := by
  decide

/-- The commit `legacy`, decoded with every output requested: its collections. -/
theorem layered_info_canonical_witness :
    ((true = true → ∃ l, legacy_info.layered_pkgs = some (some l))
        ∧ (true = true → ∃ v, legacy_info.removed_base_pkgs = some (some v))
        ∧ (true = true → ∃ v, legacy_info.replaced_base_pkgs = some (some v)))
      ∧ (metadata_is_layered legacy_commit.metadata = false →
          (true = true → legacy_info.layered_pkgs = some (some []))
            ∧ (true = true → legacy_info.removed_base_pkgs = some (some (.array_v [])))
            ∧ (true = true → legacy_info.replaced_base_pkgs = some (some (.array_vv []))))
      ∧ (metadata_is_layered legacy_commit.metadata = true →
          metadata_clientlayer_version legacy_commit.metadata < 2 →
          (true = true → legacy_info.removed_base_pkgs = some (some (.array_v [])))
            ∧ (true = true → legacy_info.replaced_base_pkgs = some (some (.array_vv []))))
      ∧ rpmostree_deployment_get_layered_info layered_repo { csum := "plain" }
          true true true true true
        = some (.ok { is_layered := some false, base_layer := some none,
                      layered_pkgs := some (some []),
                      removed_base_pkgs := some (some (.array_v [])),
                      replaced_base_pkgs := some (some (.array_vv [])) }) :=
  layered_info_canonical layered_repo { csum := "legacy" } legacy_commit
    true true true true true legacy_info (by decide) (by decide)

theorem scan_length_le_aux (n : Nat) :
    ∀ p : List Nat, p.length ≤ n → ∀ r, (cache_branch_scan p r).length ≤ r.length + p.length := by
  induction n with
  | zero =>
    intro p hp r
    have : p = [] := List.length_eq_zero.mp (Nat.le_zero.mp hp)
    subst this
    simp [cache_branch_scan]
  | succ n ih =>
    intro p hp r
    match p, hp with
    | [], _ => simp [cache_branch_scan]
    | c :: p, hp =>
      have hp1 : p.length ≤ n := by simpa using hp
      by_cases h0 : c = 0
      · subst h0; simp [scan_nul]
      by_cases h1 : c = 95
      · subst h1
        match p, hp1 with
        | [], _ => simp [scan_trailing_underscore]
        | c1 :: p1, hp1 =>
          have hp2 : p1.length ≤ n := by simp at hp1; omega
          by_cases h2 : c1 = 95
          · subst h2
            rw [scan_underscore_pair]
            have := ih p1 hp2 (r ++ [95])
            simp at this ⊢; omega
          by_cases h3 : c1 = 0
          · subst h3; simp [scan_underscore_nul]
          match p1, hp2 with
          | [], _ => simp [scan_truncated_one _ _ h2]
          | c2 :: p2, hp2 =>
            have hp3 : p2.length ≤ n := by simp at hp2; omega
            by_cases h4 : c2 = 0
            · subst h4; simp [scan_truncated_nul _ _ _ h2]
            rw [scan_hex_escape _ _ _ _ h2 h3 h4]
            have := ih p2 hp3 (r ++ [g_ascii_strtoull [c1, c2] 16 % 256])
            simp at this ⊢; omega
      · rw [scan_plain _ _ _ h0 h1]
        have := ih p hp1 (r ++ [if c = 47 then 45 else c])
        simp at this ⊢; omega

theorem scan_length_le (p r : List Nat) :
    (cache_branch_scan p r).length ≤ r.length + p.length :=
  scan_length_le_aux p.length p (Nat.le_refl _) r

theorem scan_length_lt_of_underscore (p : List Nat) :
    ∀ r, 95 ∈ p → (cache_branch_scan p r).length < r.length + p.length := by
  induction p with
  | nil => intro r h; cases h
  | cons c p ih =>
    intro r h
    by_cases h0 : c = 0
    · subst h0; simp [scan_nul]
    by_cases h1 : c = 95
    · subst h1
      match p with
      | [] => simp [scan_trailing_underscore]
      | c1 :: p1 =>
        by_cases h2 : c1 = 95
        · subst h2
          rw [scan_underscore_pair]
          have := scan_length_le p1 (r ++ [95])
          simp at this ⊢; omega
        by_cases h3 : c1 = 0
        · subst h3; simp [scan_underscore_nul]
        match p1 with
        | [] => simp [scan_truncated_one _ _ h2]
        | c2 :: p2 =>
          by_cases h4 : c2 = 0
          · subst h4; simp [scan_truncated_nul _ _ _ h2]
          rw [scan_hex_escape _ _ _ _ h2 h3 h4]
          have := scan_length_le p2 (r ++ [g_ascii_strtoull [c1, c2] 16 % 256])
          simp at this ⊢; omega
    · rw [scan_plain _ _ _ h0 h1]
      have hm : 95 ∈ p := by
        rcases List.mem_cons.mp h with h | h
        · exact absurd h.symm h1
        · exact h
      have := ih (r ++ [if c = 47 then 45 else c]) hm
      simp at this ⊢; omega

/-- C24: for every string `r` (a C string, so without NUL), malformed and
non-hexadecimal escapes included, decoding `rpmostree/pkg/` followed by `r`
returns a string that is at most as long as `r`, and exactly as long if and
only if `r` contains no `_`. The decoder is a total function. -/
theorem cache_branch_to_nevra_never_longer (r : List Nat) (h0 : 0 ∉ r) :
    ∃ d, rpmostree_cache_branch_to_nevra (cache_branch_pfx ++ r) = some d
      ∧ d.length ≤ r.length
      ∧ (d.length = r.length ↔ 95 ∉ r) := by
  refine ⟨cache_branch_scan r [], to_nevra_pfx r, ?_, ?_⟩
  · simpa using scan_length_le r []
  · constructor
    · intro heq hm
      have := scan_length_lt_of_underscore r [] hm
      simp at this
      omega
    · intro hu
      rw [scan_plain_all r [] h0 hu]
      simp

/-- The remainder `a_zz/b_`, with a non-hexadecimal and a truncated escape. -/
theorem cache_branch_to_nevra_never_longer_witness :
    ∃ d, rpmostree_cache_branch_to_nevra (cache_branch_pfx ++ cstr "a_zz/b_") = some d
      ∧ d.length ≤ (cstr "a_zz/b_").length
      ∧ (d.length = (cstr "a_zz/b_").length ↔ 95 ∉ cstr "a_zz/b_") :=
  cache_branch_to_nevra_never_longer (cstr "a_zz/b_") (by decide)

theorem c_str_of_no_nul (s : List Nat) (h : 0 ∉ s) : c_str s = s := by
  unfold c_str
  rw [List.takeWhile_eq_self_iff]
  intro b hb
  have : b ≠ 0 := fun hz => h (hz ▸ hb)
  simpa using this

theorem g_maxuint64_val : G_MAXUINT64 = 18446744073709551615 := by
  unfold G_MAXUINT64; norm_num

theorem parse_digits_decimal (d : List Nat) (hdig : ∀ c ∈ d, 48 ≤ c ∧ c ≤ 57) :
    ∀ (ui64 : Nat) (overflow moved : Bool) (v : Nat), ParsedValue ui64 overflow v →
      ∃ ui ov, g_parse_digits 10 d ui64 overflow moved = (ui, ov, moved || !d.isEmpty)
        ∧ ParsedValue ui ov (d.foldl (fun acc c => acc * 10 + (c - 48)) v) := by
  induction d with
  | nil =>
    intro ui64 overflow moved v h
    exact ⟨ui64, overflow, by simp [g_parse_digits], h⟩
  | cons c d ih =>
    intro ui64 overflow moved v h
    have hc := hdig c (List.mem_cons_self _ _)
    have hd : ∀ x ∈ d, 48 ≤ x ∧ x ≤ 57 := fun x hx => hdig x (List.mem_cons_of_mem _ hx)
    have hc0 : c ≠ 0 := by omega
    have hval : g_digit_value c = some (c - 48) := by
      unfold g_digit_value
      rw [if_pos hc]
    have hbase : ¬ (10 ≤ c - 48) := by omega
    rw [g_parse_digits]
    simp only [hc0, if_false, hval, hbase, List.foldl_cons]
    have hmax := g_maxuint64_val
    by_cases hov : G_MAXUINT64 / 10 < ui64 ∨ (ui64 = G_MAXUINT64 / 10 ∧ G_MAXUINT64 % 10 < c - 48)
    · rw [if_pos hov]
      have hrep : ParsedValue ui64 true (v * 10 + (c - 48)) := by
        refine Or.inr ⟨rfl, ?_⟩
        rw [hmax] at hov ⊢
        rcases h with ⟨_, h2, h3⟩ | ⟨_, h3⟩
        · subst h2
          rcases hov with h4 | ⟨h4, h5⟩
          · have : 1844674407370955161 < ui64 := by
              have e : 18446744073709551615 / 10 = 1844674407370955161 := by norm_num
              rw [e] at h4; exact h4
            omega
          · have e : 18446744073709551615 / 10 = 1844674407370955161 := by norm_num
            have e2 : 18446744073709551615 % 10 = 5 := by norm_num
            rw [e] at h4; rw [e2] at h5
            omega
        · rw [hmax] at h3; omega
      obtain ⟨ui, ov, h1, h2⟩ := ih hd ui64 true true _ hrep
      exact ⟨ui, ov, by rw [h1]; simp, h2⟩
    · rw [if_neg hov]
      have hrep : ParsedValue (ui64 * 10 + (c - 48)) overflow (v * 10 + (c - 48)) := by
        rcases h with ⟨h1, h2, h3⟩ | ⟨h1, h3⟩
        · refine Or.inl ⟨h1, by rw [h2], ?_⟩
          subst h2
          rw [hmax] at hov ⊢
          have e : 18446744073709551615 / 10 = 1844674407370955161 := by norm_num
          have e2 : 18446744073709551615 % 10 = 5 := by norm_num
          rw [e, e2] at hov
          omega
        · refine Or.inr ⟨h1, ?_⟩
          omega
      obtain ⟨ui, ov, h1, h2⟩ := ih hd _ overflow true _ hrep
      exact ⟨ui, ov, by rw [h1]; simp, h2⟩

theorem strtoull_decimal (d : List Nat) (hne : d ≠ []) (hdig : ∀ c ∈ d, 48 ≤ c ∧ c ≤ 57) :
    g_ascii_strtoull d 10 = min (decimal_value d) G_MAXUINT64 := by
  obtain ⟨c, d1, rfl⟩ := List.exists_cons_of_ne_nil hne
  have hc := hdig c (List.mem_cons_self _ _)
  obtain ⟨ui, ov, h1, h2⟩ := parse_digits_decimal (c :: d1) hdig 0 false false 0
    (Or.inl ⟨rfl, rfl, Nat.zero_le _⟩)
  have hsp : g_skip_space (c :: d1) = c :: d1 := by
    have : g_ascii_isspace c = false := by
      unfold g_ascii_isspace
      simp
      omega
    simp [g_skip_space, this]
  have hc0 : c ≠ 0 := by omega
  have hc45 : c ≠ 45 := by omega
  have hc43 : c ≠ 43 := by omega
  unfold g_ascii_strtoull g_parse_long_long
  simp only [hsp, List.headD_cons, hc0, if_false, hc45, hc43, or_self, beq_iff_eq]
  have h16 : ¬ ((10 : Nat) = 16) := by norm_num
  simp only [h16, false_and, and_false, if_false, h1]
  simp only [List.isEmpty_cons, Bool.not_false, Bool.or_true, Bool.not_true]
  unfold decimal_value
  have hb : (c == 45) = false := by simpa using hc45
  rcases h2 with ⟨ho, hu, hv⟩ | ⟨ho, hv⟩
  · subst ho
    simp only [Bool.false_eq_true, if_false, hb]
    rw [hu]
    exact (Nat.min_eq_left hv).symm
  · subst ho
    simp only [Bool.false_eq_true, if_true, if_false, hb]
    exact (Nat.min_eq_right (Nat.le_of_lt hv)).symm

theorem next_version_null (p : List Nat) (hp : 0 ∉ p) :
    _rpmostree_util_next_version p none = p := by
  simp [_rpmostree_util_next_version, c_str_of_no_nul p hp]

theorem next_version_same (p : List Nat) (hp : 0 ∉ p) :
    _rpmostree_util_next_version p (some p) = p ++ [46, 49] := by
  simp [_rpmostree_util_next_version, c_str_of_no_nul p hp]

theorem next_version_after (p : List Nat) (c : Nat) (rest : List Nat) (hp : 0 ∉ p) (hc : c ≠ 0)
    (hrest : 0 ∉ rest) :
    _rpmostree_util_next_version p (some (p ++ c :: rest))
      = if c ≠ 46 then p
        else p ++ [46] ++ g_format_llu ((g_ascii_strtoull rest 10 + 1) % 2 ^ 64) := by
  have hl : (0 : Nat) ∉ p ++ c :: rest := by
    simp only [List.mem_append, List.mem_cons, not_or]
    exact ⟨hp, Ne.symm hc, hrest⟩
  unfold _rpmostree_util_next_version
  simp only [c_str_of_no_nul p hp, c_str_of_no_nul _ hl]
  have h1 : p.isPrefixOf (p ++ c :: rest) = true := by
    rw [List.isPrefixOf_iff_prefix]; exact List.prefix_append _ _
  have h2 : p ++ c :: rest ≠ p := by
    intro h
    have := congrArg List.length h
    simp at this
  simp [h1, h2]

theorem next_version_not_started (p lv : List Nat) (hp : 0 ∉ p) (hlv : 0 ∉ lv)
    (h : ¬ p <+: lv) : _rpmostree_util_next_version p (some lv) = p := by
  unfold _rpmostree_util_next_version
  simp only [c_str_of_no_nul p hp, c_str_of_no_nul lv hlv]
  have h1 : p.isPrefixOf lv = false := by
    cases hb : p.isPrefixOf lv with
    | false => rfl
    | true => exact absurd (List.isPrefixOf_iff_prefix.mp hb) h
  simp [h1]

theorem next_version_starts_with (p : List Nat) (last_version : Option (List Nat)) :
    c_str p <+: _rpmostree_util_next_version p last_version := by
  unfold _rpmostree_util_next_version
  cases last_version with
  | none => exact List.prefix_refl _
  | some lv =>
    simp only
    split_ifs
    · exact List.prefix_refl _
    · exact List.prefix_append _ _
    · exact List.prefix_refl _
    · rw [List.append_assoc]; exact List.prefix_append _ _

/-- C21: for every automatic version `p`, the version after `p` itself is `p.1`;
and the version after `p.d`, for a non-empty string `d` of decimal digits that
denotes `N`, is `p.` followed by the decimal form of
`(min(N, 2^64 - 1) + 1) mod 2^64`: that is `p.(N+1)` while `N < 2^64 - 1`, and
`p.0` once the parsed number saturates. After `10.1.41` comes `10.1.42`, after
`10.1.18446744073709551615` comes `10.1.0`. -/
theorem next_version_increments (p d : List Nat) (hp : 0 ∉ p) (hne : d ≠ [])
    (hdig : ∀ c ∈ d, 48 ≤ c ∧ c ≤ 57) :
    _rpmostree_util_next_version p (some p) = p ++ cstr ".1"
      ∧ _rpmostree_util_next_version p (some (p ++ cstr "." ++ d))
          = p ++ cstr "." ++ g_format_llu ((min (decimal_value d) (2 ^ 64 - 1) + 1) % 2 ^ 64)
      ∧ (decimal_value d < 2 ^ 64 - 1 →
          _rpmostree_util_next_version p (some (p ++ cstr "." ++ d))
            = p ++ cstr "." ++ g_format_llu (decimal_value d + 1))
      ∧ (2 ^ 64 - 1 ≤ decimal_value d →
          _rpmostree_util_next_version p (some (p ++ cstr "." ++ d)) = p ++ cstr ".0")
      ∧ _rpmostree_util_next_version (cstr "10.1") (some (cstr "10.1.41")) = cstr "10.1.42"
      ∧ _rpmostree_util_next_version (cstr "10.1") (some (cstr "10.1.18446744073709551615"))
          = cstr "10.1.0" := by
  have hd0 : (0 : Nat) ∉ d := fun h => by have := hdig 0 h; omega
  have hdot : cstr "." = [46] := by decide
  have hmain : _rpmostree_util_next_version p (some (p ++ cstr "." ++ d))
      = p ++ cstr "." ++ g_format_llu ((min (decimal_value d) (2 ^ 64 - 1) + 1) % 2 ^ 64) := by
    rw [hdot, List.append_assoc, List.singleton_append,
      next_version_after p 46 d hp (by norm_num) hd0, strtoull_decimal d hne hdig]
    simp [G_MAXUINT64]
  refine ⟨?_, hmain, fun hlt => ?_, fun hge => ?_, by decide, by decide⟩
  · rw [next_version_same p hp]
    have : cstr ".1" = [46, 49] := by decide
    rw [this]
  · rw [hmain, Nat.min_eq_left (Nat.le_of_lt hlt)]
    have h2 : decimal_value d + 1 < 2 ^ 64 := by omega
    rw [Nat.mod_eq_of_lt h2]
  · rw [hmain, Nat.min_eq_right hge]
    have h0 : cstr ".0" = cstr "." ++ g_format_llu 0 := by decide
    rw [h0]
    have : (2 ^ 64 - 1 + 1) % 2 ^ 64 = 0 := by norm_num
    rw [this, List.append_assoc]

/-- The automatic version `10.1` and the last version `10.1.41`. -/
theorem next_version_increments_witness :
    _rpmostree_util_next_version (cstr "10.1") (some (cstr "10.1")) = cstr "10.1" ++ cstr ".1"
      ∧ _rpmostree_util_next_version (cstr "10.1") (some (cstr "10.1" ++ cstr "." ++ cstr "41"))
          = cstr "10.1" ++ cstr "."
              ++ g_format_llu ((min (decimal_value (cstr "41")) (2 ^ 64 - 1) + 1) % 2 ^ 64)
      ∧ (decimal_value (cstr "41") < 2 ^ 64 - 1 →
          _rpmostree_util_next_version (cstr "10.1") (some (cstr "10.1" ++ cstr "." ++ cstr "41"))
            = cstr "10.1" ++ cstr "." ++ g_format_llu (decimal_value (cstr "41") + 1))
      ∧ (2 ^ 64 - 1 ≤ decimal_value (cstr "41") →
          _rpmostree_util_next_version (cstr "10.1") (some (cstr "10.1" ++ cstr "." ++ cstr "41"))
            = cstr "10.1" ++ cstr ".0")
      ∧ _rpmostree_util_next_version (cstr "10.1") (some (cstr "10.1.41")) = cstr "10.1.42"
      ∧ _rpmostree_util_next_version (cstr "10.1") (some (cstr "10.1.18446744073709551615"))
          = cstr "10.1.0" :=
  next_version_increments (cstr "10.1") (cstr "41") (by decide) (by decide) (by decide)

/-- C22: for every automatic version `p`, the result is exactly `p` when there is
no last version, when the last version does not start with `p`, and when it
starts with `p` and the character right after `p` is not `.` (the version
after `10` for `p = 1` is `1`); and in every case the result starts with
`p`. -/
theorem next_version_restarts (p : List Nat) (hp : 0 ∉ p) :
    _rpmostree_util_next_version p none = p
      ∧ (∀ lv : List Nat, 0 ∉ lv → ¬ p <+: lv → _rpmostree_util_next_version p (some lv) = p)
      ∧ (∀ (c : Nat) (rest : List Nat), c ≠ 46 → c ≠ 0 → 0 ∉ rest →
          _rpmostree_util_next_version p (some (p ++ c :: rest)) = p)
      ∧ (∀ last_version : Option (List Nat), p <+: _rpmostree_util_next_version p last_version)
      ∧ _rpmostree_util_next_version (cstr "1") (some (cstr "10")) = cstr "1" := by
  refine ⟨next_version_null p hp, fun lv hlv h => next_version_not_started p lv hp hlv h,
    fun c rest h46 h0 hrest => ?_, fun lv => ?_, by decide⟩
  · rw [next_version_after p c rest hp h0 hrest, if_pos h46]
  · have := next_version_starts_with p lv
    rwa [c_str_of_no_nul p hp] at this

/-- The automatic version `2017.3`. -/
theorem next_version_restarts_witness :
    _rpmostree_util_next_version (cstr "2017.3") none = cstr "2017.3"
      ∧ (∀ lv : List Nat, 0 ∉ lv → ¬ cstr "2017.3" <+: lv →
          _rpmostree_util_next_version (cstr "2017.3") (some lv) = cstr "2017.3")
      ∧ (∀ (c : Nat) (rest : List Nat), c ≠ 46 → c ≠ 0 → 0 ∉ rest →
          _rpmostree_util_next_version (cstr "2017.3") (some (cstr "2017.3" ++ c :: rest))
            = cstr "2017.3")
      ∧ (∀ last_version : Option (List Nat),
          cstr "2017.3" <+: _rpmostree_util_next_version (cstr "2017.3") last_version)
      ∧ _rpmostree_util_next_version (cstr "1") (some (cstr "10")) = cstr "1" :=
  next_version_restarts (cstr "2017.3") (by decide)


theorem c_str_cons_ne (c : Nat) (s : List Nat) (hc : c ≠ 0) : c_str (c :: s) = c :: c_str s := by
  simp [c_str, List.takeWhile_cons, hc]

theorem c_str_nul (s : List Nat) : c_str (0 :: s) = [] := by
  simp [c_str]

theorem strlen_of_no_nul (s : List Nat) (h : 0 ∉ s) : strlen s = s.length := by
  have := c_str_of_no_nul s h
  unfold c_str at this
  unfold strlen
  rw [this]

theorem var_open_prefix_iff (c : Nat) (s : List Nat) :
    [36, 123].isPrefixOf (c_str (c :: s)) = true ↔ (c = 36 ∧ s.headD 0 = 123) := by
  by_cases hc : c = 0
  · subst hc; simp [c_str_nul, List.isPrefixOf]
  · rw [c_str_cons_ne c s hc]
    cases s with
    | nil => simp [c_str, List.isPrefixOf]
    | cons b s =>
      by_cases hb : b = 0
      · subst hb; simp [c_str_nul, List.isPrefixOf]
      · rw [c_str_cons_ne b s hb]
        simp only [List.isPrefixOf, Bool.and_true, Bool.and_eq_true, beq_iff_eq, List.headD_cons]
        constructor
        · rintro ⟨h1, h2⟩; exact ⟨h1.symm, h2.symm⟩
        · rintro ⟨h1, h2⟩; exact ⟨h1.symm, h2.symm⟩

theorem strstr_cons (c : Nat) (s : List Nat) :
    strstr (c :: s) [36, 123]
      = if c = 36 ∧ s.headD 0 = 123 then some ([], c :: s)
        else if c = 0 then none
        else match strstr s [36, 123] with
          | none => none
          | some (before, found) => some (c :: before, found) := by
  rw [strstr]
  by_cases h : c = 36 ∧ s.headD 0 = 123
  · rw [if_pos ((var_open_prefix_iff c s).mpr h), if_pos h]
  · have : ¬ ([36, 123].isPrefixOf (c_str (c :: s)) = true) := fun hp =>
      h ((var_open_prefix_iff c s).mp hp)
    rw [if_neg this, if_neg h]

theorem has_var_open_cons (a : Nat) (t : List Nat) (h : has_var_open (a :: t) = false) :
    ¬ (a = 36 ∧ t.headD 0 = 123) ∧ has_var_open t = false := by
  cases t with
  | nil => simp [has_var_open]
  | cons b t =>
    simp only [has_var_open, Bool.or_eq_false_iff, Bool.and_eq_false_iff] at h
    refine ⟨fun hc => ?_, h.2⟩
    simp only [List.headD_cons] at hc
    rcases h.1 with h1 | h1
    · simp [hc.1] at h1
    · simp [hc.2] at h1

theorem strstr_first (t rest : List Nat) (hopen : has_var_open t = false) (h0 : 0 ∉ t) :
    strstr (t ++ 36 :: 123 :: rest) [36, 123] = some (t, 36 :: 123 :: rest) := by
  induction t with
  | nil => rw [List.nil_append, strstr_cons]; simp
  | cons a t ih =>
    obtain ⟨hna, hopen1⟩ := has_var_open_cons a t hopen
    simp only [List.mem_cons, not_or] at h0
    rw [List.cons_append, strstr_cons]
    have hhead : ¬ (a = 36 ∧ (t ++ 36 :: 123 :: rest).headD 0 = 123) := by
      intro hc
      cases t with
      | nil => simp at hc
      | cons b t => exact hna ⟨hc.1, by simpa using hc.2⟩
    rw [if_neg hhead, if_neg (Ne.symm h0.1), ih hopen1 h0.2]

theorem strstr_none (t : List Nat) (hopen : has_var_open t = false) :
    strstr t [36, 123] = none := by
  induction t with
  | nil => rfl
  | cons a t ih =>
    obtain ⟨hna, hopen1⟩ := has_var_open_cons a t hopen
    rw [strstr_cons, if_neg hna, ih hopen1]
    split_ifs <;> rfl

theorem strchr_first (v rest : List Nat) (c : Nat) (hv : c ∉ v) (h0 : 0 ∉ v) :
    strchr (v ++ c :: rest) c = some (v, c :: rest) := by
  induction v with
  | nil => simp [strchr]
  | cons b v ih =>
    simp only [List.mem_cons, not_or] at hv h0
    rw [List.cons_append, strchr, if_neg (Ne.symm hv.1), if_neg (Ne.symm h0.1), ih hv.2 h0.2]

theorem strchr_none (s : List Nat) (c : Nat) (h : c ∉ s) : strchr s c = none := by
  induction s with
  | nil => rfl
  | cons b s ih =>
    simp only [List.mem_cons, not_or] at h
    rw [strchr, if_neg (Ne.symm h.1), ih h.2]
    split_ifs <;> rfl

theorem strstr_split (s before p : List Nat) (h : strstr s [36, 123] = some (before, p)) :
    s = before ++ p ∧ ∃ rest, p = 36 :: 123 :: rest := by
  induction s generalizing before with
  | nil => simp [strstr] at h
  | cons c s ih =>
    rw [strstr_cons] at h
    split_ifs at h with h1 h2
    · cases h
      refine ⟨rfl, ?_⟩
      cases s with
      | nil => simp at h1
      | cons b s => exact ⟨s, by simp at h1; rw [h1.1, h1.2]⟩
    · cases hs : strstr s [36, 123] with
      | none => rw [hs] at h; cases h
      | some r =>
        obtain ⟨b1, f1⟩ := r
        rw [hs] at h
        cases h
        obtain ⟨e1, e2⟩ := ih b1 hs
        exact ⟨by rw [List.cons_append, ← e1], e2⟩

theorem strchr_split (s v e : List Nat) (c : Nat) (h : strchr s c = some (v, e)) :
    s = v ++ e ∧ ∃ rest, e = c :: rest := by
  induction s generalizing v with
  | nil => simp [strchr] at h
  | cons b s ih =>
    rw [strchr] at h
    split_ifs at h with h1 h2
    · cases h; exact ⟨rfl, s, by rw [h1]⟩
    · cases hs : strchr s c with
      | none => rw [hs] at h; cases h
      | some r =>
        obtain ⟨b1, f1⟩ := r
        rw [hs] at h
        cases h
        obtain ⟨e1, e2⟩ := ih b1 hs
        exact ⟨by rw [List.cons_append, ← e1], e2⟩

theorem strstr_exists (a b : List Nat) (h0 : 0 ∉ a) :
    ∃ before p, strstr (a ++ 36 :: 123 :: b) [36, 123] = some (before, p) := by
  induction a with
  | nil => exact ⟨[], 36 :: 123 :: b, by rw [List.nil_append, strstr_cons]; simp⟩
  | cons c a ih =>
    simp only [List.mem_cons, not_or] at h0
    obtain ⟨b1, p1, h1⟩ := ih h0.2
    rw [List.cons_append, strstr_cons]
    by_cases hc : c = 36 ∧ (a ++ 36 :: 123 :: b).headD 0 = 123
    · exact ⟨[], _, by rw [if_pos hc]⟩
    · exact ⟨c :: b1, p1, by rw [if_neg hc, if_neg (Ne.symm h0.1), h1]⟩

theorem varsubst_loop_done (instr : List Nat) (subs : List Nat → Option (List Nat)) (fuel : Nat)
    (s : List Nat) (offset : Nat) (result : List Nat) (h : strstr s [36, 123] = none) :
    varsubst_loop instr subs (fuel + 1) s offset result
      = if offset ≠ 0 then some (.ok (result ++ c_str s)) else some (.ok (c_str instr)) := by
  simp [varsubst_loop, h]

theorem varsubst_loop_step (instr : List Nat) (subs : List Nat → Option (List Nat)) (fuel : Nat)
    (s leading varname after : List Nat) (offset : Nat) (result : List Nat)
    (h1 : strstr s [36, 123] = some (leading, 36 :: 123 :: (varname ++ 125 :: after)))
    (h2 : strchr (varname ++ 125 :: after) 125 = some (varname, 125 :: after)) :
    varsubst_loop instr subs (fuel + 1) s offset result
      = match subs varname with
        | none => some (.error (.unknown varname))
        | some value =>
          varsubst_loop instr subs fuel after
            (offset + leading.length + 2 + varname.length + 1)
            (result ++ leading ++ c_str value) := by
  simp [varsubst_loop, h1, h2]

theorem varsubst_input_cons (t v : List Nat) (segs : List (List Nat × List Nat)) (tn : List Nat) :
    varsubst_input ((t, v) :: segs) tn
      = t ++ 36 :: 123 :: (v ++ 125 :: varsubst_input segs tn) := by
  simp [varsubst_input]

theorem varsubst_input_length (segs : List (List Nat × List Nat)) (tn : List Nat) :
    segs.length ≤ (varsubst_input segs tn).length := by
  induction segs with
  | nil => simp
  | cons seg segs ih =>
    obtain ⟨t, v⟩ := seg
    rw [varsubst_input_cons]
    simp
    omega

theorem varsubst_input_no_nul (segs : List (List Nat × List Nat)) (tn : List Nat)
    (h : VarsubstParts segs tn) : 0 ∉ varsubst_input segs tn := by
  induction segs with
  | nil => exact h.2.2
  | cons seg segs ih =>
    obtain ⟨t, v⟩ := seg
    have hseg := h.1 (t, v) (List.mem_cons_self _ _)
    have htail : VarsubstParts segs tn :=
      ⟨fun s hs => h.1 s (List.mem_cons_of_mem _ hs), h.2⟩
    rw [varsubst_input_cons]
    simp only [List.mem_append, List.mem_cons, not_or]
    exact ⟨hseg.2.1, by norm_num, by norm_num, hseg.2.2.2, by norm_num, ih htail⟩

theorem varsubst_loop_ok (instr : List Nat) (subs : List Nat → Option (List Nat))
    (tn : List Nat) (hvals : ∀ k value, subs k = some value → 0 ∉ value) :
    ∀ (segs : List (List Nat × List Nat)) (fuel offset : Nat) (result out : List Nat),
      VarsubstParts segs tn → varsubst_expected subs segs tn = some out → segs.length < fuel →
      (offset = 0 → segs = [] → c_str instr = result ++ tn) →
      varsubst_loop instr subs fuel (varsubst_input segs tn) offset result
        = some (.ok (result ++ out)) := by
  intro segs
  induction segs with
  | nil =>
    intro fuel offset result out hparts hexp hfuel hzero
    obtain ⟨f, rfl⟩ : ∃ f, fuel = f + 1 := ⟨fuel - 1, by omega⟩
    simp only [varsubst_expected, Option.some.injEq] at hexp
    subst hexp
    rw [varsubst_input, varsubst_loop_done _ _ _ _ _ _ (strstr_none tn hparts.2.1),
      c_str_of_no_nul tn hparts.2.2]
    by_cases ho : offset = 0
    · rw [if_neg (by simpa using ho), hzero ho rfl]
    · rw [if_pos ho]
  | cons seg segs ih =>
    intro fuel offset result out hparts hexp hfuel _
    obtain ⟨t, v⟩ := seg
    obtain ⟨f, rfl⟩ : ∃ f, fuel = f + 1 := ⟨fuel - 1, by omega⟩
    have hseg := hparts.1 (t, v) (List.mem_cons_self _ _)
    have htail : VarsubstParts segs tn :=
      ⟨fun s hs => hparts.1 s (List.mem_cons_of_mem _ hs), hparts.2⟩
    rw [varsubst_input_cons,
      varsubst_loop_step instr subs f _ t v (varsubst_input segs tn) offset result
        (strstr_first t _ hseg.1 hseg.2.1) (strchr_first v _ 125 hseg.2.2.1 hseg.2.2.2)]
    simp only [varsubst_expected] at hexp
    cases hv : subs v with
    | none => rw [hv] at hexp; cases hexp
    | some value =>
      cases he : varsubst_expected subs segs tn with
      | none => rw [hv, he] at hexp; cases hexp
      | some out1 =>
        rw [hv, he] at hexp
        cases hexp
        simp only
        rw [c_str_of_no_nul value (hvals v value hv),
          ih f _ _ out1 htail he (by simp at hfuel; omega) (fun h => by omega)]
        simp

theorem varsubst_loop_unknown (instr : List Nat) (subs : List Nat → Option (List Nat))
    (tn : List Nat) :
    ∀ (segs : List (List Nat × List Nat)) (fuel offset : Nat) (result : List Nat),
      VarsubstParts segs tn → (∃ seg ∈ segs, subs seg.2 = none) → segs.length < fuel →
      ∃ v, subs v = none ∧ (∃ seg ∈ segs, seg.2 = v)
        ∧ varsubst_loop instr subs fuel (varsubst_input segs tn) offset result
            = some (.error (.unknown v)) := by
  intro segs
  induction segs with
  | nil => intro _ _ _ _ h; obtain ⟨_, hm, _⟩ := h; cases hm
  | cons seg segs ih =>
    intro fuel offset result hparts hmiss hfuel
    obtain ⟨t, v⟩ := seg
    obtain ⟨f, rfl⟩ : ∃ f, fuel = f + 1 := ⟨fuel - 1, by omega⟩
    have hseg := hparts.1 (t, v) (List.mem_cons_self _ _)
    have htail : VarsubstParts segs tn :=
      ⟨fun s hs => hparts.1 s (List.mem_cons_of_mem _ hs), hparts.2⟩
    rw [varsubst_input_cons,
      varsubst_loop_step instr subs f _ t v (varsubst_input segs tn) offset result
        (strstr_first t _ hseg.1 hseg.2.1) (strchr_first v _ 125 hseg.2.2.1 hseg.2.2.2)]
    cases hv : subs v with
    | none => exact ⟨v, hv, ⟨(t, v), List.mem_cons_self _ _, rfl⟩, rfl⟩
    | some value =>
      obtain ⟨seg1, hm1, hs1⟩ := hmiss
      have hm2 : seg1 ∈ segs := by
        rcases List.mem_cons.mp hm1 with h | h
        · subst h; rw [hv] at hs1; cases hs1
        · exact h
      obtain ⟨w, hw1, ⟨sg, hsg, hsg2⟩, hw2⟩ := ih f
        (offset + t.length + 2 + v.length + 1) (result ++ t ++ c_str value) htail
        ⟨seg1, hm2, hs1⟩ (by simp at hfuel; omega)
      exact ⟨w, hw1, ⟨sg, List.mem_cons_of_mem _ hsg, hsg2⟩, hw2⟩

theorem varsubst_loop_unclosed (instr : List Nat) (subs : List Nat → Option (List Nat)) :
    ∀ (fuel : Nat) (s : List Nat) (offset : Nat) (result : List Nat),
      s.length < fuel → 0 ∉ s → (∃ a b, s = a ++ 36 :: 123 :: b ∧ 125 ∉ b) →
      ∃ e, varsubst_loop instr subs fuel s offset result = some (.error e) := by
  intro fuel
  induction fuel with
  | zero => intro s _ _ h; omega
  | succ fuel ih =>
    intro s offset result hlen h0 hunc
    obtain ⟨a, b, hs, hb⟩ := hunc
    have ha0 : 0 ∉ a := fun h => h0 (by rw [hs]; exact List.mem_append_left _ h)
    obtain ⟨before, p, hstr⟩ := strstr_exists a b ha0
    rw [← hs] at hstr
    obtain ⟨hsplit, rest, hp⟩ := strstr_split s before p hstr
    subst hp
    cases hchr : strchr rest 125 with
    | none =>
      exact ⟨.unclosed ((offset + before.length) % 2 ^ 32), by
        simp [varsubst_loop, hstr, hchr]⟩
    | some r =>
      obtain ⟨varname, varend⟩ := r
      obtain ⟨hrest, after, hend⟩ := strchr_split rest varname varend 125 hchr
      subst hend
      subst hrest
      rw [varsubst_loop_step instr subs fuel s before varname after offset result hstr hchr]
      cases hv : subs varname with
      | none => exact ⟨_, rfl⟩
      | some value =>
        simp only
        have hlen1 : after.length < fuel := by
          have := congrArg List.length hsplit
          simp at this
          omega
        have h01 : 0 ∉ after := fun h => h0 (by
          rw [hsplit]
          simp only [List.mem_append, List.mem_cons]
          exact Or.inr (Or.inr (Or.inr (Or.inr (Or.inr h)))))
        have hunc1 : ∃ a1 b1, after = a1 ++ 36 :: 123 :: b1 ∧ 125 ∉ b1 := by
          have heq : (before ++ 36 :: 123 :: varname) ++ 125 :: after = a ++ 36 :: 123 :: b := by
            rw [← hs, hsplit]; simp
          rcases List.append_eq_append_iff.mp heq with ⟨m, hm1, hm2⟩ | ⟨m, hm1, hm2⟩
          · cases m with
            | nil => simp at hm2
            | cons x m =>
              simp only [List.cons_append, List.cons.injEq] at hm2
              exact ⟨m, b, hm2.2, hb⟩
          · exfalso
            have hmem : (125 : Nat) ∈ 36 :: 123 :: b := by
              rw [hm2]; simp
            simp only [List.mem_cons] at hmem
            rcases hmem with h | h | h
            · norm_num at h
            · norm_num at h
            · exact hb h
        exact ih after _ _ hlen1 h01 hunc1

theorem varsubst_expected_some (subs : List Nat → Option (List Nat)) (tn : List Nat) :
    ∀ segs : List (List Nat × List Nat), (∀ seg ∈ segs, (subs seg.2).isSome = true) →
      ∃ out, varsubst_expected subs segs tn = some out := by
  intro segs
  induction segs with
  | nil => intro _; exact ⟨tn, rfl⟩
  | cons seg segs ih =>
    intro h
    obtain ⟨t, v⟩ := seg
    obtain ⟨out, ho⟩ := ih (fun s hs => h s (List.mem_cons_of_mem _ hs))
    have hv := h (t, v) (List.mem_cons_self _ _)
    obtain ⟨value, hval⟩ := Option.isSome_iff_exists.mp hv
    simp only at hval
    exact ⟨t ++ value ++ out, by simp [varsubst_expected, hval, ho]⟩

/-- C23: for an input `t0 ${v1} t1 ... ${vn} tn` in which no `ti` contains `${` and
no `vi` contains `}`: if every `vi` is a key of the table, the result is
`t0 val(v1) t1 ... val(vn) tn`, the values inserted as they are and not
expanded again; if some `vi` is not a key, the call fails, reporting an
unknown variable; for `n = 0` the result is the input. And every input that
has a `${` with no `}` after it makes the call fail. -/
theorem varsubst_substitutes (subs : List Nat → Option (List Nat))
    (segs : List (List Nat × List Nat)) (tn : List Nat) (hparts : VarsubstParts segs tn)
    (hvals : ∀ k value, subs k = some value → 0 ∉ value) :
    ((∀ seg ∈ segs, (subs seg.2).isSome = true) →
        ∃ out, varsubst_expected subs segs tn = some out
          ∧ _rpmostree_varsubst_string (varsubst_input segs tn) subs = some (.ok out))
      ∧ ((∃ seg ∈ segs, subs seg.2 = none) →
        ∃ v, subs v = none
          ∧ _rpmostree_varsubst_string (varsubst_input segs tn) subs
              = some (.error (.unknown v)))
      ∧ _rpmostree_varsubst_string tn subs = some (.ok tn)
      ∧ (∀ a b : List Nat, 0 ∉ a → 0 ∉ b → 125 ∉ b →
          ∃ e, _rpmostree_varsubst_string (a ++ cstr "$\x7b" ++ b) subs = some (.error e))
      ∧ _rpmostree_varsubst_string (cstr "bla $\x7bfoo\x7d blah $\x7bbar\x7d") sample_substitutions
          = some (.ok (cstr "bla 1 blah $\x7bfoo\x7d"))
      ∧ _rpmostree_varsubst_string (cstr "a$\x7bfoo\x7d$\x7bzz\x7d") sample_substitutions
          = some (.error (.unknown (cstr "zz")))
      ∧ _rpmostree_varsubst_string (cstr "a$\x7bfoo\x7db$\x7bfoo") sample_substitutions
          = some (.error (.unclosed 8)) := by
  have hnul := varsubst_input_no_nul segs tn hparts
  have hlen := varsubst_input_length segs tn
  refine ⟨fun hkeys => ?_, fun hmiss => ?_, ?_, fun a b ha hb hclose => ?_, by decide,
    by decide, by decide⟩
  · obtain ⟨out, hout⟩ := varsubst_expected_some subs tn segs hkeys
    refine ⟨out, hout, ?_⟩
    unfold _rpmostree_varsubst_string
    rw [strlen_of_no_nul _ hnul]
    have := varsubst_loop_ok (varsubst_input segs tn) subs tn hvals segs
      ((varsubst_input segs tn).length + 1) 0 [] out hparts hout (by omega)
      (fun _ hs => by rw [hs, varsubst_input, c_str_of_no_nul tn hparts.2.2]; rfl)
    simpa using this
  · unfold _rpmostree_varsubst_string
    rw [strlen_of_no_nul _ hnul]
    obtain ⟨v, hv, _, hrun⟩ := varsubst_loop_unknown (varsubst_input segs tn) subs tn segs
      ((varsubst_input segs tn).length + 1) 0 [] hparts hmiss (by omega)
    exact ⟨v, hv, hrun⟩
  · unfold _rpmostree_varsubst_string
    rw [strlen_of_no_nul tn hparts.2.2,
      varsubst_loop_done _ _ _ _ _ _ (strstr_none tn hparts.2.1), c_str_of_no_nul tn hparts.2.2]
    simp
  · have hopen : cstr "$\x7b" = [36, 123] := by decide
    have h0 : (0 : Nat) ∉ a ++ cstr "$\x7b" ++ b := by
      rw [hopen]
      simp only [List.mem_append, List.mem_cons, List.mem_singleton, not_or]
      exact ⟨⟨ha, by norm_num, by norm_num⟩, hb⟩
    unfold _rpmostree_varsubst_string
    rw [strlen_of_no_nul _ h0]
    exact varsubst_loop_unclosed _ subs _ _ 0 [] (by omega) h0
      ⟨a, b, by rw [hopen]; simp, hclose⟩

/-- The input `a$${foo} b ${bar}}c` with the sample table. -/
theorem varsubst_substitutes_witness :
    ((∀ seg ∈ [(cstr "a$", cstr "foo"), (cstr " b ", cstr "bar")],
          (sample_substitutions seg.2).isSome = true) →
        ∃ out, varsubst_expected sample_substitutions
              [(cstr "a$", cstr "foo"), (cstr " b ", cstr "bar")] (cstr "\x7dc") = some out
          ∧ _rpmostree_varsubst_string
              (varsubst_input [(cstr "a$", cstr "foo"), (cstr " b ", cstr "bar")] (cstr "\x7dc"))
              sample_substitutions = some (.ok out))
      ∧ ((∃ seg ∈ [(cstr "a$", cstr "foo"), (cstr " b ", cstr "bar")],
            sample_substitutions seg.2 = none) →
        ∃ v, sample_substitutions v = none
          ∧ _rpmostree_varsubst_string
              (varsubst_input [(cstr "a$", cstr "foo"), (cstr " b ", cstr "bar")] (cstr "\x7dc"))
              sample_substitutions = some (.error (.unknown v)))
      ∧ _rpmostree_varsubst_string (cstr "\x7dc") sample_substitutions = some (.ok (cstr "\x7dc"))
      ∧ (∀ a b : List Nat, 0 ∉ a → 0 ∉ b → 125 ∉ b →
          ∃ e, _rpmostree_varsubst_string (a ++ cstr "$\x7b" ++ b) sample_substitutions
            = some (.error e))
      ∧ _rpmostree_varsubst_string (cstr "bla $\x7bfoo\x7d blah $\x7bbar\x7d") sample_substitutions
          = some (.ok (cstr "bla 1 blah $\x7bfoo\x7d"))
      ∧ _rpmostree_varsubst_string (cstr "a$\x7bfoo\x7d$\x7bzz\x7d") sample_substitutions
          = some (.error (.unknown (cstr "zz")))
      ∧ _rpmostree_varsubst_string (cstr "a$\x7bfoo\x7db$\x7bfoo") sample_substitutions
          = some (.error (.unclosed 8)) :=
  varsubst_substitutes sample_substitutions [(cstr "a$", cstr "foo"), (cstr " b ", cstr "bar")]
    (cstr "\x7dc") (by decide) (fun k value h => by
      unfold sample_substitutions at h
      split_ifs at h <;> cases h <;> decide)

/-- C9 (amended): a failure to resolve `beg` or `end` is returned unchanged; a
commit that fails to load during the parent walk ends the walk like a commit
without parent: without `end` the resolver succeeds with the list collected so
far, and with an `end` that was not met it fails with `Invalid ref range`.
Each of the four statements holds on every store under its own conditions. -/
theorem get_commit_hashes_load_error_ends_walk (repo : OstreeRepo) (fuel : Nat) :
    (∀ (beg : String) (en : Option String) (err : GError),
        repo.read_commit beg = .error err →
        _rpmostree_util_get_commit_hashes fuel repo beg en = some (.error err))
      ∧ (∀ (beg end_ d : String) (err : GError),
        repo.read_commit beg = .ok d → repo.read_commit end_ = .error err →
        _rpmostree_util_get_commit_hashes fuel repo beg (some end_) = some (.error err))
      ∧ (∀ (beg d0 : String) (rest : List String) (err : GError),
        repo.read_commit beg = .ok d0 → ParentChain repo (d0 :: rest) →
        repo.load_commit ((d0 :: rest).getLast (List.cons_ne_nil d0 rest)) = .error err →
        rest.length + 1 ≤ fuel →
        _rpmostree_util_get_commit_hashes fuel repo beg none = some (.ok (beg :: rest)))
      ∧ (∀ (beg end_ d0 e : String) (rest : List String) (err : GError),
        repo.read_commit beg = .ok d0 → repo.read_commit end_ = .ok e →
        ParentChain repo (d0 :: rest) →
        repo.load_commit ((d0 :: rest).getLast (List.cons_ne_nil d0 rest)) = .error err →
        e ∉ d0 :: rest → rest.length + 1 ≤ fuel →
        _rpmostree_util_get_commit_hashes fuel repo beg (some end_)
          = some (.error (invalid_ref_range end_ beg))) := by
  refine ⟨fun beg en err hbad => ?_, fun beg end_ d err hbeg hbad => ?_,
    fun beg d0 rest err hbeg hchain hfail hfuel => ?_,
    fun beg end_ d0 e rest err hbeg hend hchain hfail hnot hfuel => ?_⟩
  · simp [_rpmostree_util_get_commit_hashes, hbad]
  · simp [_rpmostree_util_get_commit_hashes, hbeg, read_end_commit, hbad]
  · exact get_commit_hashes_root_reached repo beg d0 rest fuel hbeg hchain
      (prev_commit_of_load_error repo _ err hfail) hfuel
  · exact get_commit_hashes_end_missed repo beg end_ d0 e rest fuel hbeg hend hchain
      (prev_commit_of_load_error repo _ err hfail) hnot hfuel

/-- The shallow store, where the commit `dB` is absent and the ref `Z` does not
resolve, and the store `tree_repo`, where every ref resolves and the commit
`zz` is absent. -/
theorem get_commit_hashes_load_error_ends_walk_witness :
    _rpmostree_util_get_commit_hashes 2 shallow_repo "Z" (some "A")
        = some (.error { code := .NOT_FOUND, message := "Refspec not found" })
      ∧ _rpmostree_util_get_commit_hashes 2 shallow_repo "C" (some "Z")
        = some (.error { code := .NOT_FOUND, message := "Refspec not found" })
      ∧ _rpmostree_util_get_commit_hashes 2 shallow_repo "C" none = some (.ok ["C", "dB"])
      ∧ _rpmostree_util_get_commit_hashes 2 shallow_repo "C" (some "A")
        = some (.error (invalid_ref_range "A" "C"))
      ∧ _rpmostree_util_get_commit_hashes 1 tree_repo "zz" none = some (.ok ["zz"])
      ∧ _rpmostree_util_get_commit_hashes 1 tree_repo "zz" (some "c1")
        = some (.error (invalid_ref_range "c1" "zz")) :=
  ⟨(get_commit_hashes_load_error_ends_walk shallow_repo 2).1 "Z" (some "A")
      { code := .NOT_FOUND, message := "Refspec not found" } (by decide),
    (get_commit_hashes_load_error_ends_walk shallow_repo 2).2.1 "C" "Z" "dC"
      { code := .NOT_FOUND, message := "Refspec not found" } (by decide) (by decide),
    (get_commit_hashes_load_error_ends_walk shallow_repo 2).2.2.1 "C" "dC" ["dB"]
      { code := .NOT_FOUND, message := "No such commit" } (by decide) (by decide) (by decide)
      (by decide),
    (get_commit_hashes_load_error_ends_walk shallow_repo 2).2.2.2 "C" "A" "dC" "dA" ["dB"]
      { code := .NOT_FOUND, message := "No such commit" } (by decide) (by decide) (by decide)
      (by decide) (by decide) (by decide),
    (get_commit_hashes_load_error_ends_walk tree_repo 1).2.2.1 "zz" "zz" []
      { code := .NOT_FOUND, message := "No such commit" } (by decide) (by decide) (by decide)
      (by decide),
    (get_commit_hashes_load_error_ends_walk tree_repo 1).2.2.2 "zz" "c1" "zz" "c1" []
      { code := .NOT_FOUND, message := "No such commit" } (by decide) (by decide) (by decide)
      (by decide) (by decide) (by decide)⟩

theorem metadata_is_layered_flag (metadata : List (String × GVariant)) (b : Bool)
    (h : g_variant_dict_get metadata "rpmostree.clientlayer" = some (.boolean b)) :
    metadata_is_layered metadata = b := by
  simp [metadata_is_layered, h]

theorem metadata_is_layered_no_flag (metadata : List (String × GVariant))
    (h : ∀ b, g_variant_dict_get metadata "rpmostree.clientlayer" ≠ some (.boolean b)) :
    metadata_is_layered metadata = (g_variant_dict_get metadata "rpmostree.spec").isSome := by
  unfold metadata_is_layered
  cases hg : g_variant_dict_get metadata "rpmostree.clientlayer" with
  | none => rfl
  | some v =>
    cases v with
    | boolean b => exact absurd hg (h b)
    | _ => rfl

theorem layered_info_ok_is_layered (repo : OstreeRepo) (deployment : OstreeDeployment)
    (commit : Commit) (oil obl olp orm orp : Bool) (out : LayeredInfo)
    (hload : repo.load_commit deployment.csum = .ok commit)
    (hrun : rpmostree_deployment_get_layered_info repo deployment oil obl olp orm orp
      = some (.ok out)) :
    out.is_layered = if oil then some (metadata_is_layered commit.metadata) else none := by
  obtain ⟨bl, lp, rm, rp, _, _, hout⟩ :=
    layered_info_ok_inv repo deployment commit oil obl olp orm orp out hload hrun
  rw [hout]

theorem layered_info_ok_base_layer (repo : OstreeRepo) (deployment : OstreeDeployment)
    (commit : Commit) (oil olp orm orp : Bool) (out : LayeredInfo)
    (hload : repo.load_commit deployment.csum = .ok commit)
    (hrun : rpmostree_deployment_get_layered_info repo deployment oil true olp orm orp
      = some (.ok out)) :
    layered_info_fetch_base commit (metadata_is_layered commit.metadata) true
      = some (out.base_layer.getD none) ∧ out.base_layer.isSome = true := by
  obtain ⟨bl, lp, rm, rp, hb, _, hout⟩ :=
    layered_info_ok_inv repo deployment commit oil true olp orm orp out hload hrun
  rw [hout, hb]
  simp

/-- C15: for every commit that loads, a call that requests `is_layered` alone
returns, and the reported flag is the value of the boolean key
`rpmostree.clientlayer` if that key is present as a boolean (also when it is
false beside a treespec), and otherwise it says whether the key
`rpmostree.spec` is present; every returning call that requests `is_layered`
together with other outputs reports the same flag. The commit with only a
treespec gives true, the commit with neither key gives false, the commit whose
flag is false beside a treespec gives false. -/
theorem layered_info_is_layered_rule (repo : OstreeRepo) (deployment : OstreeDeployment)
    (commit : Commit) (hload : repo.load_commit deployment.csum = .ok commit) :
    (∃ flag : Bool,
        rpmostree_deployment_get_layered_info repo deployment true false false false false
          = some (.ok { is_layered := some flag, base_layer := none, layered_pkgs := none,
                        removed_base_pkgs := none, replaced_base_pkgs := none })
        ∧ (∀ b, g_variant_dict_get commit.metadata "rpmostree.clientlayer"
              = some (.boolean b) → flag = b)
        ∧ ((∀ b, g_variant_dict_get commit.metadata "rpmostree.clientlayer"
              ≠ some (.boolean b)) →
            flag = (g_variant_dict_get commit.metadata "rpmostree.spec").isSome)
        ∧ (∀ (obl olp orm orp : Bool) (out : LayeredInfo),
            rpmostree_deployment_get_layered_info repo deployment true obl olp orm orp
              = some (.ok out) → out.is_layered = some flag))
      ∧ rpmostree_deployment_get_layered_info layered_repo { csum := "legacy" }
          true false false false false
        = some (.ok { is_layered := some true, base_layer := none, layered_pkgs := none,
                      removed_base_pkgs := none, replaced_base_pkgs := none })
      ∧ rpmostree_deployment_get_layered_info layered_repo { csum := "plain" }
          true false false false false
        = some (.ok { is_layered := some false, base_layer := none, layered_pkgs := none,
                      removed_base_pkgs := none, replaced_base_pkgs := none })
      ∧ rpmostree_deployment_get_layered_info layered_repo { csum := "unflagged" }
          true false false false false
        = some (.ok { is_layered := some false, base_layer := none, layered_pkgs := none,
                      removed_base_pkgs := none, replaced_base_pkgs := none }) := by
  refine ⟨⟨metadata_is_layered commit.metadata, ?_,
    fun b hb => metadata_is_layered_flag _ b hb,
    fun hnb => metadata_is_layered_no_flag _ hnb,
    fun obl olp orm orp out hrun => ?_⟩, by decide, by decide, by decide⟩
  · rw [layered_info_unfold repo deployment commit true false false false false hload]
    simp [layered_info_fetch_base, layered_info_fetch_pkgs]
  · rw [layered_info_ok_is_layered repo deployment commit true obl olp orm orp out hload hrun]
    rfl

/-- The commit `legacy`, which has no flag and a treespec. -/
theorem layered_info_is_layered_rule_witness :
    (∃ flag : Bool,
        rpmostree_deployment_get_layered_info layered_repo { csum := "legacy" }
            true false false false false
          = some (.ok { is_layered := some flag, base_layer := none, layered_pkgs := none,
                        removed_base_pkgs := none, replaced_base_pkgs := none })
        ∧ (∀ b, g_variant_dict_get legacy_commit.metadata "rpmostree.clientlayer"
              = some (.boolean b) → flag = b)
        ∧ ((∀ b, g_variant_dict_get legacy_commit.metadata "rpmostree.clientlayer"
              ≠ some (.boolean b)) →
            flag = (g_variant_dict_get legacy_commit.metadata "rpmostree.spec").isSome)
        ∧ (∀ (obl olp orm orp : Bool) (out : LayeredInfo),
            rpmostree_deployment_get_layered_info layered_repo { csum := "legacy" }
                true obl olp orm orp
              = some (.ok out) → out.is_layered = some flag))
      ∧ rpmostree_deployment_get_layered_info layered_repo { csum := "legacy" }
          true false false false false
        = some (.ok { is_layered := some true, base_layer := none, layered_pkgs := none,
                      removed_base_pkgs := none, replaced_base_pkgs := none })
      ∧ rpmostree_deployment_get_layered_info layered_repo { csum := "plain" }
          true false false false false
        = some (.ok { is_layered := some false, base_layer := none, layered_pkgs := none,
                      removed_base_pkgs := none, replaced_base_pkgs := none })
      ∧ rpmostree_deployment_get_layered_info layered_repo { csum := "unflagged" }
          true false false false false
        = some (.ok { is_layered := some false, base_layer := none, layered_pkgs := none,
                      removed_base_pkgs := none, replaced_base_pkgs := none }) :=
  layered_info_is_layered_rule layered_repo { csum := "legacy" } legacy_commit (by decide)

/-- C19: for every commit that loads and every choice of the other outputs, a
call that requests `base_layer` for a commit that is not layered returns and
reports NULL, whatever the parent of the commit; for a layered commit with a
parent, a call that requests `base_layer` and at most `is_layered` besides
returns and reports the parent digest, and every returning call that requests
`base_layer` reports the parent digest. The layered commit `legacy` gives its
parent `base0`; the commit `plain`, not layered, gives NULL although it has
the parent `base0`. -/
theorem layered_info_base_layer (repo : OstreeRepo) (deployment : OstreeDeployment)
    (commit : Commit) (oil olp orm orp : Bool)
    (hload : repo.load_commit deployment.csum = .ok commit) :
    (metadata_is_layered commit.metadata = false →
        rpmostree_deployment_get_layered_info repo deployment oil true olp orm orp
          = some (.ok { is_layered := if oil then some false else none,
                        base_layer := some none,
                        layered_pkgs := if olp then some (some []) else none,
                        removed_base_pkgs := if orm then some (some (.array_v [])) else none,
                        replaced_base_pkgs := if orp then some (some (.array_vv [])) else none }))
      ∧ (metadata_is_layered commit.metadata = true → ∀ p, commit.parent = some p →
          rpmostree_deployment_get_layered_info repo deployment oil true false false false
              = some (.ok { is_layered := if oil then some true else none,
                            base_layer := some (some p), layered_pkgs := none,
                            removed_base_pkgs := none, replaced_base_pkgs := none })
            ∧ ∀ out, rpmostree_deployment_get_layered_info repo deployment oil true olp orm orp
                = some (.ok out) → out.base_layer = some (some p))
      ∧ rpmostree_deployment_get_layered_info layered_repo { csum := "legacy" }
          false true false false false
        = some (.ok { is_layered := none, base_layer := some (some "base0"),
                      layered_pkgs := none, removed_base_pkgs := none,
                      replaced_base_pkgs := none })
      ∧ plain_commit.parent = some "base0"
      ∧ rpmostree_deployment_get_layered_info layered_repo { csum := "plain" }
          false true false false false
        = some (.ok { is_layered := none, base_layer := some none, layered_pkgs := none,
                      removed_base_pkgs := none, replaced_base_pkgs := none }) := by
  refine ⟨fun hl => ?_, fun hl p hp => ⟨?_, fun out hrun => ?_⟩, by decide, by decide, by decide⟩
  · rw [layered_info_unfold repo deployment commit oil true olp orm orp hload, hl,
      fetch_pkgs_not_layered]
    simp [layered_info_fetch_base]
  · rw [layered_info_unfold repo deployment commit oil true false false false hload, hl]
    simp [layered_info_fetch_base, layered_info_fetch_pkgs, hp]
  · obtain ⟨hb, hs⟩ := layered_info_ok_base_layer repo deployment commit oil olp orm orp out
      hload hrun
    simp only [layered_info_fetch_base, hl, hp, and_self, if_true, Option.some.injEq] at hb
    cases hbl : out.base_layer with
    | none => rw [hbl] at hs; cases hs
    | some v => rw [hbl] at hb; simp at hb; rw [← hb]

/-- The commit `plain`, not layered, and the layered commit `legacy`, each with a
parent. -/
theorem layered_info_base_layer_witness :
    rpmostree_deployment_get_layered_info layered_repo { csum := "plain" }
        true true true true true
      = some (.ok { is_layered := some false, base_layer := some none,
                    layered_pkgs := some (some []),
                    removed_base_pkgs := some (some (.array_v [])),
                    replaced_base_pkgs := some (some (.array_vv [])) })
    ∧ (rpmostree_deployment_get_layered_info layered_repo { csum := "legacy" }
          true true false false false
        = some (.ok { is_layered := some true, base_layer := some (some "base0"),
                      layered_pkgs := none, removed_base_pkgs := none,
                      replaced_base_pkgs := none })
      ∧ ∀ out, rpmostree_deployment_get_layered_info layered_repo { csum := "legacy" }
            true true true true true
          = some (.ok out) → out.base_layer = some (some "base0")) :=
  ⟨(layered_info_base_layer layered_repo { csum := "plain" } plain_commit true true true true
      (by decide)).1 (by decide),
    (layered_info_base_layer layered_repo { csum := "legacy" } legacy_commit true true true true
      (by decide)).2.1 (by decide) "base0" (by decide)⟩

theorem fetch_pkgs_layered_returns (dict : GVariantDict) (ver : Nat) (orm : Bool)
    (pkgs : List String)
    (hl : layered_info_fetch_layered_pkgs dict ver = some pkgs)
    (hv2 : 2 ≤ ver →
      (g_variant_dict_lookup_value dict "rpmostree.removed-base-packages" "av").isSome = true
        ∧ (g_variant_dict_lookup_value dict "rpmostree.replaced-base-packages" "a(vv)").isSome
            = true) :
    ∃ rm rp, layered_info_fetch_pkgs dict true ver true orm = some (some pkgs, rm, rp) := by
  unfold layered_info_fetch_pkgs
  simp only [true_and, true_or, if_true, hl]
  by_cases hv : 2 ≤ ver
  · obtain ⟨h1, h2⟩ := hv2 hv
    obtain ⟨v1, hv1⟩ := Option.isSome_iff_exists.mp h1
    obtain ⟨v2, hv2⟩ := Option.isSome_iff_exists.mp h2
    rw [if_pos hv, hv1, hv2]
    exact ⟨some v1, some v2, rfl⟩
  · rw [if_neg hv]
    exact ⟨none, none, rfl⟩

/-- C12: for every layered commit that loads, with `layered_pkgs` requested and
every choice of the other outputs: let `pkgs` be, for a client layer version of
at least 1, the string list stored under `rpmostree.packages`, and for version
0 (or no version) the string list stored under `packages` of the treespec
stored under `rpmostree.spec`. Then every returning call reports exactly
`pkgs`; and the call does return, reporting `pkgs`, whenever the commit has a
parent if `base_layer` is requested and, from version 2 on, holds the two
base-package keys (without them the call stops at a `g_assert`). The version-0
commit without flag whose treespec lists `foo`, `bar` gives `is_layered = true`
and the packages `foo`, `bar`; the version-2 commit gives the packages of its
key `rpmostree.packages`. -/
theorem layered_info_layered_pkgs (repo : OstreeRepo) (deployment : OstreeDeployment)
    (commit : Commit) (oil obl orm orp : Bool) (pkgs : List String)
    (hload : repo.load_commit deployment.csum = .ok commit)
    (hlayered : metadata_is_layered commit.metadata = true)
    (hstored :
      (1 ≤ metadata_clientlayer_version commit.metadata
          ∧ g_variant_dict_get commit.metadata "rpmostree.packages" = some (.strv pkgs))
        ∨ (metadata_clientlayer_version commit.metadata = 0
          ∧ ∃ entries,
              g_variant_dict_get commit.metadata "rpmostree.spec" = some (.vardict entries)
                ∧ g_variant_dict_get (g_variant_asv_entries (.vardict entries)) "packages"
                    = some (.strv pkgs))) :
    (∀ out, rpmostree_deployment_get_layered_info repo deployment oil obl true orm orp
        = some (.ok out) → out.layered_pkgs = some (some pkgs))
      ∧ ((obl = true → commit.parent.isSome = true) →
          (2 ≤ metadata_clientlayer_version commit.metadata →
            (g_variant_dict_lookup_value commit.metadata
                "rpmostree.removed-base-packages" "av").isSome = true
              ∧ (g_variant_dict_lookup_value commit.metadata
                  "rpmostree.replaced-base-packages" "a(vv)").isSome = true) →
          ∃ out, rpmostree_deployment_get_layered_info repo deployment oil obl true orm orp
              = some (.ok out)
            ∧ out.is_layered = (if oil then some true else none)
            ∧ out.layered_pkgs = some (some pkgs))
      ∧ rpmostree_deployment_get_layered_info layered_repo { csum := "legacy" }
          true false true true true
        = some (.ok { is_layered := some true, base_layer := none,
                      layered_pkgs := some (some ["foo", "bar"]),
                      removed_base_pkgs := some (some (.array_v [])),
                      replaced_base_pkgs := some (some (.array_vv [])) })
      ∧ rpmostree_deployment_get_layered_info layered_repo { csum := "v2" }
          true true true true true
        = some (.ok v2_info) := by
  have hfetch : layered_info_fetch_layered_pkgs commit.metadata
      (metadata_clientlayer_version commit.metadata) = some pkgs := by
    rcases hstored with ⟨hv, hg⟩ | ⟨hv, entries, hs, hg⟩
    · exact fetch_layered_pkgs_v1 _ _ pkgs hv hg
    · exact fetch_layered_pkgs_v0 _ _ entries pkgs hv hs hg
  refine ⟨fun out hrun => ?_, fun hbase hv2 => ?_, by decide, by decide⟩
  · obtain ⟨bl, lp, rm, rp, _, hp, hout⟩ :=
      layered_info_ok_inv repo deployment commit oil obl true orm orp out hload hrun
    rw [hlayered] at hp
    obtain ⟨l, hl, hlp⟩ := fetch_pkgs_layered_requested _ _ orm _ hp
    rw [hfetch] at hl
    cases hl
    rw [hout]
    simp only at hlp
    simp [hlp]
  · obtain ⟨rm, rp, hp⟩ := fetch_pkgs_layered_returns commit.metadata
      (metadata_clientlayer_version commit.metadata) orm pkgs hfetch hv2
    have hb : ∃ bl, layered_info_fetch_base commit true obl = some bl := by
      unfold layered_info_fetch_base
      by_cases ho : obl = true
      · obtain ⟨p, hpar⟩ := Option.isSome_iff_exists.mp (hbase ho)
        exact ⟨some p, by simp [ho, hpar]⟩
      · exact ⟨none, by simp [ho]⟩
    obtain ⟨bl, hbl⟩ := hb
    rw [layered_info_unfold repo deployment commit oil obl true orm orp hload, hlayered, hbl, hp]
    exact ⟨_, rfl, rfl, by simp⟩

/-- The layered commits `v2` (version 2) and `legacy` (version 0), each with every
output requested. -/
theorem layered_info_layered_pkgs_witness :
    (∃ out, rpmostree_deployment_get_layered_info layered_repo { csum := "v2" }
          true true true true true = some (.ok out)
        ∧ out.is_layered = (if true then some true else none)
        ∧ out.layered_pkgs = some (some ["vim"]))
      ∧ (∃ out, rpmostree_deployment_get_layered_info layered_repo { csum := "legacy" }
          true true true true true = some (.ok out)
        ∧ out.is_layered = (if true then some true else none)
        ∧ out.layered_pkgs = some (some ["foo", "bar"])) :=
  ⟨(layered_info_layered_pkgs layered_repo { csum := "v2" } v2_commit true true true true
      ["vim"] (by decide) (by decide) (Or.inl (by decide))).2.1 (by decide) (by decide),
    (layered_info_layered_pkgs layered_repo { csum := "legacy" } legacy_commit true true true
      true ["foo", "bar"] (by decide) (by decide)
      (Or.inr ⟨by decide,
        [("packages", .strv ["foo", "bar"]), ("ref", .other "s" [120])],
        by decide, by decide⟩)).2.1 (by decide) (by decide)⟩

end RpmOstree
